import Mathlib

/-!
The orb-parser: a shallow embedding of `parser/scanner.go` and `parser/parser.go`.

Go strings are modelled as lists of characters (`Line`).  The scanner state is
passed explicitly.  The regular expressions of `parser.go` are transcribed as
values of `Regex` and run by a backtracking matcher with the preference order of
Go's `regexp` package (leftmost match, greedy or lazy repetition, submatches).
Loops run on fuel; `none` means the fuel ran out.
-/

namespace Orb

/-- A Go string, as its list of characters. -/
abbrev Line := List Char

/-! ## scanner.go -/

/-- The `Scanner` struct: the buffered lines and the cursor. -/
structure Scanner where
  buffer : List Line
  line : Nat
deriving Repr, DecidableEq

/-- `NewScanner`, over the lines that `bufio.Scanner` delivers. -/
def NewScanner (lines : List Line) : Scanner := ⟨lines, 0⟩

/-- `Scanner.EOF`. -/
def Scanner.EOF (s : Scanner) : Bool := decide (s.line > s.buffer.length)

/-- `Scanner.Scan`: the returned flag and the scanner afterwards. -/
def Scanner.Scan (s : Scanner) : Bool × Scanner :=
  let s1 : Scanner := if s.line ≤ s.buffer.length then ⟨s.buffer, s.line + 1⟩ else s
  (decide (s1.line ≤ s1.buffer.length), s1)

/-- `Scanner.Text`. -/
def Scanner.Text (s : Scanner) : Line :=
  if s.line = 0 ∨ s.EOF = true then [] else s.buffer.getD (s.line - 1) []

/-- `Scanner.Backtrack`: the returned flag and the scanner afterwards. -/
def Scanner.Backtrack (s : Scanner) : Bool × Scanner :=
  let s1 : Scanner := if s.line > 0 then ⟨s.buffer, s.line - 1⟩ else s
  (decide (s1.line > 0), s1)

/-- `Scanner.Line`. -/
def Scanner.Line (s : Scanner) : Nat := s.line

/-! ## The regular expressions of parser.go -/

/-- The submatches of a match, by group number; a group that took no part is empty. -/
abbrev Caps := Nat → Line

/-- No group has matched yet. -/
def noCaps : Caps := fun _ => []

/-- Record the text of group `i`. -/
def setCap (caps : Caps) (i : Nat) (v : Line) : Caps :=
  fun j => if j = i then v else caps j

/-- The fragment of Go regular expressions that parser.go uses.  Repetition is
only ever applied to a single-character item there. -/
inductive Regex where
  | bol : Regex
  | eol : Regex
  | set (p : Char → Bool) : Regex
  | star (p : Char → Bool) (greedy : Bool) : Regex
  | plus (p : Char → Bool) (greedy : Bool) : Regex
  | cap (i : Nat) (r : Regex) : Regex
  | opt (r : Regex) : Regex
  | cat (r s : Regex) : Regex

/-- Zero or more characters of class `p`, then the continuation `k`: a greedy
loop tries the longer run first, a lazy one the shorter. -/
def starLoop {α : Type} (p : Char → Bool) (greedy : Bool)
    (k : Line → Nat → Option α) : Line → Nat → Option α
  | [], pos => k [] pos
  | c :: cs, pos =>
    if p c then
      if greedy then
        match starLoop p greedy k cs (pos + 1) with
        | some r => some r
        | none => k (c :: cs) pos
      else
        match k (c :: cs) pos with
        | some r => some r
        | none => starLoop p greedy k cs (pos + 1)
    else k (c :: cs) pos

/-- Backtracking matcher: `inp` is the rest of the text, `pos` the number of
characters before it, `k` what has to match afterwards. -/
def Regex.run : Regex → Line → Nat → Caps → (Line → Nat → Caps → Option Caps) → Option Caps
  | .bol, inp, pos, caps, k => if pos = 0 then k inp pos caps else none
  | .eol, inp, pos, caps, k => if inp = [] then k inp pos caps else none
  | .set p, inp, pos, caps, k =>
    match inp with
    | c :: cs => if p c then k cs (pos + 1) caps else none
    | [] => none
  | .star p g, inp, pos, caps, k => starLoop p g (fun i q => k i q caps) inp pos
  | .plus p g, inp, pos, caps, k =>
    match inp with
    | c :: cs => if p c then starLoop p g (fun i q => k i q caps) cs (pos + 1) else none
    | [] => none
  | .cap n r, inp, pos, caps, k =>
    r.run inp pos caps (fun i q c => k i q (setCap c n (inp.take (q - pos))))
  | .opt r, inp, pos, caps, k =>
    match r.run inp pos caps k with
    | some c => some c
    | none => k inp pos caps
  | .cat r s, inp, pos, caps, k => r.run inp pos caps (fun i q c => s.run i q c k)

/-- The end of the pattern: the match is found. -/
def accept : Line → Nat → Caps → Option Caps := fun _ _ c => some c

/-- Leftmost match: try each start position in turn. -/
def Regex.search (re : Regex) : Line → Nat → Option Caps
  | [], pos => re.run [] pos noCaps accept
  | c :: cs, pos =>
    match re.run (c :: cs) pos noCaps accept with
    | some m => some m
    | none => Regex.search re cs (pos + 1)

/-- `FindStringSubmatch`: the submatches of the leftmost match, `none` for nil. -/
def Regex.FindStringSubmatch (re : Regex) (text : Line) : Option Caps := re.search text 0

/-- `MatchString`. -/
def Regex.MatchString (re : Regex) (text : Line) : Bool := (re.search text 0).isSome

/-- Sequence of items. -/
def Regex.seq : List Regex → Regex
  | [] => .star (fun _ => false) true
  | [r] => r
  | r :: rs => .cat r (Regex.seq rs)

/-- A literal character. -/
def lit (c : Char) : Regex := .set (fun x => x == c)

/-- Class `\s` of Go's regexp: `[\t\n\f\r ]`. -/
def isSpace (c : Char) : Bool :=
  c == '\t' || c == '\n' || c == '\x0c' || c == '\r' || c == ' '

/-- Class `[A-Za-z]`. -/
def isLetter (c : Char) : Bool :=
  ('A'.toNat ≤ c.toNat && c.toNat ≤ 'Z'.toNat) || ('a'.toNat ≤ c.toNat && c.toNat ≤ 'z'.toNat)

/-- Class `[0-9]`. -/
def isDigit (c : Char) : Bool := '0'.toNat ≤ c.toNat && c.toNat ≤ '9'.toNat

/-- Class `[-A-Za-z_]`. -/
def isDirName (c : Char) : Bool := c == '-' || isLetter c || c == '_'

/-- Class `[A-Za-z0-9_]`. -/
def isDirValue (c : Char) : Bool := isLetter c || isDigit c || c == '_'

/-- Class `[-A-Za-z0-9_]`. -/
def isIdent (c : Char) : Bool := c == '-' || isLetter c || isDigit c || c == '_'

/-- Class `[^-\s]`. -/
def isColName (c : Char) : Bool := !(c == '-' || isSpace c)

/-- Class `[^\s]`. -/
def isNonSpace (c : Char) : Bool := !(isSpace c)

/-- Class `.`: any character but the newline. -/
def isDot (c : Char) : Bool := !(c == '\n')

/-- Pattern `^#\s*([-A-Za-z_]+)\s*=\s*([A-Za-z0-9_]+)\s*$`. -/
def directiveFormat : Regex :=
  .seq [.bol, lit '#', .star isSpace true, .cap 1 (.plus isDirName true), .star isSpace true,
    lit '=', .star isSpace true, .cap 2 (.plus isDirValue true), .star isSpace true, .eol]

/-- Pattern `^\[([-A-Za-z0-9_]+)\]\s*$`. -/
def tableName : Regex :=
  .seq [.bol, lit '[', .cap 1 (.plus isIdent true), lit ']', .star isSpace true, .eol]

/-- Pattern `^([^-\s]+?)\s+([^\s]+?)(?:\s+using\s+([-A-Za-z0-9_]+.*?))?\s*$`. -/
def columnFormat : Regex :=
  .seq [.bol, .cap 1 (.plus isColName false), .plus isSpace true, .cap 2 (.plus isNonSpace false),
    .opt (.seq [.plus isSpace true, lit 'u', lit 's', lit 'i', lit 'n', lit 'g',
      .plus isSpace true, .cap 3 (.cat (.plus isIdent true) (.star isDot false))]),
    .star isSpace true, .eol]

/-- Pattern `^\s*-`. -/
def subIndicator : Regex := .seq [.bol, .star isSpace true, lit '-']

/-- Pattern `^\s*-\s*alias\s*:\s*([^\s]+?)\s*$`. -/
def aliasFormat : Regex :=
  .seq [.bol, .star isSpace true, lit '-', .star isSpace true,
    lit 'a', lit 'l', lit 'i', lit 'a', lit 's', .star isSpace true, lit ':',
    .star isSpace true, .cap 1 (.plus isNonSpace false), .star isSpace true, .eol]

/-- Pattern `\s*-\s*(.+?)(?:\s*:\s*(.+?))?\s*$`. -/
def constraintFormat : Regex :=
  .seq [.star isSpace true, lit '-', .star isSpace true, .cap 1 (.plus isDot false),
    .opt (.seq [.star isSpace true, lit ':', .star isSpace true, .cap 2 (.plus isDot false)]),
    .star isSpace true, .eol]

/-- Declarative reading of a pattern: it matches the part of `i` before `i1`. -/
def Regex.Matches : Regex → Line → Nat → Caps → Line → Nat → Caps → Prop
  | .bol, i, p, c, i1, p1, c1 => p = 0 ∧ i1 = i ∧ p1 = p ∧ c1 = c
  | .eol, i, p, c, i1, p1, c1 => i = [] ∧ i1 = i ∧ p1 = p ∧ c1 = c
  | .set P, i, p, c, i1, p1, c1 => ∃ ch, P ch = true ∧ i = ch :: i1 ∧ p1 = p + 1 ∧ c1 = c
  | .star P _, i, p, c, i1, p1, c1 =>
    ∃ ws, (∀ x ∈ ws, P x = true) ∧ i = ws ++ i1 ∧ p1 = p + ws.length ∧ c1 = c
  | .plus P _, i, p, c, i1, p1, c1 =>
    ∃ ws, ws ≠ [] ∧ (∀ x ∈ ws, P x = true) ∧ i = ws ++ i1 ∧ p1 = p + ws.length ∧ c1 = c
  | .cap n r, i, p, c, i1, p1, c1 =>
    ∃ c0, r.Matches i p c i1 p1 c0 ∧ c1 = setCap c0 n (i.take (p1 - p))
  | .opt r, i, p, c, i1, p1, c1 => r.Matches i p c i1 p1 c1 ∨ (i1 = i ∧ p1 = p ∧ c1 = c)
  | .cat r s, i, p, c, i1, p1, c1 =>
    ∃ i0 p0 c0, r.Matches i p c i0 p0 c0 ∧ s.Matches i0 p0 c0 i1 p1 c1

/-! ## parser.go -/

/-- `strings.HasPrefix`. -/
def HasPrefix (s pre : Line) : Bool := pre.isPrefixOf s

/-- `strings.Contains`. -/
def Contains : Line → Line → Bool
  | [], sub => sub.isPrefixOf []
  | c :: cs, sub => sub.isPrefixOf (c :: cs) || Contains cs sub

/-- The `ParseError` struct. -/
structure ParseError where
  msg : String
  line : Nat
deriving Repr, DecidableEq

/-- `NewError`: the message with the scanner's current line number. -/
def NewError (msg : String) (s : Scanner) : ParseError := ⟨msg, s.Line⟩

/-- The `Constraint` struct. -/
structure Constraint where
  Name : Line
  Value : Line
deriving Repr, DecidableEq

/-- The `Column` struct (`Typ` is the field `Type`). -/
structure Column where
  Name : Line
  Typ : Line
  RequestedType : Line
  Alias : Line
  Constraints : List Constraint
deriving Repr, DecidableEq

/-- The `Table` struct. -/
structure Table where
  Name : Line
  Columns : List Column
deriving Repr, DecidableEq

/-- A Go `map[string]string`, as an association list with unique keys. -/
abbrev StrMap := List (Line × Line)

/-- Assignment `m[k] = v`: overwrite the entry for `k`, or add one. -/
def StrMap.set : StrMap → Line → Line → StrMap
  | [], k, v => [(k, v)]
  | (k1, v1) :: rest, k, v =>
    if k1 = k then (k, v) :: rest else (k1, v1) :: StrMap.set rest k v

/-- Lookup `m[k]`. -/
def StrMap.get (m : StrMap) (k : Line) : Option Line := List.lookup k m

/-- The `ParseTree` struct. -/
structure ParseTree where
  Directives : StrMap
  Tables : List Table
deriving Repr, DecidableEq

/-- `NewParseTree`. -/
def NewParseTree : ParseTree := ⟨[], []⟩

/-- `ParseDirective`: name, value, the valid flag, and the scanner afterwards. -/
def ParseDirective (input : Scanner) : Line × Line × Bool × Scanner :=
  let s := input.Scan.2
  match directiveFormat.FindStringSubmatch s.Text with
  | some m => (m 1, m 2, true, s)
  | none => ([], [], false, s)

/-- `ParseAlias`: the alias, the errors (empty for nil), and the scanner afterwards. -/
def ParseAlias (input : Scanner) : Line × List ParseError × Scanner :=
  let s := input.Scan.2
  match aliasFormat.FindStringSubmatch s.Text with
  | some m => (m 1, [], s)
  | none => ([], [NewError "Ill-formed alias" s], s)

/-- `ParseConstraint`: the constraint (`none` for nil), the errors, the scanner. -/
def ParseConstraint (input : Scanner) : Option Constraint × List ParseError × Scanner :=
  let s := input.Scan.2
  match constraintFormat.FindStringSubmatch s.Text with
  | some m => (some ⟨m 1, m 2⟩, [], s)
  | none => (none, [NewError "Ill-formed constraint" s], s)

/-- The sub-line loop `for input.Scan()` of `ParseColumn`. -/
def columnLoop : Nat → Scanner → Column → List ParseError →
    Option (Column × List ParseError × Scanner)
  | 0, _, _, _ => none
  | fuel + 1, input, column, errors =>
    let r := input.Scan
    if r.1 = false then some (column, errors, r.2)
    else if Contains r.2.Text "alias".toList = true then
      let a := ParseAlias r.2.Backtrack.2
      let errors1 := if a.2.1 ≠ [] then errors ++ a.2.1 else errors
      columnLoop fuel a.2.2 { column with Alias := a.1 } errors1
    else if subIndicator.MatchString r.2.Text = true then
      let c := ParseConstraint r.2.Backtrack.2
      if c.2.1 ≠ [] then columnLoop fuel c.2.2 column (errors ++ c.2.1)
      else
        match c.1 with
        | some constraint =>
          columnLoop fuel c.2.2
            { column with Constraints := column.Constraints ++ [constraint] } errors
        | none => columnLoop fuel c.2.2 column errors
    else some (column, errors, r.2.Backtrack.2)

/-- `ParseColumn`: the column pointer (never nil), the errors, the scanner. -/
def ParseColumn (input : Scanner) : Option (Option Column × List ParseError × Scanner) :=
  let s := input.Scan.2
  match columnFormat.FindStringSubmatch s.Text with
  | some m =>
    match columnLoop (s.buffer.length + 1) s ⟨m 1, m 2, m 3, [], []⟩ [] with
    | some r => some (some r.1, r.2.1, r.2.2)
    | none => none
  | none =>
    some (some ⟨[], [], [], [], []⟩, [NewError "Invalid column definition" s], s)

/-- The column loop `for input.Scan()` of `ParseTable`. -/
def tableLoop : Nat → Scanner → Table → List ParseError →
    Option (Option Table × List ParseError × Scanner)
  | 0, _, _, _ => none
  | fuel + 1, input, table, errors =>
    let r := input.Scan
    if r.1 = false then some (some table, errors, r.2)
    else if r.2.Text = [] then some (some table, errors, r.2)
    else
      match ParseColumn r.2.Backtrack.2 with
      | none => none
      | some c =>
        if c.2.1 ≠ [] then tableLoop fuel c.2.2 table (errors ++ c.2.1)
        else
          match c.1 with
          | some col =>
            tableLoop fuel c.2.2 { table with Columns := table.Columns ++ [col] } errors
          | none => some (some table, errors, c.2.2.Backtrack.2)

/-- `ParseTable`: the table (`none` for nil), the errors, the scanner. -/
def ParseTable (input : Scanner) : Option (Option Table × List ParseError × Scanner) :=
  let s := input.Scan.2
  match tableName.FindStringSubmatch s.Text with
  | none => some (none, [NewError "Invalid table name" s], s)
  | some m => tableLoop (s.buffer.length + 1) s ⟨m 1, []⟩ []

/-- The main loop `for input.Scan()` of `Parse`.  (`ParseTable` returns a nil table
only together with errors, so the last case is never taken.) -/
def parseLoop : Nat → Scanner → ParseTree → List ParseError →
    Option (ParseTree × List ParseError × Scanner)
  | 0, _, _, _ => none
  | fuel + 1, input, tree, errors =>
    let r := input.Scan
    if r.1 = false then some (tree, errors, r.2)
    else if r.2.Text = [] then parseLoop fuel r.2 tree errors
    else if HasPrefix r.2.Text "#".toList = true then
      let d := ParseDirective r.2.Backtrack.2
      if d.2.2.1 = true then
        parseLoop fuel d.2.2.2 { tree with Directives := tree.Directives.set d.1 d.2.1 } errors
      else parseLoop fuel d.2.2.2 tree errors
    else if HasPrefix r.2.Text "[".toList = true then
      match ParseTable r.2.Backtrack.2 with
      | none => none
      | some t =>
        if t.2.1 ≠ [] then parseLoop fuel t.2.2 tree (errors ++ t.2.1)
        else
          match t.1 with
          | some table => parseLoop fuel t.2.2 { tree with Tables := tree.Tables ++ [table] } errors
          | none => parseLoop fuel t.2.2 tree errors
    else parseLoop fuel r.2 tree (errors ++ [NewError "Invalid token outside table definition" r.2])

/-- The body of `Parse`, with the scanner it ends on. -/
def ParseRun (lines : List Line) : Option (ParseTree × List ParseError × Scanner) :=
  let input := NewScanner lines
  if input.EOF = true then some (NewParseTree, [], input)
  else parseLoop (input.buffer.length + 1) input NewParseTree []

/-- `Parse`: the tree and the errors (empty for nil). -/
def Parse (lines : List Line) : Option (ParseTree × List ParseError) :=
  (ParseRun lines).map (fun r => (r.1, r.2.1))

/-! ## Rendering (parser.go) and the line splitting of the scanner -/

/-- `Constraint.String`. -/
def Constraint.String (c : Constraint) : Line :=
  "-".toList ++ c.Name ++ (if c.Value ≠ [] then ": ".toList ++ c.Value else [])

/-- `Column.String`. -/
def Column.String (c : Column) : Line :=
  c.Constraints.foldl (fun s con => s ++ "\n".toList ++ con.String)
    (c.Name ++ " ".toList ++ c.Typ
      ++ (if c.RequestedType ≠ [] then " using ".toList ++ c.RequestedType else [])
      ++ (if c.Alias ≠ [] then "\n-alias: ".toList ++ c.Alias else []))

/-- `Table.String`. -/
def Table.String (t : Table) : Line :=
  t.Columns.foldl (fun s c => s ++ "\n".toList ++ c.String) ("[".toList ++ t.Name ++ "]".toList)
    ++ "\n".toList

/-- `ParseTree.String`, the directives taken in the order of the list. -/
def ParseTree.String (p : ParseTree) : Line :=
  p.Tables.foldl (fun out t => out ++ "\n".toList ++ t.String)
    (p.Directives.foldl (fun out d => out ++ "#".toList ++ d.1 ++ "=".toList ++ d.2 ++ "\n".toList) [])

/-- Modelled from the Go library: `dropCR` of package bufio drops one trailing
carriage return. -/
def dropCR (data : Line) : Line :=
  if data.getLast? = some '\r' then data.dropLast else data

/-- Modelled from the Go library: the lines `bufio.Scanner` delivers with the split
function `ScanLines`; `cur` is the line read so far. -/
def scanLinesFrom : List Char → Line → List Line
  | [], cur => if cur = [] then [] else [dropCR cur]
  | c :: cs, cur => if c = '\n' then dropCR cur :: scanLinesFrom cs [] else scanLinesFrom cs (cur ++ [c])

/-- Modelled from the Go library: the lines of a text, as `NewScanner` buffers them. -/
def ScanLines (text : List Char) : List Line := scanLinesFrom text []

/-! ## Diagnostics in line order -/

/-- The diagnostics `errs` are in strictly increasing order of line number, with
every line number above `lo` and at most `hi`. -/
def ErrorsWithin (lo hi : Nat) (errs : List ParseError) : Prop :=
  (errs.map (fun e => e.line)).Pairwise (fun a b => a < b) ∧ ∀ e ∈ errs, lo < e.line ∧ e.line ≤ hi

/-! ## Character classes -/

theorem isSpace_cases {c : Char} (h : isSpace c = true) :
    c = '\t' ∨ c = '\n' ∨ c = '\x0c' ∨ c = '\r' ∨ c = ' ' := by
  simpa [isSpace, or_assoc] using h

theorem isDirName_of_isSpace {c : Char} (h : isSpace c = true) : isDirName c = false := by
  rcases isSpace_cases h with rfl | rfl | rfl | rfl | rfl <;> decide

theorem isIdent_of_isSpace {c : Char} (h : isSpace c = true) : isIdent c = false := by
  rcases isSpace_cases h with rfl | rfl | rfl | rfl | rfl <;> decide

theorem starLoop_nil {α : Type} (p : Char → Bool) (g : Bool) (k : Line → Nat → Option α) (pos : Nat) :
    starLoop p g k [] pos = k [] pos := rfl

theorem starLoop_stop {α : Type} (p : Char → Bool) (g : Bool) (k : Line → Nat → Option α)
    (c : Char) (cs : Line) (pos : Nat) (h : p c = false) :
    starLoop p g k (c :: cs) pos = k (c :: cs) pos := by
  simp [starLoop, h]

theorem starLoop_cons {α : Type} (p : Char → Bool) (g : Bool) (k : Line → Nat → Option α)
    (c : Char) (cs : Line) (pos : Nat) :
    starLoop p g k (c :: cs) pos =
      if p c then
        if g then
          match starLoop p g k cs (pos + 1) with
          | some r => some r
          | none => k (c :: cs) pos
        else
          match k (c :: cs) pos with
          | some r => some r
          | none => starLoop p g k cs (pos + 1)
      else k (c :: cs) pos := by
  rw [starLoop]

/-- A run of class characters is skipped whole when what follows the loop cannot
start with a character of the class. -/
theorem starLoop_skip {α : Type} (p : Char → Bool) (g : Bool) (k : Line → Nat → Option α)
    (hk : ∀ c cs q, p c = true → k (c :: cs) q = none)
    (ws rest : Line) (pos : Nat) (hws : ∀ c ∈ ws, p c = true)
    (hrest : ∀ c ∈ rest.head?, p c = false) :
    starLoop p g k (ws ++ rest) pos = k rest (pos + ws.length) := by
  induction ws generalizing pos with
  | nil =>
    cases rest with
    | nil => rfl
    | cons c cs => simpa using starLoop_stop p g k c cs pos (hrest c (by simp))
  | cons w ws ih =>
    have hw : p w = true := hws w (by simp)
    have ih1 := ih (pos + 1) (fun c hc => hws c (by simp [hc]))
    have e : pos + 1 + ws.length = pos + (w :: ws).length := by simp; omega
    rw [List.cons_append, starLoop_cons, ih1, e, if_pos hw, hk w _ pos hw]
    cases g <;> cases k rest (pos + (w :: ws).length) <;> rfl

theorem isDirValue_of_isSpace {c : Char} (h : isSpace c = true) : isDirValue c = false := by
  rcases isSpace_cases h with rfl | rfl | rfl | rfl | rfl <;> decide

theorem isSpace_of_isDirName {c : Char} (h : isDirName c = true) : isSpace c = false := by
  cases hs : isSpace c
  · rfl
  · simp [isDirName_of_isSpace hs] at h

theorem isSpace_of_isDirValue {c : Char} (h : isDirValue c = true) : isSpace c = false := by
  cases hs : isSpace c
  · rfl
  · simp [isDirValue_of_isSpace hs] at h

theorem take_run (a b : Nat) (x : Char) (xs rest : Line) (h : b - a = xs.length + 1) :
    List.take (b - a) (x :: (xs ++ rest)) = x :: xs := by
  rw [h]; simp

theorem directive_match (w1 name w2 w3 value w4 : Line)
    (hw1 : ∀ c ∈ w1, isSpace c = true) (hw2 : ∀ c ∈ w2, isSpace c = true)
    (hw3 : ∀ c ∈ w3, isSpace c = true) (hw4 : ∀ c ∈ w4, isSpace c = true)
    (hn : name ≠ []) (hname : ∀ c ∈ name, isDirName c = true)
    (hv : value ≠ []) (hvalue : ∀ c ∈ value, isDirValue c = true) :
    ∃ m, directiveFormat.FindStringSubmatch
        ('#' :: (w1 ++ (name ++ (w2 ++ '=' :: (w3 ++ (value ++ w4)))))) = some m
      ∧ m 1 = name ∧ m 2 = value := by
  obtain ⟨n, ns, rfl⟩ := List.exists_cons_of_ne_nil hn
  obtain ⟨v, vs, rfl⟩ := List.exists_cons_of_ne_nil hv
  simp only [directiveFormat, Regex.seq, Regex.run, lit, Regex.FindStringSubmatch, Regex.search]
  have hn0 := hname n (by simp)
  have hv0 := hvalue v (by simp)
  have hns : ∀ c ∈ ns, isDirName c = true := fun c hc => hname c (by simp [hc])
  have hvs : ∀ c ∈ vs, isDirValue c = true := fun c hc => hvalue c (by simp [hc])
  have hsn := isSpace_of_isDirName hn0
  have hsv := isSpace_of_isDirValue hv0
  rw [starLoop_skip isSpace true _ ?_ w1 _ _ hw1 ?_]
  rotate_left
  · intro c cs q hc
    simp [isDirName_of_isSpace hc]
  · simpa using hsn
  simp only [List.cons_append, hn0, if_true]
  rw [starLoop_skip isDirName true _ ?_ ns _ _ hns ?_]
  rotate_left
  · intro c cs q hc
    have h1 := isSpace_of_isDirName hc
    have h2 : c ≠ '=' := by
      rintro rfl; exact absurd hc (by decide)
    rw [starLoop_stop _ _ _ _ _ _ h1]
    simp [h2]
  · intro c hc
    cases w2 with
    | nil => simp at hc; subst hc; decide
    | cons x xs =>
      simp at hc; subst hc
      exact isDirName_of_isSpace (hw2 _ (by simp))
  rw [starLoop_skip isSpace true _ ?_ w2 _ _ hw2 ?_]
  rotate_left
  · intro c cs q hc
    have h2 : c ≠ '=' := by
      rintro rfl; exact absurd hc (by decide)
    simp [h2]
  · simp; decide
  simp only [beq_self_eq_true, if_true]
  rw [starLoop_skip isSpace true _ ?_ w3 _ _ hw3 ?_]
  rotate_left
  · intro c cs q hc
    simp [isDirValue_of_isSpace hc]
  · simpa using hsv
  simp only [hv0, if_true]
  rw [starLoop_skip isDirValue true _ ?_ vs _ _ hvs ?_]
  rotate_left
  · intro c cs q hc
    have h1 := isSpace_of_isDirValue hc
    rw [starLoop_stop _ _ _ _ _ _ h1]
    simp
  · intro c hc
    cases w4 with
    | nil => simp at hc
    | cons x xs =>
      simp at hc; subst hc
      exact isDirValue_of_isSpace (hw4 _ (by simp))
  rw [← List.append_nil w4, starLoop_skip isSpace true _ ?_ w4 _ _ hw4 ?_]
  rotate_left
  · intro c cs q hc
    simp
  · simp
  simp [accept, setCap]
  constructor <;> apply take_run <;> omega

theorem starLoop_sound {α : Type} (p : Char → Bool) (g : Bool) (k : Line → Nat → Option α)
    (i : Line) (pos : Nat) (r : α) (h : starLoop p g k i pos = some r) :
    ∃ ws i1, (∀ x ∈ ws, p x = true) ∧ i = ws ++ i1 ∧ k i1 (pos + ws.length) = some r := by
  induction i generalizing pos with
  | nil => exact ⟨[], [], by simp, rfl, by simpa [starLoop] using h⟩
  | cons c cs ih =>
    have stay : k (c :: cs) pos = some r →
        ∃ ws i1, (∀ x ∈ ws, p x = true) ∧ c :: cs = ws ++ i1 ∧ k i1 (pos + ws.length) = some r :=
      fun hk => ⟨[], c :: cs, by simp, rfl, by simpa using hk⟩
    have go : starLoop p g k cs (pos + 1) = some r → p c = true →
        ∃ ws i1, (∀ x ∈ ws, p x = true) ∧ c :: cs = ws ++ i1 ∧ k i1 (pos + ws.length) = some r := by
      intro hs hc
      obtain ⟨ws, i1, hws, e, hk⟩ := ih (pos + 1) hs
      refine ⟨c :: ws, i1, ?_, by simp [e], ?_⟩
      · intro x hx
        rcases List.mem_cons.1 hx with rfl | hx
        · exact hc
        · exact hws x hx
      · rw [← hk]; congr 1; simp; omega
    rw [starLoop_cons] at h
    by_cases hc : p c = true
    · rw [if_pos hc] at h
      cases g with
      | true =>
        simp only [if_true] at h
        cases hs : starLoop p true k cs (pos + 1) with
        | none => rw [hs] at h; exact stay h
        | some r1 => rw [hs] at h; cases h; exact go hs hc
      | false =>
        simp only [Bool.false_eq_true, if_false] at h
        cases hk : k (c :: cs) pos with
        | none => rw [hk] at h; exact go h hc
        | some r1 => rw [hk] at h; cases h; exact stay hk
    · rw [if_neg hc] at h
      exact stay h

/-- Soundness of the matcher: a result comes from a match of the pattern followed by
a successful continuation. -/
theorem Regex.run_sound (re : Regex) : ∀ (i : Line) (p : Nat) (c : Caps)
    (k : Line → Nat → Caps → Option Caps) (r : Caps), re.run i p c k = some r →
    ∃ i1 p1 c1, re.Matches i p c i1 p1 c1 ∧ k i1 p1 c1 = some r := by
  induction re with
  | bol =>
    intro i p c k r h
    simp only [Regex.run] at h
    by_cases hp : p = 0
    · rw [if_pos hp] at h; exact ⟨i, p, c, ⟨hp, rfl, rfl, rfl⟩, h⟩
    · rw [if_neg hp] at h; cases h
  | eol =>
    intro i p c k r h
    simp only [Regex.run] at h
    by_cases hp : i = []
    · rw [if_pos hp] at h; exact ⟨i, p, c, ⟨hp, rfl, rfl, rfl⟩, h⟩
    · rw [if_neg hp] at h; cases h
  | set P =>
    intro i p c k r h
    cases i with
    | nil => simp [Regex.run] at h
    | cons ch cs =>
      simp only [Regex.run] at h
      by_cases hp : P ch = true
      · rw [if_pos hp] at h; exact ⟨cs, p + 1, c, ⟨ch, hp, rfl, rfl, rfl⟩, h⟩
      · rw [if_neg hp] at h; cases h
  | star P g =>
    intro i p c k r h
    simp only [Regex.run] at h
    obtain ⟨ws, i1, hws, e, hk⟩ := starLoop_sound P g _ i p r h
    exact ⟨i1, p + ws.length, c, ⟨ws, hws, e, rfl, rfl⟩, hk⟩
  | plus P g =>
    intro i p c k r h
    cases i with
    | nil => simp [Regex.run] at h
    | cons ch cs =>
      simp only [Regex.run] at h
      by_cases hp : P ch = true
      · rw [if_pos hp] at h
        obtain ⟨ws, i1, hws, e, hk⟩ := starLoop_sound P g _ cs (p + 1) r h
        refine ⟨i1, p + (ch :: ws).length, c, ⟨ch :: ws, by simp, ?_, by simp [e], rfl, rfl⟩, ?_⟩
        · intro x hx
          rcases List.mem_cons.1 hx with rfl | hx
          · exact hp
          · exact hws x hx
        · rw [← hk]; congr 1; simp; omega
      · rw [if_neg hp] at h; cases h
  | cap n re ih =>
    intro i p c k r h
    simp only [Regex.run] at h
    obtain ⟨i1, p1, c1, hm, hk⟩ := ih i p c _ r h
    exact ⟨i1, p1, _, ⟨c1, hm, rfl⟩, hk⟩
  | opt re ih =>
    intro i p c k r h
    simp only [Regex.run] at h
    cases hr : re.run i p c k with
    | none => rw [hr] at h; exact ⟨i, p, c, Or.inr ⟨rfl, rfl, rfl⟩, h⟩
    | some r1 =>
      rw [hr] at h
      simp only [Option.some.injEq] at h
      subst h
      obtain ⟨i1, p1, c1, hm, hk⟩ := ih i p c k r1 hr
      exact ⟨i1, p1, c1, Or.inl hm, hk⟩
  | cat r1 r2 ih1 ih2 =>
    intro i p c k r h
    simp only [Regex.run] at h
    obtain ⟨i0, p0, c0, hm0, hk0⟩ := ih1 i p c _ r h
    obtain ⟨i1, p1, c1, hm1, hk1⟩ := ih2 i0 p0 c0 k r hk0
    exact ⟨i1, p1, c1, ⟨i0, p0, c0, hm0, hm1⟩, hk1⟩

/-- Soundness of the leftmost search. -/
theorem Regex.search_sound (re : Regex) (i : Line) (pos : Nat) (m : Caps)
    (h : re.search i pos = some m) :
    ∃ pre i0 i1 p1, i = pre ++ i0 ∧ re.Matches i0 (pos + pre.length) noCaps i1 p1 m := by
  induction i generalizing pos with
  | nil =>
    simp only [Regex.search] at h
    obtain ⟨i1, p1, c1, hm, hk⟩ := re.run_sound _ _ _ _ _ h
    simp only [accept, Option.some.injEq] at hk
    subst hk
    exact ⟨[], [], i1, p1, rfl, by simpa using hm⟩
  | cons c cs ih =>
    simp only [Regex.search] at h
    cases hr : re.run (c :: cs) pos noCaps accept with
    | some r =>
      rw [hr] at h; cases h
      obtain ⟨i1, p1, c1, hm, hk⟩ := re.run_sound _ _ _ _ _ hr
      simp only [accept, Option.some.injEq] at hk
      subst hk
      exact ⟨[], c :: cs, i1, p1, rfl, by simpa using hm⟩
    | none =>
      rw [hr] at h
      obtain ⟨pre, i0, i1, p1, e, hm⟩ := ih (pos + 1) h
      refine ⟨c :: pre, i0, i1, p1, by simp [e], ?_⟩
      have : pos + (c :: pre).length = pos + 1 + pre.length := by simp; omega
      rw [this]; exact hm

/-! ## The scanner -/

theorem Scan_lt (buf : List Line) (p : Nat) (h : p < buf.length) :
    Scanner.Scan ⟨buf, p⟩ = (true, ⟨buf, p + 1⟩) := by
  have h1 : p ≤ buf.length := Nat.le_of_lt h
  simp [Scanner.Scan, h1, h]
  omega

theorem Scan_eq (buf : List Line) :
    Scanner.Scan ⟨buf, buf.length⟩ = (false, ⟨buf, buf.length + 1⟩) := by
  simp [Scanner.Scan]

theorem Scan_gt (buf : List Line) (p : Nat) (h : buf.length < p) :
    Scanner.Scan ⟨buf, p⟩ = (false, ⟨buf, p⟩) := by
  have h1 : ¬ p ≤ buf.length := by omega
  simp [Scanner.Scan, h1, h]

theorem Text_succ (buf : List Line) (p : Nat) (h : p < buf.length) :
    Scanner.Text ⟨buf, p + 1⟩ = buf.getD p [] := by
  have h1 : ¬ buf.length < p + 1 := by omega
  simp [Scanner.Text, Scanner.EOF, h1]

theorem Text_eof (buf : List Line) (p : Nat) (h : buf.length < p) :
    Scanner.Text ⟨buf, p⟩ = [] := by
  simp [Scanner.Text, Scanner.EOF, h]

theorem Backtrack_succ (buf : List Line) (p : Nat) :
    (Scanner.Backtrack ⟨buf, p + 1⟩).2 = ⟨buf, p⟩ := by
  simp [Scanner.Backtrack]

theorem getD_zipper (pre rest : List Line) (l : Line) :
    (pre ++ l :: rest).getD pre.length [] = l := by
  induction pre with
  | nil => rfl
  | cons x xs ih => simpa using ih

theorem length_zipper (pre rest : List Line) (l : Line) :
    pre.length < (pre ++ l :: rest).length := by
  simp

theorem HasPrefix_one (l : Line) (c : Char) : HasPrefix l [c] = true ↔ l.head? = some c := by
  cases l with
  | nil => simp [HasPrefix, List.isPrefixOf]
  | cons x xs =>
    simp only [HasPrefix, List.isPrefixOf, List.head?_cons, Option.some.injEq, Bool.and_true]
    rw [beq_iff_eq]
    exact eq_comm

theorem hash_toList : "#".toList = ['#'] := rfl
theorem bracket_toList : "[".toList = ['['] := rfl
theorem alias_toList : "alias".toList = ['a', 'l', 'i', 'a', 's'] := rfl

/-! ## One iteration of the main loop -/

theorem parseLoop_eof (fuel : Nat) (buf : List Line) (p : Nat) (h : buf.length ≤ p)
    (tree : ParseTree) (errors : List ParseError) :
    parseLoop (fuel + 1) ⟨buf, p⟩ tree errors =
      some (tree, errors, ⟨buf, if p = buf.length then p + 1 else p⟩) := by
  rcases Nat.eq_or_lt_of_le h with e | e
  · subst e
    simp [parseLoop, Scan_eq]
  · have : p ≠ buf.length := by omega
    simp [parseLoop, Scan_gt buf p e, this]

theorem parseLoop_blank (fuel : Nat) (buf : List Line) (p : Nat) (h : p < buf.length)
    (hl : buf.getD p [] = []) (tree : ParseTree) (errors : List ParseError) :
    parseLoop (fuel + 1) ⟨buf, p⟩ tree errors = parseLoop fuel ⟨buf, p + 1⟩ tree errors := by
  rw [parseLoop]
  simp only [Scan_lt buf p h, Text_succ buf p h, hl]
  simp

theorem parseLoop_stray (fuel : Nat) (buf : List Line) (p : Nat) (h : p < buf.length)
    (hl : buf.getD p [] ≠ []) (h1 : (buf.getD p []).head? ≠ some '#')
    (h2 : (buf.getD p []).head? ≠ some '[')
    (tree : ParseTree) (errors : List ParseError) :
    parseLoop (fuel + 1) ⟨buf, p⟩ tree errors =
      parseLoop fuel ⟨buf, p + 1⟩ tree
        (errors ++ [⟨"Invalid token outside table definition", p + 1⟩]) := by
  rw [parseLoop]
  have e1 : HasPrefix (buf.getD p []) "#".toList = false := by
    rw [hash_toList, ← Bool.not_eq_true, HasPrefix_one]; exact h1
  have e2 : HasPrefix (buf.getD p []) "[".toList = false := by
    rw [bracket_toList, ← Bool.not_eq_true, HasPrefix_one]; exact h2
  simp only [Scan_lt buf p h, Text_succ buf p h, hl, e1, e2]
  simp [NewError, Scanner.Line]

theorem parseLoop_strays (rest : List Line) :
    ∀ (pre : List Line) (fuel : Nat) (tree : ParseTree) (errors : List ParseError),
      rest.length + 1 ≤ fuel →
      (∀ l ∈ rest, l.head? ≠ some '#' ∧ l.head? ≠ some '[') →
      parseLoop fuel ⟨pre ++ rest, pre.length⟩ tree errors =
        some (tree, errors ++ (((rest.enumFrom (pre.length + 1)).filter (fun x => !x.2.isEmpty)).map
            (fun x => (⟨"Invalid token outside table definition", x.1⟩ : ParseError))),
          ⟨pre ++ rest, (pre ++ rest).length + 1⟩) := by
  induction rest with
  | nil =>
    intro pre fuel tree errors hf _
    obtain ⟨f, rfl⟩ : ∃ f, fuel = f + 1 := ⟨fuel - 1, by simp at hf; omega⟩
    rw [parseLoop_eof _ _ _ (by simp)]
    simp
  | cons l rest ih =>
    intro pre fuel tree errors hf hl
    obtain ⟨f, rfl⟩ : ∃ f, fuel = f + 1 := ⟨fuel - 1, by simp at hf; omega⟩
    have hlen := length_zipper pre rest l
    have hget := getD_zipper pre rest l
    have ih1 := ih (pre ++ [l]) f
    have hrest : ∀ l ∈ rest, l.head? ≠ some '#' ∧ l.head? ≠ some '[' :=
      fun x hx => hl x (by simp [hx])
    have hf1 : rest.length + 1 ≤ f := by simp at hf; omega
    simp only [List.append_assoc, List.singleton_append, List.length_append,
      List.length_singleton] at ih1
    by_cases he : l = []
    · rw [parseLoop_blank _ _ _ hlen (by rw [hget]; exact he), ih1 _ _ hf1 hrest]
      simp [he, List.enumFrom]
    · rw [parseLoop_stray _ _ _ hlen (by rw [hget]; exact he) (by rw [hget]; exact (hl l (by simp)).1)
        (by rw [hget]; exact (hl l (by simp)).2), ih1 _ _ hf1 hrest]
      have he1 : l.isEmpty = false := by cases l <;> simp_all
      simp [he1, List.enumFrom, List.filter]

/-- C4. On an input in which no line starts with `#` or `[`, `Parse` returns the
empty tree, and one diagnostic for each non-empty line, in input order, with the
line's 1-based number. -/
theorem Parse_stray_lines (lines : List Line)
    (h : ∀ l ∈ lines, l.head? ≠ some '#' ∧ l.head? ≠ some '[') :
    Parse lines = some (⟨[], []⟩,
      ((lines.enumFrom 1).filter (fun x => !x.2.isEmpty)).map
        (fun x => ⟨"Invalid token outside table definition", x.1⟩)) := by
  have := parseLoop_strays lines [] (lines.length + 1) NewParseTree [] (Nat.le_refl _) h
  simp only [List.nil_append, List.length_nil, Nat.zero_add] at this
  simp only [Parse, ParseRun, NewScanner, Scanner.EOF]
  rw [if_neg (by simp), this]
  rfl

theorem Parse_stray_lines_witness :
    (∀ l ∈ ["garbage".toList, [], " #x".toList], l.head? ≠ some '#' ∧ l.head? ≠ some '[') ∧
    Parse ["garbage".toList, [], " #x".toList] =
      some (⟨[], []⟩, [⟨"Invalid token outside table definition", 1⟩,
        ⟨"Invalid token outside table definition", 3⟩]) :=
  ⟨by decide, Parse_stray_lines _ (by decide)⟩

theorem directive_sound (l : Line) (m : Caps)
    (h : directiveFormat.FindStringSubmatch l = some m) :
    ∃ w1 w2 w3 w4 : Line, (∀ c ∈ w1, isSpace c = true) ∧ (∀ c ∈ w2, isSpace c = true) ∧
      (∀ c ∈ w3, isSpace c = true) ∧ (∀ c ∈ w4, isSpace c = true) ∧
      m 1 ≠ [] ∧ (∀ c ∈ m 1, isDirName c = true) ∧ m 2 ≠ [] ∧ (∀ c ∈ m 2, isDirValue c = true) ∧
      l = '#' :: (w1 ++ (m 1 ++ (w2 ++ '=' :: (w3 ++ (m 2 ++ w4))))) := by
  obtain ⟨pre, i0, i1, p1, e, hm⟩ := directiveFormat.search_sound l 0 m h
  simp only [directiveFormat, Regex.seq, Regex.Matches, lit] at hm
  obtain ⟨_, _, _, ⟨hp, rfl, rfl, rfl⟩, _, _, _, ⟨ch, hch, rfl, rfl, rfl⟩, _, _, _,
    ⟨w1, hw1, rfl, rfl, rfl⟩, _, _, _, ⟨_, ⟨nm, hnm0, hnm, rfl, rfl, rfl⟩, rfl⟩, _, _, _,
    ⟨w2, hw2, rfl, rfl, rfl⟩, _, _, _, ⟨ch2, hch2, rfl, rfl, rfl⟩, _, _, _,
    ⟨w3, hw3, rfl, rfl, rfl⟩, _, _, _, ⟨_, ⟨vl, hvl0, hvl, rfl, rfl, rfl⟩, rfl⟩, _, _, _,
    ⟨w4, hw4, rfl, rfl, rfl⟩, rfl, rfl, rfl, rfl⟩ := hm
  have hpre : pre = [] := List.length_eq_zero.1 (by omega)
  subst hpre
  rw [beq_iff_eq] at hch hch2
  subst hch hch2
  refine ⟨w1, w2, w3, w4, hw1, hw2, hw3, hw4, ?_⟩
  simp [setCap, e]
  exact ⟨hnm0, hnm, hvl0, hvl⟩

/-! ## Directives -/

theorem ParseDirective_at (buf : List Line) (p : Nat) (h : p < buf.length) :
    ParseDirective ⟨buf, p⟩ =
      match directiveFormat.FindStringSubmatch (buf.getD p []) with
      | some m => (m 1, m 2, true, ⟨buf, p + 1⟩)
      | none => ([], [], false, ⟨buf, p + 1⟩) := by
  simp only [ParseDirective, Scan_lt buf p h, Text_succ buf p h]

theorem parseLoop_directive (fuel : Nat) (buf : List Line) (p : Nat) (h : p < buf.length)
    (hd : (buf.getD p []).head? = some '#') (tree : ParseTree) (errors : List ParseError) :
    parseLoop (fuel + 1) ⟨buf, p⟩ tree errors =
      parseLoop fuel ⟨buf, p + 1⟩
        (match directiveFormat.FindStringSubmatch (buf.getD p []) with
          | some m => { tree with Directives := tree.Directives.set (m 1) (m 2) }
          | none => tree) errors := by
  rw [parseLoop]
  have e0 : buf.getD p [] ≠ [] := by
    intro e; rw [e] at hd; cases hd
  have e1 : HasPrefix (buf.getD p []) "#".toList = true := by
    rw [hash_toList, HasPrefix_one]; exact hd
  simp only [Scan_lt buf p h, Text_succ buf p h, Backtrack_succ, e0, e1, ParseDirective_at buf p h]
  cases directiveFormat.FindStringSubmatch (buf.getD p []) <;> simp

theorem blank_isSpace {w : Line} (h : ∀ c ∈ w, c = ' ' ∨ c = '\t') : ∀ c ∈ w, isSpace c = true := by
  intro c hc
  rcases h c hc with rfl | rfl <;> decide

/-- C2. A line `#` w1 name w2 `=` w3 value w4 (w1..w4 runs of spaces and tabs, name
non-empty over letters, `-`, `_`, value non-empty over letters, digits, `_`) is read
by `ParseDirective` as (name, value, true), and `Parse` on that line alone returns
the directives name ↦ value, no tables and no diagnostics. -/
theorem ParseDirective_grammar (w1 name w2 w3 value w4 : Line)
    (hw1 : ∀ c ∈ w1, c = ' ' ∨ c = '\t') (hw2 : ∀ c ∈ w2, c = ' ' ∨ c = '\t')
    (hw3 : ∀ c ∈ w3, c = ' ' ∨ c = '\t') (hw4 : ∀ c ∈ w4, c = ' ' ∨ c = '\t')
    (hn : name ≠ []) (hname : ∀ c ∈ name, isDirName c = true)
    (hv : value ≠ []) (hvalue : ∀ c ∈ value, isDirValue c = true)
    (pre rest : List Line) :
    ParseDirective ⟨pre ++ ('#' :: (w1 ++ (name ++ (w2 ++ '=' :: (w3 ++ (value ++ w4)))))) :: rest,
        pre.length⟩ =
      (name, value, true,
        ⟨pre ++ ('#' :: (w1 ++ (name ++ (w2 ++ '=' :: (w3 ++ (value ++ w4)))))) :: rest,
          pre.length + 1⟩) ∧
    Parse ['#' :: (w1 ++ (name ++ (w2 ++ '=' :: (w3 ++ (value ++ w4)))))] =
      some (⟨[(name, value)], []⟩, []) := by
  obtain ⟨m, hm, h1, h2⟩ := directive_match w1 name w2 w3 value w4 (blank_isSpace hw1)
    (blank_isSpace hw2) (blank_isSpace hw3) (blank_isSpace hw4) hn hname hv hvalue
  constructor
  · rw [ParseDirective_at _ _ (length_zipper _ _ _), getD_zipper, hm]
    simp only [h1, h2]
  · simp only [Parse, ParseRun, NewScanner, Scanner.EOF]
    rw [if_neg (by simp)]
    simp only [List.length_singleton]
    rw [parseLoop_directive _ _ _ (by simp) (by simp), parseLoop_eof _ _ _ (by simp)]
    simp only [List.getD_cons_zero, hm, h1, h2]
    rfl

theorem ParseDirective_grammar_witness :
    ParseDirective ⟨["x".toList, "# lang\t= go ".toList], 1⟩ =
      ("lang".toList, "go".toList, true, ⟨["x".toList, "# lang\t= go ".toList], 2⟩) ∧
    Parse ["# lang\t= go ".toList] = some (⟨[("lang".toList, "go".toList)], []⟩, []) :=
  ParseDirective_grammar " ".toList "lang".toList "\t".toList " ".toList "go".toList " ".toList
    (by decide) (by decide) (by decide) (by decide) (by decide) (by decide) (by decide)
    (by decide) ["x".toList] []

theorem StrMap.mem_set (m : StrMap) (k v a b : Line) (h : (a, b) ∈ m.set k v) :
    (a, b) = (k, v) ∨ (a, b) ∈ m := by
  induction m with
  | nil => simpa [StrMap.set] using h
  | cons x xs ih =>
    obtain ⟨k1, v1⟩ := x
    simp only [StrMap.set] at h
    by_cases e : k1 = k
    · rw [if_pos e] at h
      rcases List.mem_cons.1 h with h | h
      · exact Or.inl h
      · exact Or.inr (List.mem_cons_of_mem _ h)
    · rw [if_neg e] at h
      rcases List.mem_cons.1 h with h | h
      · exact Or.inr (by rw [h]; exact List.mem_cons_self _ _)
      · rcases ih h with h | h
        · exact Or.inl h
        · exact Or.inr (List.mem_cons_of_mem _ h)

theorem parseLoop_comments (rest : List Line) :
    ∀ (pre : List Line) (fuel : Nat) (tree : ParseTree) (errors : List ParseError),
      rest.length + 1 ≤ fuel →
      (∀ l ∈ rest, l.head? = some '#') →
      ∃ dirs, parseLoop fuel ⟨pre ++ rest, pre.length⟩ tree errors =
          some (⟨dirs, tree.Tables⟩, errors, ⟨pre ++ rest, (pre ++ rest).length + 1⟩) ∧
        ∀ k v, (k, v) ∈ dirs → (k, v) ∈ tree.Directives ∨
          ∃ l ∈ rest, directiveFormat.FindStringSubmatch l ≠ none ∧
            ∀ m, directiveFormat.FindStringSubmatch l = some m → m 1 = k ∧ m 2 = v := by
  induction rest with
  | nil =>
    intro pre fuel tree errors hf _
    obtain ⟨f, rfl⟩ : ∃ f, fuel = f + 1 := ⟨fuel - 1, by simp at hf; omega⟩
    rw [parseLoop_eof _ _ _ (by simp)]
    exact ⟨tree.Directives, by simp, fun k v h => Or.inl h⟩
  | cons l rest ih =>
    intro pre fuel tree errors hf hl
    obtain ⟨f, rfl⟩ : ∃ f, fuel = f + 1 := ⟨fuel - 1, by simp at hf; omega⟩
    have hlen := length_zipper pre rest l
    have hget := getD_zipper pre rest l
    have ih1 := ih (pre ++ [l]) f
    have hrest : ∀ l ∈ rest, l.head? = some '#' := fun x hx => hl x (by simp [hx])
    have hf1 : rest.length + 1 ≤ f := by simp at hf; omega
    simp only [List.append_assoc, List.singleton_append, List.length_append,
      List.length_singleton] at ih1
    rw [parseLoop_directive _ _ _ hlen (by rw [hget]; exact hl l (by simp)), hget]
    cases hm : directiveFormat.FindStringSubmatch l with
    | none =>
      obtain ⟨dirs, h1, h2⟩ := ih1 tree errors hf1 hrest
      refine ⟨dirs, by simpa using h1, fun k v h => ?_⟩
      rcases h2 k v h with h | ⟨x, hx, h⟩
      · exact Or.inl h
      · exact Or.inr ⟨x, by simp [hx], h⟩
    | some m =>
      obtain ⟨dirs, h1, h2⟩ := ih1 { tree with Directives := tree.Directives.set (m 1) (m 2) }
        errors hf1 hrest
      refine ⟨dirs, by simpa using h1, fun k v h => ?_⟩
      rcases h2 k v h with h | ⟨x, hx, h⟩
      · rcases StrMap.mem_set _ _ _ _ _ h with h | h
        · refine Or.inr ⟨l, by simp, by simp [hm], fun m1 e => ?_⟩
          rw [hm] at e
          simp only [Option.some.injEq] at e
          subst e
          simp only [Prod.mk.injEq] at h
          exact ⟨h.1.symm, h.2.symm⟩
        · exact Or.inl h
      · exact Or.inr ⟨x, by simp [hx], h⟩

/-- C3. On an input in which every line starts with `#`, `Parse` returns no
diagnostics and no tables and consumes every line, and every entry name ↦ value of
the directive map comes from a line of the directive grammar (with whitespace the
class `\s`) with that name and value; so a `#`-line outside the grammar adds
nothing. -/
theorem Parse_comments (lines : List Line) (h : ∀ l ∈ lines, l.head? = some '#') :
    ∃ dirs s, ParseRun lines = some (⟨dirs, []⟩, [], s) ∧ s.line = lines.length + 1 ∧
      Parse lines = some (⟨dirs, []⟩, []) ∧
      ∀ k v, (k, v) ∈ dirs → ∃ l ∈ lines, ∃ w1 w2 w3 w4 : Line,
        (∀ c ∈ w1, isSpace c = true) ∧ (∀ c ∈ w2, isSpace c = true) ∧
        (∀ c ∈ w3, isSpace c = true) ∧ (∀ c ∈ w4, isSpace c = true) ∧
        k ≠ [] ∧ (∀ c ∈ k, isDirName c = true) ∧ v ≠ [] ∧ (∀ c ∈ v, isDirValue c = true) ∧
        l = '#' :: (w1 ++ (k ++ (w2 ++ '=' :: (w3 ++ (v ++ w4))))) := by
  obtain ⟨dirs, h1, h2⟩ :=
    parseLoop_comments lines [] (lines.length + 1) NewParseTree [] (Nat.le_refl _) h
  simp only [List.nil_append, List.length_nil] at h1
  have hrun : ParseRun lines = some (⟨dirs, []⟩, [], ⟨lines, lines.length + 1⟩) := by
    simp only [ParseRun, NewScanner, Scanner.EOF]
    rw [if_neg (by simp), h1]
    rfl
  refine ⟨dirs, _, hrun, rfl, by simp [Parse, hrun], fun k v hkv => ?_⟩
  rcases h2 k v hkv with h3 | ⟨l, hl, hne, hm⟩
  · simp [NewParseTree] at h3
  · cases e : directiveFormat.FindStringSubmatch l with
    | none => exact absurd e hne
    | some m =>
      obtain ⟨w1, w2, w3, w4, a1, a2, a3, a4, a5, a6, a7, a8, a9⟩ := directive_sound l m e
      obtain ⟨rfl, rfl⟩ := hm m e
      exact ⟨l, hl, w1, w2, w3, w4, a1, a2, a3, a4, a5, a6, a7, a8, a9⟩

theorem Parse_comments_witness :
    ∃ dirs s, ParseRun ["#This is a comment".toList, "#a=1".toList, "#b:2".toList] =
        some (⟨dirs, []⟩, [], s) ∧ s.line = 3 + 1 ∧
      Parse ["#This is a comment".toList, "#a=1".toList, "#b:2".toList] = some (⟨dirs, []⟩, []) ∧
      ∀ k v, (k, v) ∈ dirs →
        ∃ l ∈ ["#This is a comment".toList, "#a=1".toList, "#b:2".toList], ∃ w1 w2 w3 w4 : Line,
        (∀ c ∈ w1, isSpace c = true) ∧ (∀ c ∈ w2, isSpace c = true) ∧
        (∀ c ∈ w3, isSpace c = true) ∧ (∀ c ∈ w4, isSpace c = true) ∧
        k ≠ [] ∧ (∀ c ∈ k, isDirName c = true) ∧ v ≠ [] ∧ (∀ c ∈ v, isDirValue c = true) ∧
        l = '#' :: (w1 ++ (k ++ (w2 ++ '=' :: (w3 ++ (v ++ w4))))) :=
  Parse_comments ["#This is a comment".toList, "#a=1".toList, "#b:2".toList] (by decide)

/-! ## Aliases, constraints and the sub-line loop -/

theorem ParseAlias_at (buf : List Line) (p : Nat) (h : p < buf.length) :
    ParseAlias ⟨buf, p⟩ =
      match aliasFormat.FindStringSubmatch (buf.getD p []) with
      | some m => (m 1, [], ⟨buf, p + 1⟩)
      | none => ([], [⟨"Ill-formed alias", p + 1⟩], ⟨buf, p + 1⟩) := by
  simp only [ParseAlias, Scan_lt buf p h, Text_succ buf p h, NewError, Scanner.Line]

theorem ParseConstraint_at (buf : List Line) (p : Nat) (h : p < buf.length) :
    ParseConstraint ⟨buf, p⟩ =
      match constraintFormat.FindStringSubmatch (buf.getD p []) with
      | some m => (some ⟨m 1, m 2⟩, [], ⟨buf, p + 1⟩)
      | none => (none, [⟨"Ill-formed constraint", p + 1⟩], ⟨buf, p + 1⟩) := by
  simp only [ParseConstraint, Scan_lt buf p h, Text_succ buf p h, NewError, Scanner.Line]

theorem columnLoop_eof (fuel : Nat) (buf : List Line) (p : Nat) (h : buf.length ≤ p)
    (column : Column) (errors : List ParseError) :
    columnLoop (fuel + 1) ⟨buf, p⟩ column errors =
      some (column, errors, ⟨buf, if p = buf.length then p + 1 else p⟩) := by
  rcases Nat.eq_or_lt_of_le h with e | e
  · subst e
    simp [columnLoop, Scan_eq]
  · have : p ≠ buf.length := by omega
    simp [columnLoop, Scan_gt buf p e, this]

theorem columnLoop_alias (fuel : Nat) (buf : List Line) (p : Nat) (h : p < buf.length)
    (ha : Contains (buf.getD p []) "alias".toList = true)
    (column : Column) (errors : List ParseError) :
    columnLoop (fuel + 1) ⟨buf, p⟩ column errors =
      match aliasFormat.FindStringSubmatch (buf.getD p []) with
      | some m => columnLoop fuel ⟨buf, p + 1⟩ { column with Alias := m 1 } errors
      | none => columnLoop fuel ⟨buf, p + 1⟩ { column with Alias := [] }
          (errors ++ [⟨"Ill-formed alias", p + 1⟩]) := by
  rw [columnLoop]
  simp only [Scan_lt buf p h, Text_succ buf p h, Backtrack_succ, ha, ParseAlias_at buf p h]
  cases aliasFormat.FindStringSubmatch (buf.getD p []) <;> simp

theorem columnLoop_sub (fuel : Nat) (buf : List Line) (p : Nat) (h : p < buf.length)
    (ha : Contains (buf.getD p []) "alias".toList = false)
    (hs : subIndicator.MatchString (buf.getD p []) = true)
    (column : Column) (errors : List ParseError) :
    columnLoop (fuel + 1) ⟨buf, p⟩ column errors =
      match constraintFormat.FindStringSubmatch (buf.getD p []) with
      | some m => columnLoop fuel ⟨buf, p + 1⟩
          { column with Constraints := column.Constraints ++ [⟨m 1, m 2⟩] } errors
      | none => columnLoop fuel ⟨buf, p + 1⟩ column
          (errors ++ [⟨"Ill-formed constraint", p + 1⟩]) := by
  rw [columnLoop]
  simp only [Scan_lt buf p h, Text_succ buf p h, Backtrack_succ, ha, hs,
    ParseConstraint_at buf p h]
  cases constraintFormat.FindStringSubmatch (buf.getD p []) <;> simp

theorem columnLoop_stop (fuel : Nat) (buf : List Line) (p : Nat) (h : p < buf.length)
    (ha : Contains (buf.getD p []) "alias".toList = false)
    (hs : subIndicator.MatchString (buf.getD p []) = false)
    (column : Column) (errors : List ParseError) :
    columnLoop (fuel + 1) ⟨buf, p⟩ column errors = some (column, errors, ⟨buf, p⟩) := by
  rw [columnLoop]
  simp only [Scan_lt buf p h, Text_succ buf p h, Backtrack_succ, ha, hs]
  simp

/-- The sub-line loop returns, on the same buffer, without moving backwards, and
stops at the end of the input or in front of a line that is no sub-line. -/
theorem columnLoop_spec (buf : List Line) : ∀ (fuel p : Nat) (column : Column)
    (errors : List ParseError), buf.length + 1 ≤ fuel + p → 1 ≤ fuel →
    ∃ col errs q, columnLoop fuel ⟨buf, p⟩ column errors = some (col, errs, ⟨buf, q⟩) ∧
      p ≤ q ∧ q ≤ max p (buf.length + 1) ∧
      (buf.length < q ∨
        (Contains (buf.getD q []) "alias".toList = false ∧
          subIndicator.MatchString (buf.getD q []) = false)) := by
  intro fuel
  induction fuel with
  | zero => intro p column errors _ h; omega
  | succ f ih =>
    intro p column errors hf _
    by_cases hp : p < buf.length
    · have hf1 : buf.length + 1 ≤ f + (p + 1) := by omega
      have hf2 : 1 ≤ f := by omega
      have next : ∀ (c : Column) (e : List ParseError),
          ∃ col errs q, columnLoop f ⟨buf, p + 1⟩ c e = some (col, errs, ⟨buf, q⟩) ∧
            p ≤ q ∧ q ≤ max p (buf.length + 1) ∧
            (buf.length < q ∨
              (Contains (buf.getD q []) "alias".toList = false ∧
                subIndicator.MatchString (buf.getD q []) = false)) := by
        intro c e
        obtain ⟨col, errs, q, h1, h2, h3, h4⟩ := ih (p + 1) c e hf1 hf2
        exact ⟨col, errs, q, h1, by omega, by omega, h4⟩
      cases ha : Contains (buf.getD p []) "alias".toList with
      | true =>
        rw [columnLoop_alias f buf p hp ha]
        cases aliasFormat.FindStringSubmatch (buf.getD p []) <;> exact next _ _
      | false =>
        cases hs : subIndicator.MatchString (buf.getD p []) with
        | true =>
          rw [columnLoop_sub f buf p hp ha hs]
          cases constraintFormat.FindStringSubmatch (buf.getD p []) <;> exact next _ _
        | false =>
          rw [columnLoop_stop f buf p hp ha hs]
          exact ⟨column, errors, p, rfl, Nat.le_refl _, by omega, Or.inr ⟨ha, hs⟩⟩
    · rw [columnLoop_eof f buf p (by omega)]
      refine ⟨column, errors, _, rfl, ?_, ?_, Or.inl ?_⟩ <;> split <;> omega

/-! ## Columns and tables -/

theorem columnFormat_nil : columnFormat.FindStringSubmatch [] = none := rfl

theorem tableName_nil : tableName.FindStringSubmatch [] = none := rfl

theorem ParseColumn_at (buf : List Line) (p : Nat) (h : p < buf.length) :
    ParseColumn ⟨buf, p⟩ =
      match columnFormat.FindStringSubmatch (buf.getD p []) with
      | some m =>
        match columnLoop (buf.length + 1) ⟨buf, p + 1⟩ ⟨m 1, m 2, m 3, [], []⟩ [] with
        | some r => some (some r.1, r.2.1, r.2.2)
        | none => none
      | none =>
        some (some ⟨[], [], [], [], []⟩, [⟨"Invalid column definition", p + 1⟩], ⟨buf, p + 1⟩) := by
  simp only [ParseColumn, Scan_lt buf p h, Text_succ buf p h, NewError, Scanner.Line]

theorem ParseColumn_eof (buf : List Line) (p : Nat) (h : buf.length ≤ p) :
    ParseColumn ⟨buf, p⟩ =
      some (some ⟨[], [], [], [], []⟩,
        [⟨"Invalid column definition", if p = buf.length then p + 1 else p⟩],
        ⟨buf, if p = buf.length then p + 1 else p⟩) := by
  rcases Nat.eq_or_lt_of_le h with e | e
  · subst e
    simp [ParseColumn, Scan_eq, Text_eof, columnFormat_nil, NewError, Scanner.Line]
  · have : p ≠ buf.length := by omega
    simp [ParseColumn, Scan_gt buf p e, Text_eof buf p e, columnFormat_nil, NewError,
      Scanner.Line, this]

/-- `ParseColumn` returns a column (never nil), on the same buffer, and consumes at
least the line it starts on. -/
theorem ParseColumn_spec (buf : List Line) (p : Nat) (h : p < buf.length) :
    ∃ col errs q, ParseColumn ⟨buf, p⟩ = some (some col, errs, ⟨buf, q⟩) ∧
      p + 1 ≤ q ∧ q ≤ buf.length + 1 := by
  rw [ParseColumn_at buf p h]
  cases columnFormat.FindStringSubmatch (buf.getD p []) with
  | none => exact ⟨_, _, p + 1, rfl, Nat.le_refl _, by omega⟩
  | some m =>
    obtain ⟨col, errs, q, h1, h2, h3, _⟩ :=
      columnLoop_spec buf (buf.length + 1) (p + 1) ⟨m 1, m 2, m 3, [], []⟩ [] (by omega) (by omega)
    refine ⟨col, errs, q, by simp [h1], h2, ?_⟩
    have : max (p + 1) (buf.length + 1) = buf.length + 1 := by omega
    omega

theorem tableLoop_eof (fuel : Nat) (buf : List Line) (p : Nat) (h : buf.length ≤ p)
    (table : Table) (errors : List ParseError) :
    tableLoop (fuel + 1) ⟨buf, p⟩ table errors =
      some (some table, errors, ⟨buf, if p = buf.length then p + 1 else p⟩) := by
  rcases Nat.eq_or_lt_of_le h with e | e
  · subst e
    simp [tableLoop, Scan_eq]
  · have : p ≠ buf.length := by omega
    simp [tableLoop, Scan_gt buf p e, this]

theorem tableLoop_blank (fuel : Nat) (buf : List Line) (p : Nat) (h : p < buf.length)
    (hl : buf.getD p [] = []) (table : Table) (errors : List ParseError) :
    tableLoop (fuel + 1) ⟨buf, p⟩ table errors = some (some table, errors, ⟨buf, p + 1⟩) := by
  rw [tableLoop]
  simp only [Scan_lt buf p h, Text_succ buf p h, hl]
  simp

theorem tableLoop_column (fuel : Nat) (buf : List Line) (p : Nat) (h : p < buf.length)
    (hl : buf.getD p [] ≠ []) (table : Table) (errors : List ParseError)
    (col : Column) (errs : List ParseError) (s : Scanner)
    (hc : ParseColumn ⟨buf, p⟩ = some (some col, errs, s)) :
    tableLoop (fuel + 1) ⟨buf, p⟩ table errors =
      if errs ≠ [] then tableLoop fuel s table (errors ++ errs)
      else tableLoop fuel s { table with Columns := table.Columns ++ [col] } errors := by
  rw [tableLoop]
  simp only [Scan_lt buf p h, Text_succ buf p h, Backtrack_succ, hl, hc]
  simp

/-- The column loop returns the table, on the same buffer, and stops at the end of
the input or just after an empty line. -/
theorem tableLoop_spec (buf : List Line) : ∀ (fuel p : Nat) (table : Table)
    (errors : List ParseError), buf.length + 1 ≤ fuel + p → 1 ≤ fuel →
    ∃ t errs q, tableLoop fuel ⟨buf, p⟩ table errors = some (some t, errs, ⟨buf, q⟩) ∧
      p ≤ q ∧ q ≤ max p (buf.length + 1) ∧
      (buf.length < q ∨ (p < q ∧ buf.getD (q - 1) [] = [])) := by
  intro fuel
  induction fuel with
  | zero => intro p table errors _ h; omega
  | succ f ih =>
    intro p table errors hf _
    by_cases hp : p < buf.length
    · by_cases hl : buf.getD p [] = []
      · rw [tableLoop_blank f buf p hp hl]
        exact ⟨table, errors, p + 1, rfl, by omega, by omega, Or.inr ⟨by omega, by simpa using hl⟩⟩
      · obtain ⟨col, errs, q, hc, hq1, hq2⟩ := ParseColumn_spec buf p hp
        rw [tableLoop_column f buf p hp hl table errors col errs _ hc]
        have next : ∀ (t : Table) (e : List ParseError),
            ∃ t1 errs1 q1, tableLoop f ⟨buf, q⟩ t e = some (some t1, errs1, ⟨buf, q1⟩) ∧
              p ≤ q1 ∧ q1 ≤ max p (buf.length + 1) ∧
              (buf.length < q1 ∨ (p < q1 ∧ buf.getD (q1 - 1) [] = [])) := by
          intro t e
          obtain ⟨t1, errs1, q1, h1, h2, h3, h4⟩ := ih q t e (by omega) (by omega)
          refine ⟨t1, errs1, q1, h1, by omega, by omega, ?_⟩
          rcases h4 with h4 | h4
          · exact Or.inl h4
          · exact Or.inr ⟨by omega, h4.2⟩
        split
        · exact next _ _
        · exact next _ _
    · rw [tableLoop_eof f buf p (by omega)]
      refine ⟨table, errors, _, rfl, ?_, ?_, Or.inl ?_⟩ <;> split <;> omega

theorem ParseTable_at (buf : List Line) (p : Nat) (h : p < buf.length) :
    ParseTable ⟨buf, p⟩ =
      match tableName.FindStringSubmatch (buf.getD p []) with
      | none => some (none, [⟨"Invalid table name", p + 1⟩], ⟨buf, p + 1⟩)
      | some m => tableLoop (buf.length + 1) ⟨buf, p + 1⟩ ⟨m 1, []⟩ [] := by
  simp only [ParseTable, Scan_lt buf p h, Text_succ buf p h, NewError, Scanner.Line]

/-- `ParseTable` returns, on the same buffer, and consumes at least the line it
starts on. -/
theorem ParseTable_spec (buf : List Line) (p : Nat) (h : p < buf.length) :
    ∃ t errs q, ParseTable ⟨buf, p⟩ = some (t, errs, ⟨buf, q⟩) ∧
      p + 1 ≤ q ∧ q ≤ buf.length + 1 := by
  rw [ParseTable_at buf p h]
  cases tableName.FindStringSubmatch (buf.getD p []) with
  | none => exact ⟨_, _, p + 1, rfl, Nat.le_refl _, by omega⟩
  | some m =>
    obtain ⟨t, errs, q, h1, h2, h3, _⟩ :=
      tableLoop_spec buf (buf.length + 1) (p + 1) ⟨m 1, []⟩ [] (by omega) (by omega)
    refine ⟨some t, errs, q, h1, h2, ?_⟩
    have : max (p + 1) (buf.length + 1) = buf.length + 1 := by omega
    omega

theorem parseLoop_table (fuel : Nat) (buf : List Line) (p : Nat) (h : p < buf.length)
    (hd : (buf.getD p []).head? = some '[') (tree : ParseTree) (errors : List ParseError)
    (t : Option Table) (errs : List ParseError) (s : Scanner)
    (ht : ParseTable ⟨buf, p⟩ = some (t, errs, s)) :
    parseLoop (fuel + 1) ⟨buf, p⟩ tree errors =
      if errs ≠ [] then parseLoop fuel s tree (errors ++ errs)
      else
        match t with
        | some table => parseLoop fuel s { tree with Tables := tree.Tables ++ [table] } errors
        | none => parseLoop fuel s tree errors := by
  rw [parseLoop]
  have e0 : buf.getD p [] ≠ [] := by
    intro e; rw [e] at hd; cases hd
  have e1 : HasPrefix (buf.getD p []) "#".toList = false := by
    rw [hash_toList, ← Bool.not_eq_true, HasPrefix_one, hd]; decide
  have e2 : HasPrefix (buf.getD p []) "[".toList = true := by
    rw [bracket_toList, HasPrefix_one]; exact hd
  simp only [Scan_lt buf p h, Text_succ buf p h, Backtrack_succ, e0, e1, e2, ht]
  cases t <;> simp

/-- The main loop returns with the cursor past the last line. -/
theorem parseLoop_spec (buf : List Line) : ∀ (fuel p : Nat) (tree : ParseTree)
    (errors : List ParseError), buf.length + 1 ≤ fuel + p → 1 ≤ fuel → p ≤ buf.length + 1 →
    ∃ tree1 errs, parseLoop fuel ⟨buf, p⟩ tree errors =
      some (tree1, errs, ⟨buf, buf.length + 1⟩) := by
  intro fuel
  induction fuel with
  | zero => intro p tree errors _ h; omega
  | succ f ih =>
    intro p tree errors hf _ hp1
    by_cases hp : p < buf.length
    · by_cases hl : buf.getD p [] = []
      · rw [parseLoop_blank f buf p hp hl]
        exact ih (p + 1) _ _ (by omega) (by omega) (by omega)
      · by_cases h1 : (buf.getD p []).head? = some '#'
        · rw [parseLoop_directive f buf p hp h1]
          exact ih (p + 1) _ _ (by omega) (by omega) (by omega)
        · by_cases h2 : (buf.getD p []).head? = some '['
          · obtain ⟨t, errs, q, ht, hq1, hq2⟩ := ParseTable_spec buf p hp
            rw [parseLoop_table f buf p hp h2 tree errors t errs _ ht]
            split
            · exact ih q _ _ (by omega) (by omega) (by omega)
            · split <;> exact ih q _ _ (by omega) (by omega) (by omega)
          · rw [parseLoop_stray f buf p hp hl h1 h2]
            exact ih (p + 1) _ _ (by omega) (by omega) (by omega)
    · rw [parseLoop_eof f buf p (by omega)]
      refine ⟨tree, errors, ?_⟩
      have : p = buf.length ∨ p = buf.length + 1 := by omega
      rcases this with e | e <;> simp [e]

/-- C6. `Parse` returns on every list of input lines, with the cursor past the
last line; and `ParseTable` and `ParseColumn`, started in front of a line, return
having moved the cursor forward, at most to the position past the last line. -/
theorem Parse_total (lines : List Line) :
    (∃ tree errs, ParseRun lines = some (tree, errs, ⟨lines, lines.length + 1⟩) ∧
      Parse lines = some (tree, errs)) ∧
    (∀ p, p < lines.length → ∃ t errs q, ParseTable ⟨lines, p⟩ = some (t, errs, ⟨lines, q⟩) ∧
      p < q ∧ q ≤ lines.length + 1) ∧
    (∀ p, p < lines.length → ∃ c errs q, ParseColumn ⟨lines, p⟩ = some (c, errs, ⟨lines, q⟩) ∧
      p < q ∧ q ≤ lines.length + 1) := by
  refine ⟨?_, ?_, ?_⟩
  · obtain ⟨tree, errs, h⟩ :=
      parseLoop_spec lines (lines.length + 1) 0 NewParseTree [] (by omega) (by omega) (by omega)
    have hrun : ParseRun lines = some (tree, errs, ⟨lines, lines.length + 1⟩) := by
      simp only [ParseRun, NewScanner, Scanner.EOF]
      rw [if_neg (by simp), h]
    exact ⟨tree, errs, hrun, by simp [Parse, hrun]⟩
  · intro p hp
    obtain ⟨t, errs, q, h1, h2, h3⟩ := ParseTable_spec lines p hp
    exact ⟨t, errs, q, h1, by omega, h3⟩
  · intro p hp
    obtain ⟨c, errs, q, h1, h2, h3⟩ := ParseColumn_spec lines p hp
    exact ⟨some c, errs, q, h1, by omega, h3⟩

theorem isSpace_of_isIdent {c : Char} (h : isIdent c = true) : isSpace c = false := by
  cases hs : isSpace c
  · rfl
  · simp [isIdent_of_isSpace hs] at h

theorem starLoop_space_eol {α : Type} (g : Bool) (K : Line → Nat → Option α) (ws : Line)
    (pos : Nat) (hws : ∀ c ∈ ws, isSpace c = true) :
    starLoop isSpace g (fun i q => if i = [] then K i q else none) ws pos =
      K [] (pos + ws.length) := by
  have := starLoop_skip isSpace g (fun i q => if i = [] then K i q else none)
    (by intro c cs q _; simp) ws [] pos hws (by simp)
  simpa using this

/-- A header `[ident]` with trailing whitespace matches `tableName`. -/
theorem tableName_match (ident ws : Line) (hi : ident ≠ [])
    (hident : ∀ c ∈ ident, isIdent c = true) (hws : ∀ c ∈ ws, isSpace c = true) :
    ∃ m, tableName.FindStringSubmatch ('[' :: (ident ++ ']' :: ws)) = some m ∧ m 1 = ident := by
  obtain ⟨n, ns, rfl⟩ := List.exists_cons_of_ne_nil hi
  have hn0 := hident n (by simp)
  have hns : ∀ c ∈ ns, isIdent c = true := fun c hc => hident c (by simp [hc])
  simp only [tableName, Regex.seq, Regex.run, lit, Regex.FindStringSubmatch, Regex.search]
  simp only [List.cons_append, hn0, if_true, beq_self_eq_true]
  rw [starLoop_skip isIdent true _ ?_ ns _ _ hns ?_]
  rotate_left
  · intro c cs q hc
    have h2 : c ≠ ']' := by
      rintro rfl; exact absurd hc (by decide)
    simp [h2]
  · simp; decide
  simp only [beq_self_eq_true, if_true]
  rw [starLoop_space_eol true _ ws _ hws]
  simp only [accept, setCap]
  refine ⟨_, rfl, ?_⟩
  show List.take _ _ = _
  apply take_run
  omega

theorem getD_mem (buf : List Line) (i : Nat) (h : i < buf.length) : buf.getD i [] ∈ buf := by
  rw [List.getD_eq_getElem _ _ h]
  exact List.getElem_mem h

/-- C5. On an input without empty line whose first line is a valid table header,
`ParseTable` returns a table and a list of diagnostics; `Parse` returns the tree
with exactly that table and no diagnostics when the list is empty, and otherwise
the tree without tables together with exactly that list. -/
theorem Parse_table_all_or_nothing (ident ws : Line) (rest : List Line) (hi : ident ≠ [])
    (hident : ∀ c ∈ ident, isIdent c = true) (hws : ∀ c ∈ ws, isSpace c = true)
    (hrest : ∀ l ∈ rest, l ≠ []) :
    ∃ t errs s, ParseTable (NewScanner (('[' :: (ident ++ ']' :: ws)) :: rest)) =
        some (some t, errs, s) ∧
      Parse (('[' :: (ident ++ ']' :: ws)) :: rest) =
        some (if errs = [] then ⟨[], [t]⟩ else ⟨[], []⟩, errs) := by
  obtain ⟨m, hm, _⟩ := tableName_match ident ws hi hident hws
  generalize hb : (('[' :: (ident ++ ']' :: ws)) :: rest) = buf
  have hlen : buf.length = rest.length + 1 := by rw [← hb]; simp
  have h0 : buf.getD 0 [] = '[' :: (ident ++ ']' :: ws) := by rw [← hb]; rfl
  have hne : ∀ l ∈ buf, l ≠ [] := by
    rw [← hb]
    intro l hl
    rcases List.mem_cons.1 hl with rfl | hl
    · simp
    · exact hrest l hl
  obtain ⟨t, errs, q, h1, h2, h3, h4⟩ :=
    tableLoop_spec buf (buf.length + 1) 1 ⟨m 1, []⟩ [] (by omega) (by omega)
  have hq : q = buf.length + 1 := by
    rcases h4 with h4 | ⟨h4, h5⟩
    · have : max 1 (buf.length + 1) = buf.length + 1 := by omega
      omega
    · by_cases hq : buf.length < q
      · have : max 1 (buf.length + 1) = buf.length + 1 := by omega
        omega
      · exact absurd h5 (hne _ (getD_mem buf (q - 1) (by omega)))
  subst hq
  have ht : ParseTable ⟨buf, 0⟩ = some (some t, errs, ⟨buf, buf.length + 1⟩) := by
    rw [ParseTable_at buf 0 (by omega), h0, hm]
    exact h1
  have key : ∀ (tree : ParseTree) (errors : List ParseError),
      parseLoop buf.length ⟨buf, buf.length + 1⟩ tree errors =
        some (tree, errors, ⟨buf, buf.length + 1⟩) := by
    intro tree errors
    have := parseLoop_eof rest.length buf (buf.length + 1) (by omega) tree errors
    rw [← hlen] at this
    simpa using this
  refine ⟨t, errs, _, ht, ?_⟩
  simp only [Parse, ParseRun, NewScanner, Scanner.EOF]
  rw [if_neg (by simp), parseLoop_table _ buf 0 (by omega) (by rw [h0]; rfl) _ _ _ _ _ ht]
  by_cases he : errs = []
  · simp [he, key, NewParseTree]
  · simp [he, key, NewParseTree]

theorem Parse_table_all_or_nothing_witness :
    ∃ t errs s, ParseTable (NewScanner (('[' :: ("t".toList ++ ']' :: [])) ::
        ["x int".toList, "oops".toList])) = some (some t, errs, s) ∧
      Parse (('[' :: ("t".toList ++ ']' :: [])) :: ["x int".toList, "oops".toList]) =
        some (if errs = [] then ⟨[], [t]⟩ else ⟨[], []⟩, errs) :=
  Parse_table_all_or_nothing "t".toList [] ["x int".toList, "oops".toList]
    (by decide) (by decide) (by decide) (by decide)

/-- The lines that begin with optional whitespace and `-` are those `subIndicator`
matches. -/
theorem subIndicator_iff (l : Line) :
    subIndicator.MatchString l = true ↔
      ∃ ws r : Line, (∀ c ∈ ws, isSpace c = true) ∧ l = ws ++ '-' :: r := by
  constructor
  · intro h
    cases hm : subIndicator.search l 0 with
    | none => simp [Regex.MatchString, hm] at h
    | some m =>
      obtain ⟨pre, i0, i1, p1, e, hmm⟩ := subIndicator.search_sound l 0 m hm
      simp only [subIndicator, Regex.seq, Regex.Matches, lit] at hmm
      obtain ⟨_, _, _, ⟨hp, rfl, rfl, rfl⟩, _, _, _, ⟨ws, hws, rfl, rfl, rfl⟩,
        ch, hch, rfl, rfl, rfl⟩ := hmm
      have hpre : pre = [] := List.length_eq_zero.1 (by omega)
      subst hpre
      rw [beq_iff_eq] at hch
      subst hch
      exact ⟨ws, i1, hws, by simpa using e⟩
  · rintro ⟨ws, r, hws, rfl⟩
    have : subIndicator.search (ws ++ '-' :: r) 0 ≠ none := by
      have hrun : subIndicator.run (ws ++ '-' :: r) 0 noCaps accept = some noCaps := by
        simp only [subIndicator, Regex.seq, Regex.run, lit, if_true]
        rw [starLoop_skip isSpace true _ ?_ ws _ _ hws ?_]
        · simp [accept]
        · intro c cs q hc
          have h2 : c ≠ '-' := by
            rintro rfl; exact absurd hc (by decide)
          simp [h2]
        · simp; decide
      cases hl : ws ++ '-' :: r with
      | nil => simp at hl
      | cons x xs =>
        rw [hl] at hrun
        simp [Regex.search, hrun]
    cases hm : subIndicator.search (ws ++ '-' :: r) 0 with
    | none => exact absurd hm this
    | some m => simp [Regex.MatchString, hm]

/-- The sub-line loop over a run of sub-lines: the column and the errors it builds
are the same whether the input ends after the run or goes on with a line that is
no sub-line, in front of which the cursor is then left. -/
theorem columnLoop_run (subs : List Line) :
    ∀ (pre : List Line) (column : Column) (errors : List ParseError),
      (∀ l ∈ subs, Contains l "alias".toList = true ∨ subIndicator.MatchString l = true) →
      ∃ col errs,
        (∀ fuel, subs.length + 1 ≤ fuel →
          columnLoop fuel ⟨pre ++ subs, pre.length⟩ column errors =
            some (col, errs, ⟨pre ++ subs, pre.length + subs.length + 1⟩)) ∧
        (∀ fuel stop rest, subs.length + 1 ≤ fuel →
          Contains stop "alias".toList = false → subIndicator.MatchString stop = false →
          columnLoop fuel ⟨pre ++ (subs ++ stop :: rest), pre.length⟩ column errors =
            some (col, errs, ⟨pre ++ (subs ++ stop :: rest), pre.length + subs.length⟩)) := by
  induction subs with
  | nil =>
    intro pre column errors _
    refine ⟨column, errors, ?_, ?_⟩
    · intro fuel hf
      obtain ⟨f, rfl⟩ : ∃ f, fuel = f + 1 := ⟨fuel - 1, by simp at hf; omega⟩
      rw [columnLoop_eof _ _ _ (by simp)]
      simp
    · intro fuel stop rest hf ha hs
      obtain ⟨f, rfl⟩ : ∃ f, fuel = f + 1 := ⟨fuel - 1, by simp at hf; omega⟩
      simp only [List.nil_append, List.length_nil, Nat.add_zero]
      rw [columnLoop_stop _ _ _ (length_zipper _ _ _) (by rw [getD_zipper]; exact ha)
        (by rw [getD_zipper]; exact hs)]
  | cons l subs ih =>
    intro pre column errors hsubs
    have hrest : ∀ x ∈ subs, Contains x "alias".toList = true ∨
        subIndicator.MatchString x = true := fun x hx => hsubs x (by simp [hx])
    have step : ∀ (c : Column) (e : List ParseError),
        (∀ (f : Nat) (buf : List Line), pre.length < buf.length → buf.getD pre.length [] = l →
          columnLoop (f + 1) ⟨buf, pre.length⟩ column errors =
            columnLoop f ⟨buf, pre.length + 1⟩ c e) →
        ∃ col errs,
          (∀ fuel, (l :: subs).length + 1 ≤ fuel →
            columnLoop fuel ⟨pre ++ l :: subs, pre.length⟩ column errors =
              some (col, errs, ⟨pre ++ l :: subs, pre.length + (l :: subs).length + 1⟩)) ∧
          (∀ fuel stop rest, (l :: subs).length + 1 ≤ fuel →
            Contains stop "alias".toList = false → subIndicator.MatchString stop = false →
            columnLoop fuel ⟨pre ++ (l :: subs ++ stop :: rest), pre.length⟩ column errors =
              some (col, errs,
                ⟨pre ++ (l :: subs ++ stop :: rest), pre.length + (l :: subs).length⟩)) := by
      intro c e hstep
      obtain ⟨col, errs, h1, h2⟩ := ih (pre ++ [l]) c e hrest
      simp only [List.append_assoc, List.singleton_append, List.length_append,
        List.length_singleton] at h1 h2
      refine ⟨col, errs, ?_, ?_⟩
      · intro fuel hf
        obtain ⟨f, rfl⟩ : ∃ f, fuel = f + 1 := ⟨fuel - 1, by simp at hf; omega⟩
        rw [hstep f _ (length_zipper _ _ _) (getD_zipper _ _ _), h1 f (by simp at hf; omega)]
        simp only [List.length_cons]
        congr 4; omega
      · intro fuel stop rest hf ha hs
        obtain ⟨f, rfl⟩ : ∃ f, fuel = f + 1 := ⟨fuel - 1, by simp at hf; omega⟩
        simp only [List.cons_append]
        rw [hstep f _ (length_zipper _ _ _) (getD_zipper _ _ _),
          h2 f stop rest (by simp at hf; omega) ha hs]
        simp only [List.length_cons]
        congr 4; omega
    cases ha : Contains l "alias".toList with
    | true =>
      cases hm : aliasFormat.FindStringSubmatch l with
      | none =>
        apply step { column with Alias := [] } (errors ++ [⟨"Ill-formed alias", pre.length + 1⟩])
        intro f buf hlen hget
        rw [columnLoop_alias f buf _ hlen (by rw [hget]; exact ha), hget, hm]
      | some m =>
        apply step { column with Alias := m 1 } errors
        intro f buf hlen hget
        rw [columnLoop_alias f buf _ hlen (by rw [hget]; exact ha), hget, hm]
    | false =>
      have hs : subIndicator.MatchString l = true := by
        rcases hsubs l (by simp) with h | h
        · rw [ha] at h; cases h
        · exact h
      cases hm : constraintFormat.FindStringSubmatch l with
      | none =>
        apply step column (errors ++ [⟨"Ill-formed constraint", pre.length + 1⟩])
        intro f buf hlen hget
        rw [columnLoop_sub f buf _ hlen (by rw [hget]; exact ha) (by rw [hget]; exact hs),
          hget, hm]
      | some m =>
        apply step { column with Constraints := column.Constraints ++ [⟨m 1, m 2⟩] } errors
        intro f buf hlen hget
        rw [columnLoop_sub f buf _ hlen (by rw [hget]; exact ha) (by rw [hget]; exact hs),
          hget, hm]

/-- C9 (as amended). After a valid column first line, the first following line
that neither contains `alias` nor begins with optional whitespace and `-` ends the
sub-line loop of `ParseColumn`: the column and the diagnostics are those of the
input cut before that line, and the cursor is left so that the next `Scan` yields
that line. -/
theorem ParseColumn_stops_at_non_sub_line (first : Line) (subs : List Line) (stop : Line)
    (rest : List Line)
    (hfirst : (columnFormat.FindStringSubmatch first).isSome = true)
    (hsubs : ∀ l ∈ subs, Contains l "alias".toList = true ∨
      ∃ ws r : Line, (∀ c ∈ ws, isSpace c = true) ∧ l = ws ++ '-' :: r)
    (hstop1 : Contains stop "alias".toList = false)
    (hstop2 : ¬ ∃ ws r : Line, (∀ c ∈ ws, isSpace c = true) ∧ stop = ws ++ '-' :: r) :
    ∃ col errs s,
      ParseColumn ⟨first :: (subs ++ stop :: rest), 0⟩ =
        some (some col, errs, ⟨first :: (subs ++ stop :: rest), subs.length + 1⟩) ∧
      ParseColumn ⟨first :: subs, 0⟩ = some (some col, errs, s) ∧
      (Scanner.Scan ⟨first :: (subs ++ stop :: rest), subs.length + 1⟩).1 = true ∧
      (Scanner.Scan ⟨first :: (subs ++ stop :: rest), subs.length + 1⟩).2.Text = stop := by
  cases hm : columnFormat.FindStringSubmatch first with
  | none => rw [hm] at hfirst; cases hfirst
  | some m =>
    have hsubs1 : ∀ l ∈ subs, Contains l "alias".toList = true ∨
        subIndicator.MatchString l = true := by
      intro l hl
      rcases hsubs l hl with h | h
      · exact Or.inl h
      · exact Or.inr ((subIndicator_iff l).2 h)
    have hstop3 : subIndicator.MatchString stop = false := by
      cases h : subIndicator.MatchString stop
      · rfl
      · exact absurd ((subIndicator_iff stop).1 h) hstop2
    obtain ⟨col, errs, h1, h2⟩ := columnLoop_run subs [first] ⟨m 1, m 2, m 3, [], []⟩ [] hsubs1
    have h1a := h1 ((first :: subs).length + 1) (by simp)
    have h2a := h2 ((first :: (subs ++ stop :: rest)).length + 1) stop rest (by simp; omega)
      hstop1 hstop3
    simp only [List.singleton_append, List.length_singleton] at h1a h2a
    have hlen : subs.length + 1 < (first :: (subs ++ stop :: rest)).length := by simp
    refine ⟨col, errs, ⟨first :: subs, 1 + subs.length + 1⟩, ?_, ?_, ?_, ?_⟩
    · rw [ParseColumn_at _ 0 (by simp)]
      simp only [List.getD_cons_zero, hm, Nat.zero_add, h2a]
      congr 4; omega
    · rw [ParseColumn_at _ 0 (by simp)]
      simp only [List.getD_cons_zero, hm, Nat.zero_add, h1a]
    · rw [Scan_lt _ _ hlen]
    · rw [Scan_lt _ _ hlen, Text_succ _ _ hlen]
      have := getD_zipper (first :: subs) rest stop
      simpa using this

theorem ParseColumn_stops_at_non_sub_line_witness :
    ∃ col errs s,
      ParseColumn ⟨"uid int".toList :: (["-unique".toList, "-alias: id".toList] ++
          "name string".toList :: []), 0⟩ =
        some (some col, errs, ⟨"uid int".toList :: (["-unique".toList, "-alias: id".toList] ++
          "name string".toList :: []), 2 + 1⟩) ∧
      ParseColumn ⟨"uid int".toList :: ["-unique".toList, "-alias: id".toList], 0⟩ =
        some (some col, errs, s) ∧
      (Scanner.Scan ⟨"uid int".toList :: (["-unique".toList, "-alias: id".toList] ++
          "name string".toList :: []), 2 + 1⟩).1 = true ∧
      (Scanner.Scan ⟨"uid int".toList :: (["-unique".toList, "-alias: id".toList] ++
          "name string".toList :: []), 2 + 1⟩).2.Text = "name string".toList :=
  ParseColumn_stops_at_non_sub_line "uid int".toList ["-unique".toList, "-alias: id".toList]
    "name string".toList [] (by decide)
    (by
      intro l hl
      simp only [List.mem_cons, List.mem_singleton, List.not_mem_nil, or_false] at hl
      rcases hl with rfl | rfl
      · exact Or.inr ⟨[], "unique".toList, by simp, rfl⟩
      · exact Or.inl (by decide))
    (by decide)
    (by
      rintro ⟨ws, r, hws, e⟩
      cases ws with
      | nil => simp at e
      | cons w ws =>
        have hw := hws w (by simp)
        simp at e
        rw [← e.1] at hw
        exact absurd hw (by decide))

/-- C9 (counterexample). The line `alias text` does not begin with optional
whitespace and `-`, yet after the column line `uid int` it does not end the
sub-line loop: it is consumed with an ill-formed-alias diagnostic, and the next
`Scan` does not yield it. -/
theorem ParseColumn_alias_line_consumed :
    subIndicator.MatchString "alias text".toList = false ∧
    ParseColumn ⟨["uid int".toList, "alias text".toList], 0⟩ =
      some (some ⟨"uid".toList, "int".toList, [], [], []⟩, [⟨"Ill-formed alias", 2⟩],
        ⟨["uid int".toList, "alias text".toList], 3⟩) ∧
    (Scanner.Scan ⟨["uid int".toList, "alias text".toList], 3⟩).1 = false := by
  decide

/-- C10 (as amended). When the column loop of `ParseTable` is in front of a
non-empty line that cannot be parsed as a column's first line, the line is
consumed, an `Invalid column definition` diagnostic with its line number is added,
and the loop goes on with the following line: the table does not end there. -/
theorem tableLoop_non_column_line (fuel : Nat) (buf : List Line) (p : Nat) (table : Table)
    (errors : List ParseError) (hp : p < buf.length) (hne : buf.getD p [] ≠ [])
    (hbad : (columnFormat.FindStringSubmatch (buf.getD p [])).isSome = false) :
    tableLoop (fuel + 1) ⟨buf, p⟩ table errors =
      tableLoop fuel ⟨buf, p + 1⟩ table (errors ++ [⟨"Invalid column definition", p + 1⟩]) := by
  have hc : ParseColumn ⟨buf, p⟩ = some (some ⟨[], [], [], [], []⟩,
      [⟨"Invalid column definition", p + 1⟩], ⟨buf, p + 1⟩) := by
    rw [ParseColumn_at buf p hp]
    cases h : columnFormat.FindStringSubmatch (buf.getD p []) with
    | none => rfl
    | some m => rw [h] at hbad; cases hbad
  rw [tableLoop_column fuel buf p hp hne table errors _ _ _ hc]
  simp

theorem tableLoop_non_column_line_witness :
    tableLoop (2 + 1) ⟨["[a]".toList, "[b]".toList, "x int".toList], 1⟩ ⟨"a".toList, []⟩ [] =
      tableLoop 2 ⟨["[a]".toList, "[b]".toList, "x int".toList], 1 + 1⟩ ⟨"a".toList, []⟩
        ([] ++ [⟨"Invalid column definition", 1 + 1⟩]) :=
  tableLoop_non_column_line 2 ["[a]".toList, "[b]".toList, "x int".toList] 1 ⟨"a".toList, []⟩ []
    (by decide) (by decide) (by decide)

/-- C10 (counterexample). On the input `[a]`, `[b]` the second header is not left
for the caller: `ParseTable` consumes it as a failed column, returns at the end of
the input, and `Parse` returns no table at all. -/
theorem ParseTable_second_header_consumed :
    ParseTable ⟨["[a]".toList, "[b]".toList], 0⟩ =
      some (some ⟨"a".toList, []⟩, [⟨"Invalid column definition", 2⟩],
        ⟨["[a]".toList, "[b]".toList], 3⟩) ∧
    (Scanner.Scan ⟨["[a]".toList, "[b]".toList], 3⟩).1 = false ∧
    Parse ["[a]".toList, "[b]".toList] =
      some (⟨[], []⟩, [⟨"Invalid column definition", 2⟩]) := by
  decide

theorem Parse_total_witness :
    (∃ tree errs, ParseRun ["[a]".toList, "[b]".toList] =
        some (tree, errs, ⟨["[a]".toList, "[b]".toList], 2 + 1⟩) ∧
      Parse ["[a]".toList, "[b]".toList] = some (tree, errs)) ∧
    (∀ p, p < 2 → ∃ t errs q, ParseTable ⟨["[a]".toList, "[b]".toList], p⟩ =
        some (t, errs, ⟨["[a]".toList, "[b]".toList], q⟩) ∧ p < q ∧ q ≤ 2 + 1) ∧
    (∀ p, p < 2 → ∃ c errs q, ParseColumn ⟨["[a]".toList, "[b]".toList], p⟩ =
        some (c, errs, ⟨["[a]".toList, "[b]".toList], q⟩) ∧ p < q ∧ q ≤ 2 + 1) :=
  Parse_total ["[a]".toList, "[b]".toList]

/-! ## The column pattern -/

theorem isSpace_of_isColName {c : Char} (h : isColName c = true) : isSpace c = false := by
  simp only [isColName, Bool.not_eq_true', Bool.or_eq_false_iff] at h
  exact h.2

theorem isColName_of_isSpace {c : Char} (h : isSpace c = true) : isColName c = false := by
  simp [isColName, h]

theorem isNonSpace_of_isSpace {c : Char} (h : isSpace c = true) : isNonSpace c = false := by
  simp [isNonSpace, h]

theorem isSpace_of_isNonSpace {c : Char} (h : isNonSpace c = true) : isSpace c = false := by
  simpa [isNonSpace] using h

theorem starLoop_lazy_here {α : Type} (p : Char → Bool) (k : Line → Nat → Option α)
    (i : Line) (pos : Nat) (r : α) (h : k i pos = some r) :
    starLoop p false k i pos = some r := by
  cases i with
  | nil => simpa [starLoop] using h
  | cons c cs =>
    rw [starLoop_cons]
    by_cases hc : p c = true
    · simp [hc, h]
    · simp [hc, h]

/-- A lazy loop runs over a stretch on which the continuation fails everywhere. -/
theorem starLoop_lazy_run {α : Type} (p : Char → Bool) (k : Line → Nat → Option α)
    (ws rest : Line) : ∀ (pos : Nat), (∀ c ∈ ws, p c = true) →
    (∀ a b : Line, ws = a ++ b → b ≠ [] → k (b ++ rest) (pos + a.length) = none) →
    starLoop p false k (ws ++ rest) pos = starLoop p false k rest (pos + ws.length) := by
  induction ws with
  | nil => intro pos _ _; simp
  | cons w ws ih =>
    intro pos hws hk
    have hw : p w = true := hws w (by simp)
    have h0 := hk [] (w :: ws) rfl (by simp)
    simp only [List.length_nil, Nat.add_zero, List.cons_append] at h0
    rw [List.cons_append, starLoop_cons, if_pos hw, h0]
    simp only [Bool.false_eq_true, if_false]
    rw [ih (pos + 1) (fun c hc => hws c (by simp [hc]))]
    · congr 1; simp; omega
    · intro a b e hb
      have := hk (w :: a) b (by simp [e]) hb
      rw [← this]; congr 1; simp; omega

/-- A greedy loop that succeeds after a run of class characters succeeds with the
same result before it. -/
theorem starLoop_greedy_run {α : Type} (p : Char → Bool) (k : Line → Nat → Option α)
    (ws rest : Line) (r : α) : ∀ (pos : Nat), (∀ c ∈ ws, p c = true) →
    starLoop p true k rest (pos + ws.length) = some r →
    starLoop p true k (ws ++ rest) pos = some r := by
  induction ws with
  | nil => intro pos _ h; simpa using h
  | cons w ws ih =>
    intro pos hws h
    have hw : p w = true := hws w (by simp)
    rw [List.cons_append, starLoop_cons, if_pos hw]
    rw [ih (pos + 1) (fun c hc => hws c (by simp [hc]))
      (by rw [← h]; congr 1; simp; omega)]
    simp

theorem starLoop_space_eol_none {α : Type} (g : Bool) (K : Line → Nat → Option α) (i : Line)
    (pos : Nat) (h : ∃ c ∈ i, isSpace c = false) :
    starLoop isSpace g (fun i q => if i = [] then K i q else none) i pos = none := by
  cases hr : starLoop isSpace g (fun i q => if i = [] then K i q else none) i pos with
  | none => rfl
  | some r =>
    obtain ⟨ws, i1, hws, e, hk⟩ := starLoop_sound _ _ _ _ _ _ hr
    by_cases h1 : i1 = []
    · subst h1
      obtain ⟨c, hc, hs⟩ := h
      rw [e, List.append_nil] at hc
      rw [hws c hc] at hs
      cases hs
    · simp [h1] at hk

/-- The requested type: a greedy run of identifier characters, then a lazy run of
any characters, up to the point where only whitespace is left. -/
theorem requested_run {α : Type} (k : Line → Nat → Option α) (tw : Line) (r : α)
    (htw : ∀ c ∈ tw, isSpace c = true) (rs : Line) : ∀ (pos : Nat),
    (∀ c ∈ rs, isDot c = true) →
    (∀ a b : Line, rs = a ++ b → b ≠ [] → k (b ++ tw) (pos + a.length) = none) →
    k tw (pos + rs.length) = some r →
    starLoop isIdent true (fun i q => starLoop isDot false k i q) (rs ++ tw) pos = some r := by
  induction rs with
  | nil =>
    intro pos _ _ hk
    simp only [List.nil_append, List.length_nil, Nat.add_zero] at hk ⊢
    cases tw with
    | nil => simpa [starLoop] using hk
    | cons c cs =>
      rw [starLoop_stop _ _ _ _ _ _ (isIdent_of_isSpace (htw c (by simp)))]
      exact starLoop_lazy_here _ _ _ _ _ hk
  | cons x rs ih =>
    intro pos hrs hfail hk
    have hk1 : k tw (pos + 1 + rs.length) = some r := by
      rw [← hk]; congr 1; simp; omega
    have hrs1 : ∀ c ∈ rs, isDot c = true := fun c hc => hrs c (by simp [hc])
    rw [List.cons_append, starLoop_cons]
    by_cases hx : isIdent x = true
    · rw [if_pos hx, ih (pos + 1) hrs1 ?_ hk1]
      · simp
      · intro a b e hb
        have := hfail (x :: a) b (by simp [e]) hb
        rw [← this]; congr 1; simp; omega
    · rw [if_neg hx, ← List.cons_append, starLoop_lazy_run isDot k (x :: rs) tw pos hrs hfail]
      exact starLoop_lazy_here _ _ _ _ _ hk

theorem starLoop_all {α : Type} (p : Char → Bool) (g : Bool) (k : Line → Nat → Option α)
    (hk : ∀ c cs q, p c = true → k (c :: cs) q = none)
    (ws : Line) (pos : Nat) (hws : ∀ c ∈ ws, p c = true) :
    starLoop p g k ws pos = k [] (pos + ws.length) := by
  have := starLoop_skip p g k hk ws [] pos hws (by simp)
  simpa using this

theorem ne_of_isSpace {c d : Char} (h : isSpace c = true) (hd : isSpace d = false) : c ≠ d := by
  rintro rfl; rw [h] at hd; cases hd

/-- A line `name sep type` with trailing whitespace and no `using` part matches
`columnFormat`. -/
theorem columnFormat_plain (name sep typ tw : Line)
    (hn : name ≠ []) (hname : ∀ c ∈ name, isColName c = true)
    (hs : sep ≠ []) (hsep : ∀ c ∈ sep, isSpace c = true)
    (ht : typ ≠ []) (htyp : ∀ c ∈ typ, isNonSpace c = true)
    (htw : ∀ c ∈ tw, isSpace c = true) :
    ∃ m, columnFormat.FindStringSubmatch (name ++ (sep ++ (typ ++ tw))) = some m ∧
      m 1 = name ∧ m 2 = typ ∧ m 3 = [] := by
  obtain ⟨n, ns, rfl⟩ := List.exists_cons_of_ne_nil hn
  obtain ⟨s, ss, rfl⟩ := List.exists_cons_of_ne_nil hs
  obtain ⟨t, ts, rfl⟩ := List.exists_cons_of_ne_nil ht
  have hn0 := hname n (by simp)
  have hs0 := hsep s (by simp)
  have ht0 := htyp t (by simp)
  have hns : ∀ c ∈ ns, isColName c = true := fun c hc => hname c (by simp [hc])
  have hss : ∀ c ∈ ss, isSpace c = true := fun c hc => hsep c (by simp [hc])
  have hts : ∀ c ∈ ts, isNonSpace c = true := fun c hc => htyp c (by simp [hc])
  simp only [List.cons_append]
  simp only [columnFormat, Regex.seq, Regex.run, lit, Regex.FindStringSubmatch, Regex.search]
  simp only [hn0, if_true]
  rw [starLoop_skip isColName false _ ?_ ns _ _ hns ?_]
  rotate_left
  · intro c cs q hc
    simp [isSpace_of_isColName hc]
  · simpa using isColName_of_isSpace hs0
  simp only [hs0, if_true]
  rw [starLoop_skip isSpace true _ ?_ ss _ _ hss ?_]
  rotate_left
  · intro c cs q hc
    simp [isNonSpace_of_isSpace hc]
  · simpa using isSpace_of_isNonSpace ht0
  simp only [ht0, if_true]
  rw [starLoop_skip isNonSpace false _ ?_ ts _ _ hts ?_]
  rotate_left
  · intro c cs q hc
    have h1 := isSpace_of_isNonSpace hc
    simp [h1, starLoop_stop]
  · intro c hc
    cases tw with
    | nil => simp at hc
    | cons x xs =>
      simp at hc; subst hc
      exact isNonSpace_of_isSpace (htw _ (by simp))
  have hgroup : ∀ (G : Line → Nat → Option Caps) (q : Nat),
      (∀ c cs q, isSpace c = true → G (c :: cs) q = none) → (∀ q, G [] q = none) →
      (match tw with
        | c :: cs => if isSpace c = true then starLoop isSpace true G cs (q + 1) else none
        | [] => none) = none := by
    intro G q hG hG0
    cases tw with
    | nil => rfl
    | cons c cs =>
      simp only [htw c (by simp), if_true]
      rw [starLoop_all isSpace true G hG cs _ (fun x hx => htw x (by simp [hx]))]
      exact hG0 _
  rw [hgroup]
  rotate_left
  · intro c cs q hc
    have h2 : c ≠ 'u' := ne_of_isSpace hc (by decide)
    simp [h2]
  · intro q; rfl
  simp only []
  rw [starLoop_space_eol true _ tw _ htw]
  simp only [accept, setCap]
  refine ⟨_, rfl, ?_, ?_, ?_⟩
  · show List.take _ _ = _
    apply take_run
    omega
  · show List.take _ _ = _
    apply take_run
    omega
  · rfl

theorem exists_nonspace_of_suffix (r0 : Char) (rs tw a b : Line)
    (hlast : ∀ c, (r0 :: rs).getLast? = some c → isSpace c = false)
    (e : rs = a ++ b) (hb : b ≠ []) : ∃ c ∈ b ++ tw, isSpace c = false := by
  rcases List.eq_nil_or_concat b with h | ⟨b1, c, h⟩
  · exact absurd h hb
  · subst h
    refine ⟨c, by simp, hlast c ?_⟩
    subst e
    have : r0 :: (a ++ b1.concat c) = (r0 :: (a ++ b1)) ++ [c] := by simp
    rw [this, List.getLast?_append]
    simp

theorem requested_run_eq {α : Type} (k : Line → Nat → Option α) (tw : Line)
    (htw : ∀ c ∈ tw, isSpace c = true) (rs : Line) (pos : Nat)
    (hrs : ∀ c ∈ rs, isDot c = true)
    (hf : ∀ a b : Line, rs = a ++ b → b ≠ [] → k (b ++ tw) (pos + a.length) = none)
    (hk : (k tw (pos + rs.length)).isSome = true) :
    starLoop isIdent true (fun i q => starLoop isDot false k i q) (rs ++ tw) pos =
      k tw (pos + rs.length) := by
  cases h : k tw (pos + rs.length) with
  | none => rw [h] at hk; cases hk
  | some r => exact requested_run k tw r htw rs pos hrs hf h

/-- A line `name sep type sep using sep requested` with trailing whitespace matches
`columnFormat` when the requested type starts with an identifier character, has no
newline and does not end in whitespace. -/
theorem columnFormat_using (name sep typ sep2 sep3 rs tw : Line) (r0 : Char)
    (hn : name ≠ []) (hname : ∀ c ∈ name, isColName c = true)
    (hs : sep ≠ []) (hsep : ∀ c ∈ sep, isSpace c = true)
    (ht : typ ≠ []) (htyp : ∀ c ∈ typ, isNonSpace c = true)
    (hs2 : sep2 ≠ []) (hsep2 : ∀ c ∈ sep2, isSpace c = true)
    (hs3 : sep3 ≠ []) (hsep3 : ∀ c ∈ sep3, isSpace c = true)
    (hr0 : isIdent r0 = true) (hrs : ∀ c ∈ rs, isDot c = true)
    (hlast : ∀ c, (r0 :: rs).getLast? = some c → isSpace c = false)
    (htw : ∀ c ∈ tw, isSpace c = true) :
    ∃ m, columnFormat.FindStringSubmatch
        (name ++ (sep ++ (typ ++ (sep2 ++ ('u' :: 's' :: 'i' :: 'n' :: 'g' ::
          (sep3 ++ (r0 :: (rs ++ tw)))))))) = some m ∧
      m 1 = name ∧ m 2 = typ ∧ m 3 = r0 :: rs := by
  obtain ⟨n, ns, rfl⟩ := List.exists_cons_of_ne_nil hn
  obtain ⟨s, ss, rfl⟩ := List.exists_cons_of_ne_nil hs
  obtain ⟨t, ts, rfl⟩ := List.exists_cons_of_ne_nil ht
  obtain ⟨s2, ss2, rfl⟩ := List.exists_cons_of_ne_nil hs2
  obtain ⟨s3, ss3, rfl⟩ := List.exists_cons_of_ne_nil hs3
  have hn0 := hname n (by simp)
  have hs0 := hsep s (by simp)
  have ht0 := htyp t (by simp)
  have hs20 := hsep2 s2 (by simp)
  have hs30 := hsep3 s3 (by simp)
  have hns : ∀ c ∈ ns, isColName c = true := fun c hc => hname c (by simp [hc])
  have hss : ∀ c ∈ ss, isSpace c = true := fun c hc => hsep c (by simp [hc])
  have hts : ∀ c ∈ ts, isNonSpace c = true := fun c hc => htyp c (by simp [hc])
  have hss2 : ∀ c ∈ ss2, isSpace c = true := fun c hc => hsep2 c (by simp [hc])
  have hss3 : ∀ c ∈ ss3, isSpace c = true := fun c hc => hsep3 c (by simp [hc])
  simp only [List.cons_append]
  simp only [columnFormat, Regex.seq, Regex.run, lit, Regex.FindStringSubmatch, Regex.search]
  simp only [hn0, if_true]
  rw [starLoop_skip isColName false _ ?_ ns _ _ hns ?_]
  rotate_left
  · intro c cs q hc
    simp [isSpace_of_isColName hc]
  · simpa using isColName_of_isSpace hs0
  simp only [hs0, if_true]
  rw [starLoop_skip isSpace true _ ?_ ss _ _ hss ?_]
  rotate_left
  · intro c cs q hc
    simp [isNonSpace_of_isSpace hc]
  · simpa using isSpace_of_isNonSpace ht0
  simp only [ht0, if_true]
  rw [starLoop_skip isNonSpace false _ ?_ ts _ _ hts ?_]
  rotate_left
  · intro c cs q hc
    have h1 := isSpace_of_isNonSpace hc
    simp [h1, starLoop_stop]
  · simpa using isNonSpace_of_isSpace hs20
  simp only [hs20, if_true]
  rw [starLoop_skip isSpace true _ ?_ ss2 _ _ hss2 ?_]
  rotate_left
  · intro c cs q hc
    have h2 : c ≠ 'u' := ne_of_isSpace hc (by decide)
    simp [h2]
  · simp; decide
  simp only [beq_self_eq_true, hs30, if_true]
  rw [starLoop_skip isSpace true _ ?_ ss3 _ _ hss3 ?_]
  rotate_left
  · intro c cs q hc
    simp [isIdent_of_isSpace hc]
  · simpa using isSpace_of_isIdent hr0
  simp only [hr0, if_true]
  rw [requested_run_eq _ tw htw rs _ hrs ?hf ?hk]
  case hk =>
    rw [starLoop_space_eol true _ tw _ htw]
    rfl
  case hf =>
    intro a b e hb
    exact starLoop_space_eol_none true _ _ _ (exists_nonspace_of_suffix r0 rs tw a b hlast e hb)
  rw [starLoop_space_eol true _ tw _ htw]
  simp only [accept, setCap]
  refine ⟨_, rfl, ?_, ?_, ?_⟩
  · show List.take _ _ = _
    apply take_run
    omega
  · show List.take _ _ = _
    apply take_run
    omega
  · show List.take _ _ = _
    apply take_run
    omega

theorem ParseColumn_single (line : Line) (m : Caps)
    (h : columnFormat.FindStringSubmatch line = some m) :
    ParseColumn ⟨[line], 0⟩ = some (some ⟨m 1, m 2, m 3, [], []⟩, [], ⟨[line], 2⟩) := by
  rw [ParseColumn_at _ 0 (by simp)]
  simp only [List.getD_cons_zero, h, List.length_singleton]
  rw [columnLoop_eof _ _ _ (by simp)]
  simp

theorem isColName_iff (c : Char) : isColName c = true ↔ isSpace c = false ∧ c ≠ '-' := by
  simp [isColName, and_comm]

/-- C7 (as amended). For a non-empty name without whitespace and without `-`, a
non-empty type without whitespace and a non-empty run of spaces and tabs between
them, `ParseColumn` on the single line returns the column with that name and type,
empty requested type and alias, no constraints, and no diagnostics. -/
theorem ParseColumn_first_line (name sep typ : Line)
    (hn : name ≠ []) (hname : ∀ c ∈ name, isSpace c = false ∧ c ≠ '-')
    (hs : sep ≠ []) (hsep : ∀ c ∈ sep, c = ' ' ∨ c = '\t')
    (ht : typ ≠ []) (htyp : ∀ c ∈ typ, isSpace c = false) :
    ParseColumn ⟨[name ++ (sep ++ typ)], 0⟩ =
      some (some ⟨name, typ, [], [], []⟩, [], ⟨[name ++ (sep ++ typ)], 2⟩) := by
  obtain ⟨m, hm, h1, h2, h3⟩ := columnFormat_plain name sep typ [] hn
    (fun c hc => (isColName_iff c).2 (hname c hc)) hs (blank_isSpace hsep) ht
    (fun c hc => by simp [isNonSpace, htyp c hc]) (by simp)
  rw [List.append_nil] at hm
  rw [ParseColumn_single _ m hm, h1, h2, h3]

theorem ParseColumn_first_line_witness :
    ParseColumn ⟨["uid".toList ++ (" \t".toList ++ "int".toList)], 0⟩ =
      some (some ⟨"uid".toList, "int".toList, [], [], []⟩, [],
        ⟨["uid".toList ++ (" \t".toList ++ "int".toList)], 2⟩) :=
  ParseColumn_first_line "uid".toList " \t".toList "int".toList (by decide) (by decide)
    (by decide) (by decide) (by decide) (by decide)

/-- C7 (counterexample). The name `a-b` is non-empty and holds no whitespace, yet
`ParseColumn` on the line `a-b int` returns a diagnostic and an empty column. -/
theorem ParseColumn_dash_in_name :
    (∀ c ∈ "a-b".toList, isSpace c = false) ∧
    ParseColumn ⟨["a-b".toList ++ (" ".toList ++ "int".toList)], 0⟩ =
      some (some ⟨[], [], [], [], []⟩, [⟨"Invalid column definition", 1⟩],
        ⟨["a-b".toList ++ (" ".toList ++ "int".toList)], 1⟩) := by
  decide

/-- C8 (as amended). For a name (non-empty, no whitespace, no `-`), a type
(non-empty, no whitespace) and a requested type that begins with a letter, digit,
`-` or `_`, does not end in whitespace and holds no newline, `ParseColumn` on the
single line `name type using requested`, with runs of spaces and tabs as separators
and optional trailing whitespace, returns no diagnostics and the column whose
requested type is exactly that text. -/
theorem ParseColumn_using (name sep typ sep2 sep3 req tw : Line)
    (hn : name ≠ []) (hname : ∀ c ∈ name, isSpace c = false ∧ c ≠ '-')
    (hs : sep ≠ []) (hsep : ∀ c ∈ sep, c = ' ' ∨ c = '\t')
    (ht : typ ≠ []) (htyp : ∀ c ∈ typ, isSpace c = false)
    (hs2 : sep2 ≠ []) (hsep2 : ∀ c ∈ sep2, c = ' ' ∨ c = '\t')
    (hs3 : sep3 ≠ []) (hsep3 : ∀ c ∈ sep3, c = ' ' ∨ c = '\t')
    (hfirst : ∃ c, req.head? = some c ∧ isIdent c = true)
    (hlast : ∀ c, req.getLast? = some c → isSpace c = false)
    (hnl : ∀ c ∈ req, c ≠ '\n')
    (htw : ∀ c ∈ tw, isSpace c = true) :
    ParseColumn ⟨[name ++ (sep ++ (typ ++ (sep2 ++ ("using".toList ++ (sep3 ++ (req ++ tw))))))],
        0⟩ =
      some (some ⟨name, typ, req, [], []⟩, [],
        ⟨[name ++ (sep ++ (typ ++ (sep2 ++ ("using".toList ++ (sep3 ++ (req ++ tw))))))], 2⟩) := by
  obtain ⟨r0, hr, hr0⟩ := hfirst
  cases req with
  | nil => cases hr
  | cons x rs =>
    simp only [List.head?_cons, Option.some.injEq] at hr
    subst hr
    obtain ⟨m, hm, h1, h2, h3⟩ := columnFormat_using name sep typ sep2 sep3 rs tw x hn
      (fun c hc => (isColName_iff c).2 (hname c hc)) hs (blank_isSpace hsep) ht
      (fun c hc => by simp [isNonSpace, htyp c hc]) hs2 (blank_isSpace hsep2) hs3
      (blank_isSpace hsep3) hr0
      (fun c hc => by simpa [isDot] using hnl c (by simp [hc])) hlast htw
    have e : "using".toList = ['u', 's', 'i', 'n', 'g'] := rfl
    rw [e]
    simp only [List.cons_append, List.nil_append] at hm ⊢
    rw [ParseColumn_single _ m hm, h1, h2, h3]

theorem ParseColumn_using_witness :
    ParseColumn ⟨["id".toList ++ (" ".toList ++ ("int".toList ++ (" ".toList ++
        ("using".toList ++ (" ".toList ++ ("double precision".toList ++ " ".toList))))))], 0⟩ =
      some (some ⟨"id".toList, "int".toList, "double precision".toList, [], []⟩, [],
        ⟨["id".toList ++ (" ".toList ++ ("int".toList ++ (" ".toList ++
          ("using".toList ++ (" ".toList ++ ("double precision".toList ++ " ".toList))))))], 2⟩) :=
  ParseColumn_using "id".toList " ".toList "int".toList " ".toList " ".toList
    "double precision".toList " ".toList (by decide) (by decide) (by decide) (by decide)
    (by decide) (by decide) (by decide) (by decide) (by decide) (by decide)
    ⟨'d', rfl, by decide⟩ (by decide) (by decide) (by decide)

/-- C8 (counterexample). The requested type `(x)` is non-empty and has no leading
or trailing whitespace, yet `ParseColumn` on `id int using (x)` returns a
diagnostic and no requested type. -/
theorem ParseColumn_using_paren :
    ParseColumn ⟨["id int using (x)".toList], 0⟩ =
      some (some ⟨[], [], [], [], []⟩, [⟨"Invalid column definition", 1⟩],
        ⟨["id int using (x)".toList], 1⟩) := by
  decide

/-! ## Well-formed tables -/

theorem subIndicator_colName (n : Char) (rest : Line) (hn : isColName n = true) :
    subIndicator.MatchString (n :: rest) = false := by
  cases h : subIndicator.MatchString (n :: rest)
  · rfl
  · obtain ⟨ws, r, hws, e⟩ := (subIndicator_iff _).1 h
    cases ws with
    | nil =>
      simp only [List.nil_append, List.cons.injEq] at e
      rw [e.1] at hn
      exact absurd hn (by decide)
    | cons w ws =>
      simp only [List.cons_append, List.cons.injEq] at e
      rw [e.1, isColName_of_isSpace (hws w (by simp))] at hn
      cases hn

theorem subIndicator_nil : subIndicator.MatchString [] = false := rfl

theorem Contains_nil_alias : Contains [] "alias".toList = false := rfl

/-- A plain column line, followed by the end of the input or by a line that is no
sub-line, is parsed into its column without diagnostics. -/
theorem ParseColumn_plain_at (buf : List Line) (p : Nat) (name typ : Line)
    (hp : p < buf.length) (hline : buf.getD p [] = name ++ ' ' :: typ)
    (hn : name ≠ []) (hname : ∀ c ∈ name, isColName c = true)
    (ht : typ ≠ []) (htyp : ∀ c ∈ typ, isNonSpace c = true)
    (hnext : p + 1 < buf.length → Contains (buf.getD (p + 1) []) "alias".toList = false ∧
      subIndicator.MatchString (buf.getD (p + 1) []) = false) :
    ParseColumn ⟨buf, p⟩ =
      some (some ⟨name, typ, [], [], []⟩, [],
        ⟨buf, if p + 1 = buf.length then p + 2 else p + 1⟩) := by
  obtain ⟨m, hm, h1, h2, h3⟩ := columnFormat_plain name [' '] typ [] hn hname (by simp)
    (by intro c hc; simp at hc; subst hc; decide) ht htyp (by simp)
  simp only [List.append_nil, List.singleton_append] at hm
  rw [ParseColumn_at buf p hp, hline, hm]
  simp only [h1, h2, h3]
  by_cases he : p + 1 = buf.length
  · rw [columnLoop_eof _ _ _ (by omega)]
  · have hlt : p + 1 < buf.length := by omega
    obtain ⟨ha, hs⟩ := hnext hlt
    rw [columnLoop_stop _ _ _ hlt ha hs]
    simp [he]


/-- The column loop of `ParseTable` over plain column lines that end with the input
or with an empty line. -/
theorem tableLoop_columns (cols : List (Line × Line)) :
    ∀ (pre tail : List Line) (fuel : Nat) (table : Table),
      cols.length + 1 ≤ fuel →
      (∀ c ∈ cols, c.1 ≠ [] ∧ (∀ x ∈ c.1, isColName x = true) ∧ c.2 ≠ [] ∧
        (∀ x ∈ c.2, isNonSpace x = true) ∧ Contains (c.1 ++ ' ' :: c.2) "alias".toList = false) →
      (tail = [] ∨ ∃ rest, tail = [] :: rest) →
      tableLoop fuel ⟨pre ++ (cols.map (fun c => c.1 ++ ' ' :: c.2) ++ tail), pre.length⟩ table [] =
        some (some { table with
            Columns := table.Columns ++ cols.map (fun c => ⟨c.1, c.2, [], [], []⟩) }, [],
          ⟨pre ++ (cols.map (fun c => c.1 ++ ' ' :: c.2) ++ tail),
            pre.length + cols.length + 1⟩) := by
  induction cols with
  | nil =>
    intro pre tail fuel table hf _ htail
    obtain ⟨f, rfl⟩ : ∃ f, fuel = f + 1 := ⟨fuel - 1, by simp at hf; omega⟩
    rcases htail with rfl | ⟨rest, rfl⟩
    · simp only [List.map_nil, List.append_nil, List.length_nil, Nat.add_zero]
      rw [tableLoop_eof _ _ _ (by simp)]
      simp
    · simp only [List.map_nil, List.nil_append, List.append_nil, List.length_nil, Nat.add_zero]
      rw [tableLoop_blank _ _ _ (length_zipper _ _ _) (getD_zipper _ _ _)]
  | cons c cs ih =>
    intro pre tail fuel table hf hcols htail
    obtain ⟨f, rfl⟩ : ∃ f, fuel = f + 1 := ⟨fuel - 1, by simp at hf; omega⟩
    obtain ⟨hc1, hc2, hc3, hc4, hc5⟩ := hcols c (by simp)
    have hcs : ∀ c ∈ cs, c.1 ≠ [] ∧ (∀ x ∈ c.1, isColName x = true) ∧ c.2 ≠ [] ∧
        (∀ x ∈ c.2, isNonSpace x = true) ∧
        Contains (c.1 ++ ' ' :: c.2) "alias".toList = false := fun x hx => hcols x (by simp [hx])
    simp only [List.map_cons, List.cons_append]
    generalize hb : pre ++ (c.1 ++ ' ' :: c.2) :: (cs.map (fun c => c.1 ++ ' ' :: c.2) ++ tail) = buf
    have hlen : pre.length < buf.length := by rw [← hb]; exact length_zipper _ _ _
    have hget : buf.getD pre.length [] = c.1 ++ ' ' :: c.2 := by rw [← hb]; exact getD_zipper _ _ _
    have hne : buf.getD pre.length [] ≠ [] := by
      rw [hget]
      obtain ⟨n, ns, e⟩ := List.exists_cons_of_ne_nil hc1
      rw [e]; simp
    have hbuflen : buf.length = pre.length + 1 + cs.length + tail.length := by
      rw [← hb]; simp; omega
    have hb1 : (pre ++ [c.1 ++ ' ' :: c.2]) ++ (cs.map (fun c => c.1 ++ ' ' :: c.2) ++ tail) = buf := by
      rw [← hb]; simp
    have hnext : pre.length + 1 < buf.length →
        Contains (buf.getD (pre.length + 1) []) "alias".toList = false ∧
          subIndicator.MatchString (buf.getD (pre.length + 1) []) = false := by
      intro _
      cases cs with
      | nil =>
        rcases htail with rfl | ⟨rest, rfl⟩
        · simp at hbuflen; omega
        · have : buf.getD (pre.length + 1) [] = [] := by
            rw [← hb1]
            have := getD_zipper (pre ++ [c.1 ++ ' ' :: c.2]) rest []
            simpa using this
          rw [this]
          exact ⟨Contains_nil_alias, subIndicator_nil⟩
      | cons c1 cs1 =>
        have : buf.getD (pre.length + 1) [] = c1.1 ++ ' ' :: c1.2 := by
          rw [← hb1]
          have := getD_zipper (pre ++ [c.1 ++ ' ' :: c.2])
            (cs1.map (fun c => c.1 ++ ' ' :: c.2) ++ tail) (c1.1 ++ ' ' :: c1.2)
          simpa using this
        rw [this]
        obtain ⟨g1, g2, _, _, g5⟩ := hcs c1 (by simp)
        obtain ⟨n, ns, e⟩ := List.exists_cons_of_ne_nil g1
        refine ⟨g5, ?_⟩
        rw [e]
        exact subIndicator_colName n _ (g2 n (by rw [e]; simp))
    have hpc := ParseColumn_plain_at buf pre.length c.1 c.2 hlen hget hc1 hc2 hc3 hc4 hnext
    rw [tableLoop_column f buf pre.length hlen hne table [] _ _ _ hpc]
    simp only [ne_eq, not_true_eq_false, if_false]
    by_cases he : pre.length + 1 = buf.length
    · have hcs0 : cs = [] := List.length_eq_zero.1 (by omega)
      subst hcs0
      obtain ⟨f1, rfl⟩ : ∃ f1, f = f1 + 1 := ⟨f - 1, by simp at hf; omega⟩
      rw [if_pos he, tableLoop_eof _ _ _ (by omega)]
      have : pre.length + 2 ≠ buf.length := by omega
      simp [this]
    · rw [if_neg he]
      have := ih (pre ++ [c.1 ++ ' ' :: c.2]) tail f
        { table with Columns := table.Columns ++ [⟨c.1, c.2, [], [], []⟩] }
        (by simp at hf; omega) hcs htail
      rw [hb1] at this
      simp only [List.length_append, List.length_singleton] at this
      rw [this]
      simp only [List.append_assoc, List.singleton_append, List.map_cons, List.length_cons]
      congr 4; omega

theorem intercalate_blank_map {β : Type} (f : β → List Line) (b b1 : β) (bs : List β) :
    List.intercalate [[]] ((b :: b1 :: bs).map f) =
      f b ++ [] :: List.intercalate [[]] ((b1 :: bs).map f) := by
  simp [List.intercalate, List.intersperse]

theorem intercalate_blank_one (x : List Line) : List.intercalate [[]] [x] = x := by
  simp [List.intercalate, List.intersperse]

/-- A table block in front of the cursor, ending with the input or with an empty
line: `ParseTable` returns its table, without diagnostics, and consumes the block
and the empty line. -/
theorem ParseTable_block (pre tail : List Line) (ident : Line) (cols : List (Line × Line))
    (hi : ident ≠ []) (hident : ∀ c ∈ ident, isIdent c = true)
    (hcols : ∀ c ∈ cols, c.1 ≠ [] ∧ (∀ x ∈ c.1, isColName x = true) ∧ c.2 ≠ [] ∧
      (∀ x ∈ c.2, isNonSpace x = true) ∧ Contains (c.1 ++ ' ' :: c.2) "alias".toList = false)
    (htail : tail = [] ∨ ∃ rest, tail = [] :: rest) :
    ParseTable ⟨pre ++ ('[' :: (ident ++ [']'])) :: (cols.map (fun c => c.1 ++ ' ' :: c.2) ++ tail),
        pre.length⟩ =
      some (some ⟨ident, cols.map (fun c => ⟨c.1, c.2, [], [], []⟩)⟩, [],
        ⟨pre ++ ('[' :: (ident ++ [']'])) :: (cols.map (fun c => c.1 ++ ' ' :: c.2) ++ tail),
          pre.length + cols.length + 2⟩) := by
  obtain ⟨m, hm, h1⟩ := tableName_match ident [] hi hident (by simp)
  generalize hb : pre ++ ('[' :: (ident ++ [']'])) ::
    (cols.map (fun c => c.1 ++ ' ' :: c.2) ++ tail) = buf
  have hlen : pre.length < buf.length := by rw [← hb]; exact length_zipper _ _ _
  have hget : buf.getD pre.length [] = '[' :: (ident ++ [']']) := by
    rw [← hb]; exact getD_zipper _ _ _
  have hbuflen : cols.length + 1 ≤ buf.length + 1 := by rw [← hb]; simp; omega
  have hb1 : (pre ++ ['[' :: (ident ++ [']'])]) ++
      (cols.map (fun c => c.1 ++ ' ' :: c.2) ++ tail) = buf := by rw [← hb]; simp
  have := tableLoop_columns cols (pre ++ ['[' :: (ident ++ [']'])]) tail (buf.length + 1)
    ⟨m 1, []⟩ hbuflen hcols htail
  rw [hb1] at this
  simp only [List.length_append, List.length_singleton] at this
  rw [h1] at this
  rw [ParseTable_at _ _ hlen, hget, hm]
  simp only [h1, this, List.nil_append]
  congr 4
  omega

/-- The main loop over table blocks separated by one empty line. -/
theorem parseLoop_blocks (blocks : List (Line × List (Line × Line))) :
    ∀ (pre : List Line) (fuel : Nat) (tree : ParseTree),
      (List.intercalate [[]] (blocks.map (fun b => ('[' :: (b.1 ++ [']'])) ::
        b.2.map (fun c => c.1 ++ ' ' :: c.2)))).length + 1 ≤ fuel →
      (∀ b ∈ blocks, b.1 ≠ [] ∧ (∀ x ∈ b.1, isIdent x = true) ∧
        ∀ c ∈ b.2, c.1 ≠ [] ∧ (∀ x ∈ c.1, isColName x = true) ∧ c.2 ≠ [] ∧
          (∀ x ∈ c.2, isNonSpace x = true) ∧
          Contains (c.1 ++ ' ' :: c.2) "alias".toList = false) →
      parseLoop fuel ⟨pre ++ List.intercalate [[]] (blocks.map (fun b =>
          ('[' :: (b.1 ++ [']'])) :: b.2.map (fun c => c.1 ++ ' ' :: c.2))), pre.length⟩ tree [] =
        some (⟨tree.Directives, tree.Tables ++ blocks.map (fun b =>
            ⟨b.1, b.2.map (fun c => ⟨c.1, c.2, [], [], []⟩)⟩)⟩, [],
          ⟨pre ++ List.intercalate [[]] (blocks.map (fun b =>
            ('[' :: (b.1 ++ [']'])) :: b.2.map (fun c => c.1 ++ ' ' :: c.2))),
            (pre ++ List.intercalate [[]] (blocks.map (fun b =>
              ('[' :: (b.1 ++ [']'])) :: b.2.map (fun c => c.1 ++ ' ' :: c.2)))).length + 1⟩) := by
  induction blocks with
  | nil =>
    intro pre fuel tree hf _
    obtain ⟨f, rfl⟩ : ∃ f, fuel = f + 1 := ⟨fuel - 1, by omega⟩
    have e : List.intercalate [[]] ([] : List (List Line)) = [] := rfl
    simp only [List.map_nil, e, List.append_nil]
    rw [parseLoop_eof _ _ _ (by simp)]
    simp
  | cons b bs ih =>
    intro pre fuel tree hf hblocks
    obtain ⟨f, rfl⟩ : ∃ f, fuel = f + 1 := ⟨fuel - 1, by omega⟩
    obtain ⟨hb1, hb2, hb3⟩ := hblocks b (by simp)
    have hbs : ∀ b ∈ bs, b.1 ≠ [] ∧ (∀ x ∈ b.1, isIdent x = true) ∧
        ∀ c ∈ b.2, c.1 ≠ [] ∧ (∀ x ∈ c.1, isColName x = true) ∧ c.2 ≠ [] ∧
          (∀ x ∈ c.2, isNonSpace x = true) ∧
          Contains (c.1 ++ ' ' :: c.2) "alias".toList = false :=
      fun x hx => hblocks x (by simp [hx])
    cases bs with
    | nil =>
      simp only [List.map_cons, List.map_nil, intercalate_blank_one] at hf ⊢
      have ht := ParseTable_block pre [] b.1 b.2 hb1 hb2 hb3 (Or.inl rfl)
      simp only [List.append_nil] at ht
      rw [parseLoop_table f _ _ (length_zipper _ _ _) (by rw [getD_zipper]; rfl) tree [] _ _ _ ht]
      obtain ⟨f1, rfl⟩ : ∃ f1, f = f1 + 1 := ⟨f - 1, by simp at hf; omega⟩
      simp only [ne_eq, not_true_eq_false, if_false]
      rw [parseLoop_eof _ _ _ (by simp; omega)]
      have e1 : (pre ++ ('[' :: (b.1 ++ [']'])) :: b.2.map (fun c => c.1 ++ ' ' :: c.2)).length =
          pre.length + b.2.length + 1 := by simp; omega
      rw [e1, if_neg (by omega)]
    | cons b1 bs1 =>
      rw [intercalate_blank_map] at hf ⊢
      generalize hr : List.intercalate [[]] (List.map (fun b => ('[' :: (b.1 ++ [']'])) ::
        b.2.map (fun c => c.1 ++ ' ' :: c.2)) (b1 :: bs1)) = rest at hf ⊢
      have ht := ParseTable_block pre ([] :: rest) b.1 b.2 hb1 hb2 hb3 (Or.inr ⟨rest, rfl⟩)
      simp only [List.cons_append] at ht ⊢
      rw [parseLoop_table f _ _ (length_zipper _ _ _) (by rw [getD_zipper]; rfl) tree [] _ _ _ ht]
      simp only [ne_eq, not_true_eq_false, if_false]
      have := ih (pre ++ ('[' :: (b.1 ++ [']'])) :: (b.2.map (fun c => c.1 ++ ' ' :: c.2) ++ [[]]))
        f { tree with Tables := tree.Tables ++ [⟨b.1, b.2.map (fun c => ⟨c.1, c.2, [], [], []⟩)⟩] }
        (by rw [hr]; simp at hf; omega) hbs
      rw [hr] at this
      simp only [List.append_assoc, List.cons_append, List.singleton_append, List.nil_append,
        List.length_append, List.length_cons, List.length_map, List.length_nil] at this
      simp only [List.length_append, List.length_cons, List.length_map]
      have e : pre.length + b.2.length + 2 = pre.length + (b.2.length + (0 + 1) + 1) := by omega
      rw [e, this]
      simp

/-- C1. For table blocks, each a header `[ident]` followed by column lines
`name type` (name and type non-empty and without whitespace, name without `-`, the
line without the substring `alias`), with one empty line between consecutive
blocks, `Parse` returns no diagnostics and one table per block, in input order, each
with its name and exactly its columns in input order. -/
theorem Parse_well_formed_tables (blocks : List (Line × List (Line × Line)))
    (h : ∀ b ∈ blocks, b.1 ≠ [] ∧ (∀ x ∈ b.1, isIdent x = true) ∧
      ∀ c ∈ b.2, c.1 ≠ [] ∧ (∀ x ∈ c.1, isSpace x = false ∧ x ≠ '-') ∧ c.2 ≠ [] ∧
        (∀ x ∈ c.2, isSpace x = false) ∧
        Contains (c.1 ++ ' ' :: c.2) "alias".toList = false) :
    Parse (List.intercalate [[]] (blocks.map (fun b =>
        ('[' :: (b.1 ++ [']'])) :: b.2.map (fun c => c.1 ++ ' ' :: c.2)))) =
      some (⟨[], blocks.map (fun b => ⟨b.1, b.2.map (fun c => ⟨c.1, c.2, [], [], []⟩)⟩)⟩, []) := by
  have h1 : ∀ b ∈ blocks, b.1 ≠ [] ∧ (∀ x ∈ b.1, isIdent x = true) ∧
      ∀ c ∈ b.2, c.1 ≠ [] ∧ (∀ x ∈ c.1, isColName x = true) ∧ c.2 ≠ [] ∧
        (∀ x ∈ c.2, isNonSpace x = true) ∧
        Contains (c.1 ++ ' ' :: c.2) "alias".toList = false := by
    intro b hb
    obtain ⟨a1, a2, a3⟩ := h b hb
    refine ⟨a1, a2, fun c hc => ?_⟩
    obtain ⟨c1, c2, c3, c4, c5⟩ := a3 c hc
    exact ⟨c1, fun x hx => (isColName_iff x).2 (c2 x hx), c3,
      fun x hx => by simp [isNonSpace, c4 x hx], c5⟩
  have := parseLoop_blocks blocks [] _ NewParseTree (Nat.le_refl _) h1
  simp only [List.nil_append, List.length_nil] at this
  simp only [Parse, ParseRun, NewScanner, Scanner.EOF]
  rw [if_neg (by simp), this]
  rfl

theorem Parse_well_formed_tables_witness :
    Parse (List.intercalate [[]] ([("a".toList, [("f".toList, "int".toList)]),
        ("b".toList, [])].map (fun b =>
        ('[' :: (b.1 ++ [']'])) :: b.2.map (fun c => c.1 ++ ' ' :: c.2)))) =
      some (⟨[], [("a".toList, [("f".toList, "int".toList)]), ("b".toList, [])].map
        (fun b => ⟨b.1, b.2.map (fun c => ⟨c.1, c.2, [], [], []⟩)⟩)⟩, []) :=
  Parse_well_formed_tables [("a".toList, [("f".toList, "int".toList)]), ("b".toList, [])]
    (by decide)

/-! ## Table headers -/

/-- A line that `tableName` matches is `[`, an identifier, `]` and whitespace. -/
theorem tableName_sound (l : Line) (m : Caps) (h : tableName.FindStringSubmatch l = some m) :
    ∃ ws : Line, m 1 ≠ [] ∧ (∀ c ∈ m 1, isIdent c = true) ∧ (∀ c ∈ ws, isSpace c = true) ∧
      l = '[' :: (m 1 ++ ']' :: ws) := by
  obtain ⟨pre, i0, i1, p1, e, hm⟩ := tableName.search_sound l 0 m h
  simp only [tableName, Regex.seq, Regex.Matches, lit] at hm
  obtain ⟨_, _, _, ⟨hp, rfl, rfl, rfl⟩, _, _, _, ⟨ch, hch, rfl, rfl, rfl⟩, _, _, _,
    ⟨_, ⟨nm, hnm0, hnm, rfl, rfl, rfl⟩, rfl⟩, _, _, _, ⟨ch2, hch2, rfl, rfl, rfl⟩, _, _, _,
    ⟨ws, hws, rfl, rfl, rfl⟩, rfl, rfl, rfl, rfl⟩ := hm
  have hpre : pre = [] := List.length_eq_zero.1 (by omega)
  subst hpre
  rw [beq_iff_eq] at hch hch2
  subst hch hch2
  refine ⟨ws, ?_⟩
  simp [setCap, e]
  exact ⟨hnm0, hnm, hws⟩

/-- C11. When the line in front of the cursor is not `[`, a non-empty identifier
over letters, digits, `-` and `_`, `]` and optional whitespace, `ParseTable` returns
no table and exactly one diagnostic with that line's number, and moves the cursor by
exactly one line; and `Parse` on the single line `[has spaces]` returns no table and
exactly one diagnostic. -/
theorem ParseTable_invalid_header (buf : List Line) (p : Nat) (hp : p < buf.length)
    (hbad : ¬ ∃ ident ws : Line, ident ≠ [] ∧ (∀ c ∈ ident, isIdent c = true) ∧
      (∀ c ∈ ws, isSpace c = true) ∧ buf.getD p [] = '[' :: (ident ++ ']' :: ws)) :
    ParseTable ⟨buf, p⟩ = some (none, [⟨"Invalid table name", p + 1⟩], ⟨buf, p + 1⟩) ∧
    Parse ["[has spaces]".toList] = some (⟨[], []⟩, [⟨"Invalid table name", 1⟩]) := by
  constructor
  · rw [ParseTable_at buf p hp]
    cases h : tableName.FindStringSubmatch (buf.getD p []) with
    | none => rfl
    | some m =>
      obtain ⟨ws, h1, h2, h3, h4⟩ := tableName_sound _ m h
      exact absurd ⟨m 1, ws, h1, h2, h3, h4⟩ hbad
  · decide

theorem ParseTable_invalid_header_witness :
    ParseTable ⟨["#x=1".toList, "[has spaces]".toList, "a b".toList], 1⟩ =
      some (none, [⟨"Invalid table name", 1 + 1⟩],
        ⟨["#x=1".toList, "[has spaces]".toList, "a b".toList], 1 + 1⟩) ∧
    Parse ["[has spaces]".toList] = some (⟨[], []⟩, [⟨"Invalid table name", 1⟩]) :=
  ParseTable_invalid_header ["#x=1".toList, "[has spaces]".toList, "a b".toList] 1 (by decide)
    (by
      rintro ⟨ident, ws, _, hident, _, e⟩
      have e1 : "[has spaces]".toList = '[' :: (ident ++ ']' :: ws) := e
      have e2 : "[has spaces]".toList = '[' :: ("has".toList ++ ' ' :: "spaces]".toList) := rfl
      rw [e2] at e1
      simp only [List.cons.injEq, true_and] at e1
      rcases List.append_eq_append_iff.1 e1 with ⟨a, h1, h2⟩ | ⟨a, h1, h2⟩
      · cases a with
        | nil => simp at h2
        | cons x xs =>
          simp at h2
          have := hident ' ' (by rw [h1, ← h2.1]; simp)
          exact absurd this (by decide)
      · have hh : ∀ c ∈ "has".toList, c ≠ ']' := by decide
        cases a with
        | nil => simp at h2
        | cons x xs =>
          simp at h2
          exact hh ']' (by rw [h1, ← h2.1]; simp) rfl)

/-! ## The constraint pattern -/

/-- A line that `constraintFormat` matches holds a `-`, a non-empty name and either
only whitespace or a `:` and a non-empty value after it. -/
theorem constraint_sound (l : Line) (m : Caps)
    (h : constraintFormat.FindStringSubmatch l = some m) :
    ∃ pre w1 w2 tail : Line, (∀ c ∈ w1, isSpace c = true) ∧ (∀ c ∈ w2, isSpace c = true) ∧
      m 1 ≠ [] ∧ (∀ c ∈ m 1, isDot c = true) ∧
      l = pre ++ (w1 ++ '-' :: (w2 ++ (m 1 ++ tail))) ∧
      ((m 2 = [] ∧ ∀ c ∈ tail, isSpace c = true) ∨
        ∃ w3 w4 w5 : Line, (∀ c ∈ w3, isSpace c = true) ∧ (∀ c ∈ w4, isSpace c = true) ∧
          (∀ c ∈ w5, isSpace c = true) ∧ m 2 ≠ [] ∧ (∀ c ∈ m 2, isDot c = true) ∧
          tail = w3 ++ ':' :: (w4 ++ (m 2 ++ w5))) := by
  obtain ⟨pre, i0, i1, p1, e, hm⟩ := constraintFormat.search_sound l 0 m h
  simp only [constraintFormat, Regex.seq, Regex.Matches, lit] at hm
  obtain ⟨_, _, _, ⟨w1, hw1, rfl, rfl, rfl⟩, _, _, _, ⟨ch, hch, rfl, rfl, rfl⟩, _, _, _,
    ⟨w2, hw2, rfl, rfl, rfl⟩, _, _, _, ⟨_, ⟨nm, hnm0, hnm, rfl, rfl, rfl⟩, rfl⟩,
    i3, p3, c3, hopt, _, _, _, ⟨w5, hw5, rfl, rfl, rfl⟩, rfl, rfl, rfl, rfl⟩ := hm
  rw [beq_iff_eq] at hch
  subst hch
  rcases hopt with hg | ⟨rfl, rfl, rfl⟩
  · obtain ⟨_, _, _, ⟨w3, hw3, rfl, rfl, rfl⟩, _, _, _, ⟨ch2, hch2, rfl, rfl, rfl⟩, _, _, _,
      ⟨w4, hw4, rfl, rfl, rfl⟩, _, ⟨vl, hvl0, hvl, rfl, rfl, rfl⟩, rfl⟩ := hg
    rw [beq_iff_eq] at hch2
    subst hch2
    refine ⟨pre, w1, w2, w3 ++ ':' :: (w4 ++ (vl ++ w5)), hw1, hw2, ?_⟩
    simp [setCap, e]
    exact ⟨hnm0, hnm, Or.inr ⟨w3, hw3, w4, hw4, w5, hw5, hvl0, hvl, rfl⟩⟩
  · refine ⟨pre, w1, w2, w5, hw1, hw2, ?_⟩
    simp [setCap, e, noCaps]
    exact ⟨hnm0, hnm, hw5⟩

theorem constraintFormat_nil : constraintFormat.FindStringSubmatch [] = none := rfl

/-- Whitespace and a single `-` with nothing after it do not match
`constraintFormat`. -/
theorem constraintFormat_bare_dash (ws : Line) (hws : ∀ c ∈ ws, isSpace c = true) :
    constraintFormat.FindStringSubmatch (ws ++ ['-']) = none := by
  cases h : constraintFormat.FindStringSubmatch (ws ++ ['-']) with
  | none => rfl
  | some m =>
    obtain ⟨pre, w1, w2, tail, _, _, hn, _, e, _⟩ := constraint_sound _ m h
    exfalso
    have e1 : ws ++ ['-'] = (pre ++ w1) ++ '-' :: (w2 ++ (m 1 ++ tail)) := by simpa using e
    have hB : w2 ++ (m 1 ++ tail) ≠ [] := by simp [hn]
    generalize w2 ++ (m 1 ++ tail) = B at e1 hB
    rcases List.append_eq_append_iff.1 e1 with ⟨a, _, h2⟩ | ⟨a, h1, h2⟩
    · have := congrArg List.length h2
      simp at this
      exact hB (List.length_eq_zero.1 (by omega))
    · cases a with
      | nil =>
        simp at h2
        exact hB h2
      | cons x xs =>
        simp at h2
        have := hws '-' (by rw [h1, ← h2.1]; simp)
        exact absurd this (by decide)

/-- C14. When the line in front of the cursor is empty, or is optional whitespace
followed by a single `-` with nothing after it, `ParseConstraint` returns no
constraint and exactly one diagnostic with that line's number. -/
theorem ParseConstraint_ill_formed (buf : List Line) (p : Nat) (ws : Line)
    (hp : p < buf.length) (hws : ∀ c ∈ ws, isSpace c = true)
    (hl : buf.getD p [] = [] ∨ buf.getD p [] = ws ++ ['-']) :
    ParseConstraint ⟨buf, p⟩ = (none, [⟨"Ill-formed constraint", p + 1⟩], ⟨buf, p + 1⟩) := by
  rw [ParseConstraint_at buf p hp]
  rcases hl with h | h
  · rw [h, constraintFormat_nil]
  · rw [h, constraintFormat_bare_dash ws hws]

theorem ParseConstraint_ill_formed_witness :
    ParseConstraint ⟨["uid int".toList, " \t".toList ++ ['-']], 1⟩ =
      (none, [⟨"Ill-formed constraint", 1 + 1⟩],
        ⟨["uid int".toList, " \t".toList ++ ['-']], 1 + 1⟩) :=
  ParseConstraint_ill_formed ["uid int".toList, " \t".toList ++ ['-']] 1 " \t".toList
    (by decide) (by decide) (Or.inr rfl)

/-! ## Peeling a matched pattern -/

theorem Matches_cat_bol {r : Regex} {i : Line} {p : Nat} {c : Caps} {i1 : Line} {p1 : Nat}
    {c1 : Caps} (h : (Regex.cat .bol r).Matches i p c i1 p1 c1) :
    p = 0 ∧ r.Matches i p c i1 p1 c1 := by
  obtain ⟨_, _, _, ⟨hp, rfl, rfl, rfl⟩, hr⟩ := h
  exact ⟨hp, hr⟩

theorem Matches_cat_lit {x : Char} {r : Regex} {i : Line} {p : Nat} {c : Caps} {i1 : Line}
    {p1 : Nat} {c1 : Caps} (h : (Regex.cat (lit x) r).Matches i p c i1 p1 c1) :
    ∃ rest, i = x :: rest ∧ r.Matches rest (p + 1) c i1 p1 c1 := by
  obtain ⟨_, _, _, ⟨ch, hch, rfl, rfl, rfl⟩, hr⟩ := h
  rw [beq_iff_eq] at hch
  subst hch
  exact ⟨_, rfl, hr⟩

theorem Matches_cat_star {P : Char → Bool} {g : Bool} {r : Regex} {i : Line} {p : Nat}
    {c : Caps} {i1 : Line} {p1 : Nat} {c1 : Caps}
    (h : (Regex.cat (.star P g) r).Matches i p c i1 p1 c1) :
    ∃ ws rest, (∀ x ∈ ws, P x = true) ∧ i = ws ++ rest ∧
      r.Matches rest (p + ws.length) c i1 p1 c1 := by
  obtain ⟨_, _, _, ⟨ws, hws, rfl, rfl, rfl⟩, hr⟩ := h
  exact ⟨ws, _, hws, rfl, hr⟩

theorem Matches_cat_plus {P : Char → Bool} {g : Bool} {r : Regex} {i : Line} {p : Nat}
    {c : Caps} {i1 : Line} {p1 : Nat} {c1 : Caps}
    (h : (Regex.cat (.plus P g) r).Matches i p c i1 p1 c1) :
    ∃ ws rest, ws ≠ [] ∧ (∀ x ∈ ws, P x = true) ∧ i = ws ++ rest ∧
      r.Matches rest (p + ws.length) c i1 p1 c1 := by
  obtain ⟨_, _, _, ⟨ws, h0, hws, rfl, rfl, rfl⟩, hr⟩ := h
  exact ⟨ws, _, h0, hws, rfl, hr⟩

theorem Matches_cat_cap_plus {n : Nat} {P : Char → Bool} {g : Bool} {r : Regex} {i : Line}
    {p : Nat} {c : Caps} {i1 : Line} {p1 : Nat} {c1 : Caps}
    (h : (Regex.cat (.cap n (.plus P g)) r).Matches i p c i1 p1 c1) :
    ∃ ws rest, ws ≠ [] ∧ (∀ x ∈ ws, P x = true) ∧ i = ws ++ rest ∧
      r.Matches rest (p + ws.length) (setCap c n ws) i1 p1 c1 := by
  obtain ⟨rest, _, _, ⟨_, ⟨ws, h0, hws, rfl, rfl, rfl⟩, rfl⟩, hr⟩ := h
  refine ⟨ws, rest, h0, hws, rfl, ?_⟩
  have e : List.take (p + ws.length - p) (ws ++ rest) = ws := by
    rw [Nat.add_sub_cancel_left]; simp
  rw [e] at hr
  exact hr

theorem Matches_star_eol {P : Char → Bool} {g : Bool} {i : Line} {p : Nat}
    {c : Caps} {i1 : Line} {p1 : Nat} {c1 : Caps}
    (h : (Regex.cat (.star P g) .eol).Matches i p c i1 p1 c1) :
    (∀ x ∈ i, P x = true) ∧ c1 = c := by
  obtain ⟨_, _, _, ⟨ws, hws, rfl, rfl, rfl⟩, rfl, rfl, rfl, rfl⟩ := h
  exact ⟨by simpa using hws, rfl⟩

/-! ## The alias pattern -/

theorem Regex.search_of_run (re : Regex) (i : Line) (pos : Nat) (m : Caps)
    (h : re.run i pos noCaps accept = some m) : re.search i pos = some m := by
  cases i with
  | nil => simpa [Regex.search] using h
  | cons c cs => simp [Regex.search, h]

/-- A line of the alias grammar matches `aliasFormat`, with the token as submatch. -/
theorem aliasFormat_match (w1 w2 w3 w4 tok w5 : Line)
    (hw1 : ∀ c ∈ w1, isSpace c = true) (hw2 : ∀ c ∈ w2, isSpace c = true)
    (hw3 : ∀ c ∈ w3, isSpace c = true) (hw4 : ∀ c ∈ w4, isSpace c = true)
    (ht : tok ≠ []) (htok : ∀ c ∈ tok, isSpace c = false)
    (hw5 : ∀ c ∈ w5, isSpace c = true) :
    ∃ m, aliasFormat.FindStringSubmatch
        (w1 ++ '-' :: (w2 ++ 'a' :: 'l' :: 'i' :: 'a' :: 's' :: (w3 ++ ':' :: (w4 ++ (tok ++ w5))))) =
        some m ∧ m 1 = tok := by
  obtain ⟨t, ts, rfl⟩ := List.exists_cons_of_ne_nil ht
  have ht0 : isNonSpace t = true := by simp [isNonSpace, htok t (by simp)]
  have hts : ∀ c ∈ ts, isNonSpace c = true := fun c hc => by simp [isNonSpace, htok c (by simp [hc])]
  have key : ∃ m, aliasFormat.run
      (w1 ++ '-' :: (w2 ++ 'a' :: 'l' :: 'i' :: 'a' :: 's' :: (w3 ++ ':' :: (w4 ++ (t :: ts ++ w5)))))
      0 noCaps accept = some m ∧ m 1 = t :: ts := by
    simp only [List.cons_append]
    simp only [aliasFormat, Regex.seq, Regex.run, lit, if_true]
    rw [starLoop_skip isSpace true _ ?_ w1 _ _ hw1 ?_]
    rotate_left
    · intro c cs q hc
      have h2 : c ≠ '-' := ne_of_isSpace hc (by decide)
      simp [h2]
    · simp; decide
    simp only [beq_self_eq_true, if_true]
    rw [starLoop_skip isSpace true _ ?_ w2 _ _ hw2 ?_]
    rotate_left
    · intro c cs q hc
      have h2 : c ≠ 'a' := ne_of_isSpace hc (by decide)
      simp [h2]
    · simp; decide
    simp only [beq_self_eq_true, if_true]
    rw [starLoop_skip isSpace true _ ?_ w3 _ _ hw3 ?_]
    rotate_left
    · intro c cs q hc
      have h2 : c ≠ ':' := ne_of_isSpace hc (by decide)
      simp [h2]
    · simp; decide
    simp only [beq_self_eq_true, if_true]
    rw [starLoop_skip isSpace true _ ?_ w4 _ _ hw4 ?_]
    rotate_left
    · intro c cs q hc
      simp [isNonSpace_of_isSpace hc]
    · simpa using isSpace_of_isNonSpace ht0
    simp only [ht0, if_true]
    rw [starLoop_skip isNonSpace false _ ?_ ts _ _ hts ?_]
    rotate_left
    · intro c cs q hc
      have h1 := isSpace_of_isNonSpace hc
      rw [starLoop_stop _ _ _ _ _ _ h1]
      simp
    · intro c hc
      cases w5 with
      | nil => simp at hc
      | cons x xs =>
        simp at hc; subst hc
        exact isNonSpace_of_isSpace (hw5 _ (by simp))
    rw [starLoop_space_eol true _ w5 _ hw5]
    simp only [accept, setCap]
    refine ⟨_, rfl, ?_⟩
    show List.take _ _ = _
    apply take_run
    omega
  obtain ⟨m, hm, h1⟩ := key
  exact ⟨m, Regex.search_of_run _ _ _ _ hm, h1⟩

/-- A line that `aliasFormat` matches is a line of the alias grammar. -/
theorem aliasFormat_sound (l : Line) (m : Caps) (h : aliasFormat.FindStringSubmatch l = some m) :
    ∃ w1 w2 w3 w4 w5 : Line, (∀ c ∈ w1, isSpace c = true) ∧ (∀ c ∈ w2, isSpace c = true) ∧
      (∀ c ∈ w3, isSpace c = true) ∧ (∀ c ∈ w4, isSpace c = true) ∧
      (∀ c ∈ w5, isSpace c = true) ∧ m 1 ≠ [] ∧ (∀ c ∈ m 1, isSpace c = false) ∧
      l = w1 ++ '-' :: (w2 ++ 'a' :: 'l' :: 'i' :: 'a' :: 's' ::
        (w3 ++ ':' :: (w4 ++ (m 1 ++ w5)))) := by
  obtain ⟨pre, i0, i1, p1, e, hm⟩ := aliasFormat.search_sound l 0 m h
  simp only [aliasFormat, Regex.seq] at hm
  obtain ⟨hp, h1⟩ := Matches_cat_bol hm
  clear hm
  obtain ⟨w1, _, hw1, rfl, h2⟩ := Matches_cat_star h1
  clear h1
  obtain ⟨_, rfl, h3⟩ := Matches_cat_lit h2
  clear h2
  obtain ⟨w2, _, hw2, rfl, h4⟩ := Matches_cat_star h3
  clear h3
  obtain ⟨_, rfl, h5⟩ := Matches_cat_lit h4
  clear h4
  obtain ⟨_, rfl, h6⟩ := Matches_cat_lit h5
  clear h5
  obtain ⟨_, rfl, h7⟩ := Matches_cat_lit h6
  clear h6
  obtain ⟨_, rfl, h8⟩ := Matches_cat_lit h7
  clear h7
  obtain ⟨_, rfl, h9⟩ := Matches_cat_lit h8
  clear h8
  obtain ⟨w3, _, hw3, rfl, h10⟩ := Matches_cat_star h9
  clear h9
  obtain ⟨_, rfl, h11⟩ := Matches_cat_lit h10
  clear h10
  obtain ⟨w4, _, hw4, rfl, h12⟩ := Matches_cat_star h11
  clear h11
  obtain ⟨tk, w5, htk0, htk, rfl, h13⟩ := Matches_cat_cap_plus h12
  clear h12
  obtain ⟨hw5, rfl⟩ := Matches_star_eol h13
  have hpre : pre = [] := List.length_eq_zero.1 (by omega)
  subst hpre
  refine ⟨w1, w2, w3, w4, w5, hw1, hw2, hw3, hw4, hw5, ?_⟩
  simp only [setCap, if_true, List.nil_append] at e ⊢
  exact ⟨htk0, fun c hc => isSpace_of_isNonSpace (htk c hc), e⟩

/-- C15. When the line in front of the cursor is optional whitespace, `-`, optional
whitespace, `alias`, optional whitespace, `:`, optional whitespace, a non-empty
token without whitespace and optional whitespace, `ParseAlias` returns that token
and no diagnostic; on every other line it returns the empty string and exactly one
diagnostic with that line's number. -/
theorem ParseAlias_grammar (buf : List Line) (p : Nat) (hp : p < buf.length) :
    (∀ w1 w2 w3 w4 tok w5 : Line, (∀ c ∈ w1, isSpace c = true) → (∀ c ∈ w2, isSpace c = true) →
      (∀ c ∈ w3, isSpace c = true) → (∀ c ∈ w4, isSpace c = true) →
      tok ≠ [] → (∀ c ∈ tok, isSpace c = false) → (∀ c ∈ w5, isSpace c = true) →
      buf.getD p [] = w1 ++ '-' :: (w2 ++ 'a' :: 'l' :: 'i' :: 'a' :: 's' ::
        (w3 ++ ':' :: (w4 ++ (tok ++ w5)))) →
      ParseAlias ⟨buf, p⟩ = (tok, [], ⟨buf, p + 1⟩)) ∧
    ((¬ ∃ w1 w2 w3 w4 tok w5 : Line, (∀ c ∈ w1, isSpace c = true) ∧ (∀ c ∈ w2, isSpace c = true) ∧
      (∀ c ∈ w3, isSpace c = true) ∧ (∀ c ∈ w4, isSpace c = true) ∧
      tok ≠ [] ∧ (∀ c ∈ tok, isSpace c = false) ∧ (∀ c ∈ w5, isSpace c = true) ∧
      buf.getD p [] = w1 ++ '-' :: (w2 ++ 'a' :: 'l' :: 'i' :: 'a' :: 's' ::
        (w3 ++ ':' :: (w4 ++ (tok ++ w5))))) →
      ParseAlias ⟨buf, p⟩ = ([], [⟨"Ill-formed alias", p + 1⟩], ⟨buf, p + 1⟩)) := by
  constructor
  · intro w1 w2 w3 w4 tok w5 hw1 hw2 hw3 hw4 ht htok hw5 hl
    obtain ⟨m, hm, h1⟩ := aliasFormat_match w1 w2 w3 w4 tok w5 hw1 hw2 hw3 hw4 ht htok hw5
    rw [ParseAlias_at buf p hp, hl, hm]
    simp only [h1]
  · intro hbad
    rw [ParseAlias_at buf p hp]
    cases h : aliasFormat.FindStringSubmatch (buf.getD p []) with
    | none => rfl
    | some m =>
      obtain ⟨w1, w2, w3, w4, w5, a1, a2, a3, a4, a5, a6, a7, a8⟩ := aliasFormat_sound _ m h
      exact absurd ⟨w1, w2, w3, w4, m 1, w5, a1, a2, a3, a4, a6, a7, a5, a8⟩ hbad

theorem ParseAlias_grammar_witness :
    ParseAlias ⟨["uid int".toList, " - alias\t: id ".toList], 1⟩ =
      ("id".toList, [], ⟨["uid int".toList, " - alias\t: id ".toList], 1 + 1⟩) :=
  (ParseAlias_grammar ["uid int".toList, " - alias\t: id ".toList] 1 (by decide)).1
    " ".toList " ".toList "\t".toList " ".toList "id".toList " ".toList
    (by decide) (by decide) (by decide) (by decide) (by decide) (by decide) (by decide) rfl

/-! ## The directive map -/

theorem lookup_cons_eq (k1 a b : Line) (xs : List (Line × Line)) :
    List.lookup k1 ((a, b) :: xs) = if k1 = a then some b else List.lookup k1 xs := by
  by_cases e : k1 = a
  · subst e; simp [List.lookup]
  · have hb : (k1 == a) = false := by simpa using e
    simp [List.lookup, hb, e]

theorem StrMap.get_set (m : StrMap) (k v k1 : Line) :
    (m.set k v).get k1 = if k1 = k then some v else m.get k1 := by
  induction m with
  | nil =>
    simp only [StrMap.set, StrMap.get, lookup_cons_eq]
  | cons x xs ih =>
    obtain ⟨a, b⟩ := x
    simp only [StrMap.get] at ih
    by_cases e : a = k
    · subst e
      simp only [StrMap.set, StrMap.get, if_true, lookup_cons_eq]
      by_cases e1 : k1 = a <;> simp [e1]
    · simp only [StrMap.set, StrMap.get, if_neg e, lookup_cons_eq, ih]
      by_cases e1 : k1 = a
      · have e2 : ¬ k1 = k := fun h => e (e1.symm.trans h)
        simp [e1, e2, e]
      · simp [e1]

theorem getLast?_filter_cons {α : Type} (q : α → Bool) (d : α) (rest : List α) :
    ((d :: rest).filter q).getLast? =
      match (rest.filter q).getLast? with
      | some x => some x
      | none => if q d = true then some d else none := by
  by_cases hq : q d = true
  · rw [List.filter_cons_of_pos hq]
    cases h : rest.filter q with
    | nil => simp [hq]
    | cons y ys =>
      rw [List.getLast?_cons_cons]
      cases hg : (y :: ys).getLast? with
      | none => simp [List.getLast?_cons] at hg
      | some z => rfl
  · rw [List.filter_cons_of_neg hq]
    cases (rest.filter q).getLast? <;> simp [hq]

/-- The main loop over lines of the directive grammar, given with their names and
values: each name ends up with the value of the last line that declares it. -/
theorem parseLoop_directives (rest : List (Line × Line × Line)) :
    ∀ (pre : List Line) (fuel : Nat) (tree : ParseTree),
      rest.length + 1 ≤ fuel →
      (∀ d ∈ rest, ∃ m, directiveFormat.FindStringSubmatch d.2.2 = some m ∧
        m 1 = d.1 ∧ m 2 = d.2.1) →
      ∃ dirs, parseLoop fuel ⟨pre ++ rest.map (fun d => d.2.2), pre.length⟩ tree [] =
          some (⟨dirs, tree.Tables⟩, [],
            ⟨pre ++ rest.map (fun d => d.2.2), (pre ++ rest.map (fun d => d.2.2)).length + 1⟩) ∧
        ∀ k, dirs.get k =
          match (rest.filter (fun d => decide (d.1 = k))).getLast? with
          | some d => some d.2.1
          | none => tree.Directives.get k := by
  induction rest with
  | nil =>
    intro pre fuel tree hf _
    obtain ⟨f, rfl⟩ : ∃ f, fuel = f + 1 := ⟨fuel - 1, by simp at hf; omega⟩
    simp only [List.map_nil, List.append_nil]
    rw [parseLoop_eof _ _ _ (by simp)]
    exact ⟨tree.Directives, by simp, fun k => by simp⟩
  | cons d rest ih =>
    intro pre fuel tree hf hds
    obtain ⟨f, rfl⟩ : ∃ f, fuel = f + 1 := ⟨fuel - 1, by simp at hf; omega⟩
    obtain ⟨m, hm, h1, h2⟩ := hds d (by simp)
    have hhead : d.2.2.head? = some '#' := by
      obtain ⟨_, _, _, _, _, _, _, _, _, _, _, _, e⟩ := directive_sound _ m hm
      rw [e]; rfl
    simp only [List.map_cons]
    have hlen := length_zipper pre (rest.map (fun d => d.2.2)) d.2.2
    have hget := getD_zipper pre (rest.map (fun d => d.2.2)) d.2.2
    rw [parseLoop_directive _ _ _ hlen (by rw [hget]; exact hhead), hget, hm]
    obtain ⟨dirs, hd1, hd2⟩ := ih (pre ++ [d.2.2]) f
      { tree with Directives := tree.Directives.set (m 1) (m 2) } (by simp at hf; omega)
      (fun x hx => hds x (by simp [hx]))
    simp only [List.append_assoc, List.singleton_append, List.length_append,
      List.length_singleton] at hd1
    refine ⟨dirs, ?_, fun k => ?_⟩
    · rw [hd1]
      simp only [List.length_append, List.length_cons]
    rw [hd2 k, getLast?_filter_cons]
    cases (rest.filter (fun d => decide (d.1 = k))).getLast? with
    | some x => rfl
    | none =>
      simp only [StrMap.get_set, h1, h2, decide_eq_true_eq]
      by_cases e : k = d.1
      · simp [e]
      · have e1 : ¬ d.1 = k := fun h => e h.symm
        simp [e, e1]

/-- C17. On an input all of whose lines are of the directive grammar, `Parse`
returns no diagnostics and a directive map that holds exactly the names that occur
and gives each name the value of the last line declaring it. -/
theorem Parse_directive_overwrite (ds : List (Line × Line × Line))
    (h : ∀ d ∈ ds, d.1 ≠ [] ∧ (∀ c ∈ d.1, isDirName c = true) ∧
      d.2.1 ≠ [] ∧ (∀ c ∈ d.2.1, isDirValue c = true) ∧
      ∃ w1 w2 w3 w4 : Line, (∀ c ∈ w1, isSpace c = true) ∧ (∀ c ∈ w2, isSpace c = true) ∧
        (∀ c ∈ w3, isSpace c = true) ∧ (∀ c ∈ w4, isSpace c = true) ∧
        d.2.2 = '#' :: (w1 ++ (d.1 ++ (w2 ++ '=' :: (w3 ++ (d.2.1 ++ w4)))))) :
    ∃ dirs, Parse (ds.map (fun d => d.2.2)) = some (⟨dirs, []⟩, []) ∧
      (∀ k, dirs.get k =
        ((ds.filter (fun d => decide (d.1 = k))).getLast?).map (fun d => d.2.1)) ∧
      (∀ k, (dirs.get k).isSome = true ↔ ∃ d ∈ ds, d.1 = k) := by
  have hds : ∀ d ∈ ds, ∃ m, directiveFormat.FindStringSubmatch d.2.2 = some m ∧
      m 1 = d.1 ∧ m 2 = d.2.1 := by
    intro d hd
    obtain ⟨a1, a2, a3, a4, w1, w2, w3, w4, b1, b2, b3, b4, e⟩ := h d hd
    rw [e]
    exact directive_match w1 d.1 w2 w3 d.2.1 w4 b1 b2 b3 b4 a1 a2 a3 a4
  obtain ⟨dirs, h1, h2⟩ := parseLoop_directives ds [] (ds.length + 1) NewParseTree
    (Nat.le_refl _) hds
  simp only [List.nil_append, List.length_nil] at h1
  have hget : ∀ k, dirs.get k =
      ((ds.filter (fun d => decide (d.1 = k))).getLast?).map (fun d => d.2.1) := by
    intro k
    rw [h2 k]
    cases (ds.filter (fun d => decide (d.1 = k))).getLast? <;> rfl
  refine ⟨dirs, ?_, hget, fun k => ?_⟩
  · simp only [Parse, ParseRun, NewScanner, Scanner.EOF]
    rw [if_neg (by simp)]
    simp only [List.length_map] at h1 ⊢
    rw [h1]
    rfl
  · rw [hget k]
    cases hl : (ds.filter (fun d => decide (d.1 = k))).getLast? with
    | none =>
      have hnil : ds.filter (fun d => decide (d.1 = k)) = [] := by
        cases hf : ds.filter (fun d => decide (d.1 = k)) with
        | nil => rfl
        | cons y ys => rw [hf] at hl; simp [List.getLast?_cons] at hl
      constructor
      · intro hh; cases hh
      · rintro ⟨d, hd, e⟩
        have : d ∈ ds.filter (fun d => decide (d.1 = k)) := by
          simp [List.mem_filter, hd, e]
        rw [hnil] at this
        cases this
    | some x =>
      have hx : x ∈ ds.filter (fun d => decide (d.1 = k)) := List.mem_of_getLast?_eq_some hl
      simp only [List.mem_filter, decide_eq_true_eq] at hx
      exact ⟨fun _ => ⟨x, hx.1, hx.2⟩, fun _ => rfl⟩

theorem Parse_directive_overwrite_witness :
    ∃ dirs, Parse ([("a".toList, "1".toList, "#a=1".toList),
        ("a".toList, "2".toList, "# a = 2".toList)].map (fun d => d.2.2)) =
        some (⟨dirs, []⟩, []) ∧
      (∀ k, dirs.get k =
        (([("a".toList, "1".toList, "#a=1".toList),
          ("a".toList, "2".toList, "# a = 2".toList)].filter
            (fun d => decide (d.1 = k))).getLast?).map (fun d => d.2.1)) ∧
      (∀ k, (dirs.get k).isSome = true ↔
        ∃ d ∈ [("a".toList, "1".toList, "#a=1".toList),
          ("a".toList, "2".toList, "# a = 2".toList)], d.1 = k) :=
  Parse_directive_overwrite [("a".toList, "1".toList, "#a=1".toList),
      ("a".toList, "2".toList, "# a = 2".toList)]
    (by
      intro d hd
      simp only [List.mem_cons, List.mem_singleton, List.not_mem_nil, or_false] at hd
      rcases hd with rfl | rfl
      · exact ⟨by decide, by decide, by decide, by decide, [], [], [], [],
          by simp, by simp, by simp, by simp, rfl⟩
      · exact ⟨by decide, by decide, by decide, by decide, " ".toList, " ".toList, " ".toList, [],
          by decide, by decide, by decide, by simp, rfl⟩)

/-! ## What the sub-line loop builds -/

theorem ParseAlias_one (l : Line) :
    ParseAlias ⟨[l], 0⟩ =
      match aliasFormat.FindStringSubmatch l with
      | some m => (m 1, [], ⟨[l], 1⟩)
      | none => ([], [⟨"Ill-formed alias", 1⟩], ⟨[l], 1⟩) :=
  ParseAlias_at [l] 0 (by simp)

theorem ParseConstraint_one (l : Line) :
    ParseConstraint ⟨[l], 0⟩ =
      match constraintFormat.FindStringSubmatch l with
      | some m => (some ⟨m 1, m 2⟩, [], ⟨[l], 1⟩)
      | none => (none, [⟨"Ill-formed constraint", 1⟩], ⟨[l], 1⟩) :=
  ParseConstraint_at [l] 0 (by simp)

/-- The sub-line loop over a run of sub-lines that ends with the input: the alias is
the Alias rule's result on the last line containing `alias`, the constraints are the
Constraint rule's results on the other lines, and every failing line leaves one
diagnostic with its number. -/
theorem columnLoop_props (subs : List Line) :
    ∀ (pre : List Line) (column : Column) (errors : List ParseError) (fuel : Nat),
      subs.length + 1 ≤ fuel →
      (∀ l ∈ subs, Contains l "alias".toList = true ∨ subIndicator.MatchString l = true) →
      columnLoop fuel ⟨pre ++ subs, pre.length⟩ column errors =
        some (⟨column.Name, column.Typ, column.RequestedType,
            (match (subs.filter (fun l => Contains l "alias".toList)).getLast? with
              | some l => (ParseAlias ⟨[l], 0⟩).1
              | none => column.Alias),
            column.Constraints ++ (subs.filter (fun l => !Contains l "alias".toList)).filterMap
              (fun l => (ParseConstraint ⟨[l], 0⟩).1)⟩,
          errors ++ (subs.enumFrom (pre.length + 1)).filterMap (fun x =>
            if Contains x.2 "alias".toList = true then
              (if (ParseAlias ⟨[x.2], 0⟩).2.1 = [] then none
                else some ⟨"Ill-formed alias", x.1⟩)
            else
              (if (ParseConstraint ⟨[x.2], 0⟩).1.isSome = true then none
                else some ⟨"Ill-formed constraint", x.1⟩)),
          ⟨pre ++ subs, pre.length + subs.length + 1⟩) := by
  induction subs with
  | nil =>
    intro pre column errors fuel hf _
    obtain ⟨f, rfl⟩ : ∃ f, fuel = f + 1 := ⟨fuel - 1, by simp at hf; omega⟩
    rw [columnLoop_eof _ _ _ (by simp)]
    simp
  | cons l subs ih =>
    intro pre column errors fuel hf hsubs
    obtain ⟨f, rfl⟩ : ∃ f, fuel = f + 1 := ⟨fuel - 1, by simp at hf; omega⟩
    have hrest : ∀ x ∈ subs, Contains x "alias".toList = true ∨
        subIndicator.MatchString x = true := fun x hx => hsubs x (by simp [hx])
    have hlen := length_zipper pre subs l
    have hget := getD_zipper pre subs l
    have hf1 : subs.length + 1 ≤ f := by simp at hf; omega
    have ih1 := fun c e => ih (pre ++ [l]) c e f hf1 hrest
    simp only [List.append_assoc, List.singleton_append, List.length_append,
      List.length_singleton] at ih1
    have epos : pre.length + 1 + subs.length + 1 = pre.length + (l :: subs).length + 1 := by
      simp; omega
    rw [getLast?_filter_cons, List.enumFrom_cons, List.filterMap_cons]
    cases ha : Contains l "alias".toList with
    | true =>
      have hfl : (l :: subs).filter (fun l => !Contains l "alias".toList) =
          subs.filter (fun l => !Contains l "alias".toList) := by
        rw [List.filter_cons_of_neg (by show ¬ (!Contains l "alias".toList) = true; rw [ha]; decide)]
      rw [columnLoop_alias f _ _ hlen (by rw [hget]; exact ha), hget, hfl, ParseAlias_one]
      cases hm : aliasFormat.FindStringSubmatch l with
      | none =>
        simp only [ih1, epos, if_true]
        cases (subs.filter (fun l => Contains l "alias".toList)).getLast? <;>
          simp [ParseAlias_one, hm]
      | some m =>
        simp only [ih1, epos, if_true]
        cases (subs.filter (fun l => Contains l "alias".toList)).getLast? <;>
          simp [ParseAlias_one, hm]
    | false =>
      have hs : subIndicator.MatchString l = true := by
        rcases hsubs l (by simp) with h | h
        · rw [ha] at h; cases h
        · exact h
      have hfl : (l :: subs).filter (fun l => !Contains l "alias".toList) =
          l :: subs.filter (fun l => !Contains l "alias".toList) := by
        rw [List.filter_cons_of_pos (by show (!Contains l "alias".toList) = true; rw [ha]; rfl)]
      rw [columnLoop_sub f _ _ hlen (by rw [hget]; exact ha) (by rw [hget]; exact hs), hget, hfl,
        List.filterMap_cons, ParseConstraint_one]
      cases hm : constraintFormat.FindStringSubmatch l with
      | none =>
        simp only [ih1, epos]
        cases (subs.filter (fun l => Contains l "alias".toList)).getLast? <;> simp
      | some m =>
        simp only [ih1, epos]
        cases (subs.filter (fun l => Contains l "alias".toList)).getLast? <;> simp

theorem mem_enumFrom_snd {α : Type} (l : List α) (n : Nat) (x : Nat × α)
    (h : x ∈ l.enumFrom n) : x.2 ∈ l := by
  induction l generalizing n with
  | nil => simp at h
  | cons a as ih =>
    rw [List.enumFrom_cons] at h
    rcases List.mem_cons.1 h with rfl | h
    · simp
    · exact List.mem_cons_of_mem _ (ih _ h)

/-- C12. For a valid column first line followed only by lines that begin with
optional whitespace and `-` and do not contain `alias`, `ParseColumn` consumes every
line and returns as constraints the results of the Constraint rule on the sub-lines
where it succeeds, in input order, and one diagnostic, with its line number, for
each sub-line where it fails. -/
theorem ParseColumn_constraints (first : Line) (subs : List Line)
    (hfirst : (columnFormat.FindStringSubmatch first).isSome = true)
    (hsubs : ∀ l ∈ subs, Contains l "alias".toList = false ∧
      ∃ ws r : Line, (∀ c ∈ ws, isSpace c = true) ∧ l = ws ++ '-' :: r) :
    ∃ col errs,
      ParseColumn ⟨first :: subs, 0⟩ = some (some col, errs, ⟨first :: subs, subs.length + 2⟩) ∧
      col.Constraints = subs.filterMap (fun l => (ParseConstraint ⟨[l], 0⟩).1) ∧
      errs = (subs.enumFrom 2).filterMap (fun x =>
        if (ParseConstraint ⟨[x.2], 0⟩).1.isSome = true then none
        else some ⟨"Ill-formed constraint", x.1⟩) := by
  cases hm : columnFormat.FindStringSubmatch first with
  | none => rw [hm] at hfirst; cases hfirst
  | some m =>
    have hsubs1 : ∀ l ∈ subs, Contains l "alias".toList = true ∨
        subIndicator.MatchString l = true :=
      fun l hl => Or.inr ((subIndicator_iff l).2 (hsubs l hl).2)
    have h := columnLoop_props subs [first] ⟨m 1, m 2, m 3, [], []⟩ []
      ((first :: subs).length + 1) (by simp) hsubs1
    simp only [List.singleton_append, List.length_singleton, List.nil_append] at h
    have hfil : subs.filter (fun l => !Contains l "alias".toList) = subs := by
      rw [List.filter_eq_self]
      intro l hl
      rw [(hsubs l hl).1]; rfl
    obtain ⟨col, errs, hc, hcol, herr⟩ : ∃ col errs,
        columnLoop ((first :: subs).length + 1) ⟨first :: subs, 1⟩ ⟨m 1, m 2, m 3, [], []⟩ [] =
          some (col, errs, ⟨first :: subs, 1 + subs.length + 1⟩) ∧
        col.Constraints = (subs.filter (fun l => !Contains l "alias".toList)).filterMap
          (fun l => (ParseConstraint ⟨[l], 0⟩).1) ∧
        errs = (subs.enumFrom (1 + 1)).filterMap (fun x =>
          if Contains x.2 "alias".toList = true then
            (if (ParseAlias ⟨[x.2], 0⟩).2.1 = [] then none
              else some ⟨"Ill-formed alias", x.1⟩)
          else
            (if (ParseConstraint ⟨[x.2], 0⟩).1.isSome = true then none
              else some ⟨"Ill-formed constraint", x.1⟩)) := ⟨_, _, h, rfl, rfl⟩
    refine ⟨col, errs, ?_, ?_, ?_⟩
    · rw [ParseColumn_at _ 0 (by simp)]
      simp only [List.getD_cons_zero, hm, Nat.zero_add, hc]
      congr 4; omega
    · rw [hcol, hfil]
    · rw [herr]
      apply List.filterMap_congr
      intro x hx
      have := (hsubs x.2 (mem_enumFrom_snd _ _ _ hx)).1
      rw [this]
      simp only [Bool.false_eq_true, if_false]

theorem ParseColumn_constraints_witness :
    ∃ col errs,
      ParseColumn ⟨"uid int".toList :: ["-unique".toList, "-".toList, "-not null".toList], 0⟩ =
        some (some col, errs,
          ⟨"uid int".toList :: ["-unique".toList, "-".toList, "-not null".toList], 3 + 2⟩) ∧
      col.Constraints = ["-unique".toList, "-".toList, "-not null".toList].filterMap
        (fun l => (ParseConstraint ⟨[l], 0⟩).1) ∧
      errs = (["-unique".toList, "-".toList, "-not null".toList].enumFrom 2).filterMap (fun x =>
        if (ParseConstraint ⟨[x.2], 0⟩).1.isSome = true then none
        else some ⟨"Ill-formed constraint", x.1⟩) :=
  ParseColumn_constraints "uid int".toList ["-unique".toList, "-".toList, "-not null".toList]
    (by decide)
    (by
      intro l hl
      simp only [List.mem_cons, List.mem_singleton, List.not_mem_nil, or_false] at hl
      rcases hl with rfl | rfl | rfl
      · exact ⟨by decide, [], "unique".toList, by simp, rfl⟩
      · exact ⟨by decide, [], [], by simp, rfl⟩
      · exact ⟨by decide, [], "not null".toList, by simp, rfl⟩)

/-- C16, counterexample. After `uid int` and `-alias: id`, the line `alias text`
does not begin with `-`, yet it contains `alias`: it is sent to the Alias rule,
which fails, and the column comes back with an empty alias, although the Alias rule
gives `id` on the only line beginning with `-`. -/
theorem ParseColumn_alias_reset_by_plain_line :
    subIndicator.MatchString "alias text".toList = false ∧
    (ParseAlias ⟨["-alias: id".toList], 0⟩).1 = "id".toList ∧
    ParseColumn ⟨["uid int".toList, "-alias: id".toList, "alias text".toList], 0⟩ =
      some (some ⟨"uid".toList, "int".toList, [], [], []⟩, [⟨"Ill-formed alias", 3⟩],
        ⟨["uid int".toList, "-alias: id".toList, "alias text".toList], 4⟩) := by
  refine ⟨by decide, by decide, by decide⟩

/-- C16. For a valid column first line followed by the lines of its loop (lines that
contain `alias`, whether or not they begin with `-`, or that begin with optional
whitespace and `-`), up to the end of the input or to a line that is neither, the
alias of the column `ParseColumn` returns is the Alias rule's result on the last of
these lines containing `alias`, and is empty when there is none: with several
well-formed alias lines the last one wins, and an ill-formed alias line resets an
alias set before it. -/
theorem ParseColumn_alias_overwrite (first : Line) (subs tail : List Line)
    (hfirst : (columnFormat.FindStringSubmatch first).isSome = true)
    (hsubs : ∀ l ∈ subs, Contains l "alias".toList = true ∨
      ∃ ws r : Line, (∀ c ∈ ws, isSpace c = true) ∧ l = ws ++ '-' :: r)
    (htail : ∀ stop ∈ tail.head?, Contains stop "alias".toList = false ∧
      ¬ ∃ ws r : Line, (∀ c ∈ ws, isSpace c = true) ∧ stop = ws ++ '-' :: r) :
    (∃ col errs s, ParseColumn ⟨first :: (subs ++ tail), 0⟩ = some (some col, errs, s) ∧
      col.Alias =
        match (subs.filter (fun l => Contains l "alias".toList)).getLast? with
        | some l => (ParseAlias ⟨[l], 0⟩).1
        | none => []) ∧
    (∃ col errs s,
      ParseColumn ⟨["uid int".toList, "-alias: id".toList, "-alias: user_id".toList], 0⟩ =
        some (some col, errs, s) ∧ col.Alias = "user_id".toList) ∧
    (∃ col errs s, ParseColumn ⟨["uid int".toList, "-alias: id".toList, "-alias id".toList], 0⟩ =
      some (some col, errs, s) ∧ col.Alias = []) := by
  refine ⟨?_, ⟨⟨"uid".toList, "int".toList, [], "user_id".toList, []⟩, [],
      ⟨["uid int".toList, "-alias: id".toList, "-alias: user_id".toList], 4⟩, by decide, rfl⟩,
    ⟨⟨"uid".toList, "int".toList, [], [], []⟩, [⟨"Ill-formed alias", 3⟩],
      ⟨["uid int".toList, "-alias: id".toList, "-alias id".toList], 4⟩, by decide, rfl⟩⟩
  cases hm : columnFormat.FindStringSubmatch first with
  | none => rw [hm] at hfirst; cases hfirst
  | some m =>
    have hsubs1 : ∀ l ∈ subs, Contains l "alias".toList = true ∨
        subIndicator.MatchString l = true := by
      intro l hl
      rcases hsubs l hl with h | h
      · exact Or.inl h
      · exact Or.inr ((subIndicator_iff l).2 h)
    have hp := columnLoop_props subs [first] ⟨m 1, m 2, m 3, [], []⟩ []
    obtain ⟨col, errs, h1, h2⟩ := columnLoop_run subs [first] ⟨m 1, m 2, m 3, [], []⟩ [] hsubs1
    have hcol : col.Alias =
        match (subs.filter (fun l => Contains l "alias".toList)).getLast? with
        | some l => (ParseAlias ⟨[l], 0⟩).1
        | none => [] := by
      have e1 := h1 (subs.length + 1) (Nat.le_refl _)
      rw [hp (subs.length + 1) (Nat.le_refl _) hsubs1] at e1
      simp only [Option.some.injEq, Prod.mk.injEq] at e1
      rw [← e1.1]
    cases tail with
    | nil =>
      have h1a := h1 ((first :: subs).length + 1) (by simp)
      simp only [List.singleton_append, List.length_singleton] at h1a
      refine ⟨col, errs, ⟨first :: subs, 1 + subs.length + 1⟩, ?_, hcol⟩
      rw [ParseColumn_at _ 0 (by simp)]
      simp only [List.append_nil, List.getD_cons_zero, hm, Nat.zero_add, h1a]
    | cons stop rest =>
      obtain ⟨hs1, hs2⟩ := htail stop (by simp)
      have hs3 : subIndicator.MatchString stop = false := by
        cases h : subIndicator.MatchString stop
        · rfl
        · exact absurd ((subIndicator_iff stop).1 h) hs2
      have h2a := h2 ((first :: (subs ++ stop :: rest)).length + 1) stop rest (by simp; omega)
        hs1 hs3
      simp only [List.singleton_append, List.length_singleton] at h2a
      refine ⟨col, errs, ⟨first :: (subs ++ stop :: rest), 1 + subs.length⟩, ?_, hcol⟩
      rw [ParseColumn_at _ 0 (by simp)]
      simp only [List.getD_cons_zero, hm, Nat.zero_add, h2a]

theorem ParseColumn_alias_overwrite_witness :
    (∃ col errs s, ParseColumn ⟨"uid int".toList ::
        (["-alias: id".toList, "-alias: user_id".toList] ++ []), 0⟩ = some (some col, errs, s) ∧
      col.Alias =
        match (["-alias: id".toList, "-alias: user_id".toList].filter
          (fun l => Contains l "alias".toList)).getLast? with
        | some l => (ParseAlias ⟨[l], 0⟩).1
        | none => []) ∧
    (∃ col errs s,
      ParseColumn ⟨["uid int".toList, "-alias: id".toList, "-alias: user_id".toList], 0⟩ =
        some (some col, errs, s) ∧ col.Alias = "user_id".toList) ∧
    (∃ col errs s, ParseColumn ⟨["uid int".toList, "-alias: id".toList, "-alias id".toList], 0⟩ =
      some (some col, errs, s) ∧ col.Alias = []) :=
  ParseColumn_alias_overwrite "uid int".toList ["-alias: id".toList, "-alias: user_id".toList] []
    (by decide) (fun l hl => Or.inl (by revert l; decide)) (by simp)

/-! ## Routing by the substring `alias` -/

theorem Contains_nil_right (l : Line) : Contains l [] = true := by
  cases l <;> simp [Contains, List.isPrefixOf]

theorem Contains_append_right (b c pat : Line) (h : Contains b pat = true) :
    Contains (b ++ c) pat = true := by
  induction b with
  | nil =>
    have hp : pat = [] := by
      cases pat with
      | nil => rfl
      | cons x xs => simp [Contains, List.isPrefixOf] at h
    subst hp
    exact Contains_nil_right _
  | cons x b ih =>
    simp only [Contains, Bool.or_eq_true] at h
    simp only [List.cons_append, Contains, Bool.or_eq_true]
    rcases h with h | h
    · left
      rw [List.isPrefixOf_iff_prefix] at h ⊢
      exact h.trans (List.prefix_append (x :: b) c)
    · exact Or.inr (ih h)

theorem Contains_append_left (a b pat : Line) (h : Contains b pat = true) :
    Contains (a ++ b) pat = true := by
  induction a with
  | nil => exact h
  | cons x a ih => simp [Contains, ih]

/-- A stretch of a line that does not contain the pattern does not contain it. -/
theorem Contains_infix_false (a b c pat : Line) (h : Contains (a ++ (b ++ c)) pat = false) :
    Contains b pat = false := by
  cases hb : Contains b pat
  · rfl
  · rw [Contains_append_left a _ pat (Contains_append_right b c pat hb)] at h
    cases h

/-- The submatches of `constraintFormat` on a line without `alias` hold no `alias`. -/
theorem constraint_no_alias (l : Line) (m : Caps)
    (hm : constraintFormat.FindStringSubmatch l = some m)
    (ha : Contains l "alias".toList = false) :
    Contains (m 1) "alias".toList = false ∧ Contains (m 2) "alias".toList = false := by
  obtain ⟨pre, w1, w2, tail, _, _, _, _, e, h2⟩ := constraint_sound l m hm
  constructor
  · have e1 : l = (pre ++ (w1 ++ '-' :: w2)) ++ (m 1 ++ tail) := by rw [e]; simp
    rw [e1] at ha
    exact Contains_infix_false _ _ _ _ ha
  · rcases h2 with ⟨h2, _⟩ | ⟨w3, w4, w5, _, _, _, _, _, e2⟩
    · rw [h2]; rfl
    · have e1 : l = (pre ++ (w1 ++ '-' :: (w2 ++ (m 1 ++ (w3 ++ ':' :: w4))))) ++ (m 2 ++ w5) := by
        rw [e, e2]; simp
      rw [e1] at ha
      exact Contains_infix_false _ _ _ _ ha

/-- The sub-line loop only adds constraints without `alias` in name and value. -/
theorem columnLoop_no_alias (buf : List Line) : ∀ (fuel p : Nat) (column : Column)
    (errors : List ParseError) (r : Column × List ParseError × Scanner),
    columnLoop fuel ⟨buf, p⟩ column errors = some r →
    (∀ c ∈ column.Constraints, Contains c.Name "alias".toList = false ∧
      Contains c.Value "alias".toList = false) →
    ∀ c ∈ r.1.Constraints, Contains c.Name "alias".toList = false ∧
      Contains c.Value "alias".toList = false := by
  intro fuel
  induction fuel with
  | zero => intro p column errors r h; simp [columnLoop] at h
  | succ f ih =>
    intro p column errors r h hcol
    by_cases hp : p < buf.length
    · cases ha : Contains (buf.getD p []) "alias".toList with
      | true =>
        rw [columnLoop_alias f buf p hp ha] at h
        cases hm : aliasFormat.FindStringSubmatch (buf.getD p []) with
        | none => rw [hm] at h; exact ih _ _ _ r h hcol
        | some m => rw [hm] at h; exact ih _ _ _ r h hcol
      | false =>
        cases hs : subIndicator.MatchString (buf.getD p []) with
        | true =>
          rw [columnLoop_sub f buf p hp ha hs] at h
          cases hm : constraintFormat.FindStringSubmatch (buf.getD p []) with
          | none => rw [hm] at h; exact ih _ _ _ r h hcol
          | some m =>
            rw [hm] at h
            refine ih _ _ _ r h ?_
            intro c hc
            rcases List.mem_append.1 hc with hc | hc
            · exact hcol c hc
            · simp only [List.mem_singleton] at hc
              subst hc
              exact constraint_no_alias _ m hm ha
        | false =>
          rw [columnLoop_stop f buf p hp ha hs] at h
          simp only [Option.some.injEq] at h
          subst h
          exact hcol
    · rw [columnLoop_eof f buf p (by omega)] at h
      simp only [Option.some.injEq] at h
      subst h
      exact hcol

/-- C20. A line containing `alias` that the sub-line loop of `ParseColumn` reaches
is given to the Alias rule and leaves the constraints as they are; so no constraint
of the column `ParseColumn` returns has a name or value containing `alias`; and the
sub-line `-references: aliases` gives an ill-formed-alias diagnostic and no
constraint. -/
theorem ParseColumn_alias_routing (buf : List Line) (p : Nat) (hp : p < buf.length) :
    (∀ (fuel : Nat) (column : Column) (errors : List ParseError),
      Contains (buf.getD p []) "alias".toList = true →
      columnLoop (fuel + 1) ⟨buf, p⟩ column errors =
        columnLoop fuel (ParseAlias ⟨buf, p⟩).2.2
          { column with Alias := (ParseAlias ⟨buf, p⟩).1 }
          (errors ++ (ParseAlias ⟨buf, p⟩).2.1)) ∧
    (∃ col errs q, ParseColumn ⟨buf, p⟩ = some (some col, errs, ⟨buf, q⟩) ∧
      ∀ c ∈ col.Constraints, Contains c.Name "alias".toList = false ∧
        Contains c.Value "alias".toList = false) ∧
    ParseColumn ⟨["uid int".toList, "-references: aliases".toList], 0⟩ =
      some (some ⟨"uid".toList, "int".toList, [], [], []⟩, [⟨"Ill-formed alias", 2⟩],
        ⟨["uid int".toList, "-references: aliases".toList], 3⟩) := by
  refine ⟨?_, ?_, by decide⟩
  · intro fuel column errors ha
    rw [columnLoop_alias fuel buf p hp ha, ParseAlias_at buf p hp]
    cases aliasFormat.FindStringSubmatch (buf.getD p []) <;> simp
  · obtain ⟨col, errs, q, h, _, _⟩ := ParseColumn_spec buf p hp
    refine ⟨col, errs, q, h, ?_⟩
    rw [ParseColumn_at buf p hp] at h
    cases hm : columnFormat.FindStringSubmatch (buf.getD p []) with
    | none =>
      rw [hm] at h
      simp only [Option.some.injEq, Prod.mk.injEq] at h
      rw [← h.1]
      intro c hc
      cases hc
    | some m =>
      simp only [hm] at h
      cases hl : columnLoop (buf.length + 1) ⟨buf, p + 1⟩ ⟨m 1, m 2, m 3, [], []⟩ [] with
      | none => rw [hl] at h; cases h
      | some r =>
        rw [hl] at h
        simp only [Option.some.injEq, Prod.mk.injEq] at h
        rw [← h.1]
        exact columnLoop_no_alias buf _ _ _ _ r hl (by intro c hc; cases hc)

theorem ParseColumn_alias_routing_witness :
    (∀ (fuel : Nat) (column : Column) (errors : List ParseError),
      Contains (["uid int".toList, "-a: b".toList, "-alias: x".toList].getD 2 [])
        "alias".toList = true →
      columnLoop (fuel + 1) ⟨["uid int".toList, "-a: b".toList, "-alias: x".toList], 2⟩
          column errors =
        columnLoop fuel
          (ParseAlias ⟨["uid int".toList, "-a: b".toList, "-alias: x".toList], 2⟩).2.2
          { column with
            Alias := (ParseAlias ⟨["uid int".toList, "-a: b".toList, "-alias: x".toList], 2⟩).1 }
          (errors ++
            (ParseAlias ⟨["uid int".toList, "-a: b".toList, "-alias: x".toList], 2⟩).2.1)) ∧
    (∃ col errs q, ParseColumn ⟨["uid int".toList, "-a: b".toList, "-alias: x".toList], 2⟩ =
        some (some col, errs, ⟨["uid int".toList, "-a: b".toList, "-alias: x".toList], q⟩) ∧
      ∀ c ∈ col.Constraints, Contains c.Name "alias".toList = false ∧
        Contains c.Value "alias".toList = false) ∧
    ParseColumn ⟨["uid int".toList, "-references: aliases".toList], 0⟩ =
      some (some ⟨"uid".toList, "int".toList, [], [], []⟩, [⟨"Ill-formed alias", 2⟩],
        ⟨["uid int".toList, "-references: aliases".toList], 3⟩) :=
  ParseColumn_alias_routing ["uid int".toList, "-a: b".toList, "-alias: x".toList] 2 (by decide)

/-! ## The constraint pattern on well-formed sub-lines -/

theorem match_some_of (x y : Option Caps) (r : Caps) :
    x = some r →
    (match x with
      | some c => some c
      | none => y) = some r := by
  intro h
  subst h
  rfl

theorem match_none_some (x y : Option Caps) (r : Caps) :
    x = none → y = some r →
    (match x with
      | some c => some c
      | none => y) = some r := by
  intro h1 h2
  subst h1
  exact h2

theorem match_none_none (x y : Option Caps) :
    x = none → y = none →
    (match x with
      | some c => some c
      | none => y) = none := by
  intro h1 h2
  subst h1
  exact h2

theorem starLoop_lazy_some {α : Type} (p : Char → Bool) (k : Line → Nat → Option α)
    (ws rest : Line) (pos : Nat) (r : α) (hws : ∀ c ∈ ws, p c = true)
    (hf : ∀ a b : Line, ws = a ++ b → b ≠ [] → k (b ++ rest) (pos + a.length) = none)
    (hk : k rest (pos + ws.length) = some r) :
    starLoop p false k (ws ++ rest) pos = some r := by
  rw [starLoop_lazy_run p k ws rest pos hws hf]
  exact starLoop_lazy_here p k rest _ r hk

theorem starLoop_greedy_some {α : Type} (p : Char → Bool) (k : Line → Nat → Option α)
    (ws : Line) (x : Char) (rest : Line) (pos : Nat) (r : α) (hws : ∀ c ∈ ws, p c = true)
    (hx : p x = false) (hk : k (x :: rest) (pos + ws.length) = some r) :
    starLoop p true k (ws ++ x :: rest) pos = some r := by
  apply starLoop_greedy_run p k ws (x :: rest) r pos hws
  rw [starLoop_stop _ _ _ _ _ _ hx]
  exact hk

theorem starLoop_none_of {α : Type} (p : Char → Bool) (g : Bool) (k : Line → Nat → Option α)
    (i : Line) (pos : Nat)
    (h : ∀ ws i1 : Line, i = ws ++ i1 → (∀ x ∈ ws, p x = true) → k i1 (pos + ws.length) = none) :
    starLoop p g k i pos = none := by
  cases hr : starLoop p g k i pos with
  | none => rfl
  | some r =>
    obtain ⟨ws, i1, hws, e, hk⟩ := starLoop_sound p g k i pos r hr
    rw [h ws i1 e hws] at hk
    cases hk

/-- After a run of whitespace inside a stretch that ends in a non-blank character,
the next character still belongs to the stretch. -/
theorem head_in_stretch (ws i1 b rest : Line) (e : b ++ rest = ws ++ i1)
    (hws : ∀ x ∈ ws, isSpace x = true) (hb : ∃ c ∈ b, isSpace c = false) :
    ∃ x t, i1 = x :: t ∧ x ∈ b := by
  rcases List.append_eq_append_iff.1 e with ⟨a, h1, h2⟩ | ⟨a, h1, h2⟩
  · cases a with
    | nil =>
      obtain ⟨c, hc, hs⟩ := hb
      have : c ∈ ws := by rw [h1]; simpa using hc
      rw [hws c this] at hs
      cases hs
    | cons x t =>
      obtain ⟨c, hc, hs⟩ := hb
      have : c ∈ ws := by rw [h1]; simp [hc]
      rw [hws c this] at hs
      cases hs
  · cases a with
    | nil =>
      obtain ⟨c, hc, hs⟩ := hb
      have : c ∈ ws := by rw [h1] at hc; simpa using hc
      rw [hws c this] at hs
      cases hs
    | cons x t => exact ⟨x, t ++ rest, by rw [h2]; simp, by rw [h1]; simp⟩

theorem nonspace_in_suffix (r0 : Char) (rs a b : Line)
    (hlast : ∀ c, (r0 :: rs).getLast? = some c → isSpace c = false)
    (e : rs = a ++ b) (hb : b ≠ []) : ∃ c ∈ b, isSpace c = false := by
  obtain ⟨c, hc, hs⟩ := exists_nonspace_of_suffix r0 rs [] a b hlast e hb
  exact ⟨c, by simpa using hc, hs⟩

theorem constraint_value_run (w1 w2 w3 w4 w5 ns vs : Line) (n0 v0 : Char)
    (hw1 : ∀ c ∈ w1, isSpace c = true) (hw2 : ∀ c ∈ w2, isSpace c = true)
    (hw3 : ∀ c ∈ w3, isSpace c = true) (hw4 : ∀ c ∈ w4, isSpace c = true)
    (hw5 : ∀ c ∈ w5, isSpace c = true)
    (hn0 : isSpace n0 = false) (hnl : ∀ c, (n0 :: ns).getLast? = some c → isSpace c = false)
    (hn : ∀ c ∈ n0 :: ns, c ≠ ':' ∧ isDot c = true)
    (hv0 : isSpace v0 = false) (hvl : ∀ c, (v0 :: vs).getLast? = some c → isSpace c = false)
    (hv : ∀ c ∈ v0 :: vs, isDot c = true) :
    constraintFormat.run
        (w1 ++ '-' :: (w2 ++ n0 :: (ns ++ (w3 ++ ':' :: (w4 ++ v0 :: (vs ++ w5))))))
        0 noCaps accept = some (setCap (setCap noCaps 1 (n0 :: ns)) 2 (v0 :: vs)) := by
  simp only [constraintFormat, Regex.seq, Regex.run, lit]
  rw [starLoop_skip isSpace true _ ?_ w1 _ _ hw1 ?_]
  rotate_left
  · intro c cs q hc
    have h2 : c ≠ '-' := ne_of_isSpace hc (by decide)
    simp [h2]
  · simp; decide
  simp only [beq_self_eq_true, if_true]
  apply starLoop_greedy_some isSpace _ w2 n0 _ _ _ hw2 hn0
  simp only [(hn n0 (by simp)).2, if_true]
  apply starLoop_lazy_some isDot _ ns _ _ _ (fun c hc => (hn c (by simp [hc])).2)
  · intro a b e hb
    apply match_none_none
    · apply starLoop_none_of
      intro ws i1 e1 hws
      obtain ⟨x, t, rfl, hx⟩ := head_in_stretch ws _ b _ e1 hws (nonspace_in_suffix n0 ns a b hnl e hb)
      have h2 : x ≠ ':' := (hn x (by rw [e]; simp [hx])).1
      simp [h2]
    · exact starLoop_space_eol_none _ _ _ _ (exists_nonspace_of_suffix n0 ns _ a b hnl e hb)
  · apply match_some_of
    rw [starLoop_skip isSpace true _ ?_ w3 _ _ hw3 ?_]
    rotate_left
    · intro c cs q hc
      have h2 : c ≠ ':' := ne_of_isSpace hc (by decide)
      simp [h2]
    · simp; decide
    simp only [beq_self_eq_true, if_true]
    apply starLoop_greedy_some isSpace _ w4 v0 _ _ _ hw4 hv0
    simp only [hv v0 (by simp), if_true]
    apply starLoop_lazy_some isDot _ vs _ _ _ (fun c hc => hv c (by simp [hc]))
    · intro a b e hb
      exact starLoop_space_eol_none _ _ _ _ (exists_nonspace_of_suffix v0 vs w5 a b hvl e hb)
    · rw [starLoop_space_eol _ _ _ _ hw5]
      simp only [accept]
      rw [take_run _ _ n0 ns _ (by omega), take_run _ _ v0 vs _ (by omega)]


theorem constraint_name_run (w1 w2 w3 ns : Line) (n0 : Char)
    (hw1 : ∀ c ∈ w1, isSpace c = true) (hw2 : ∀ c ∈ w2, isSpace c = true)
    (hw3 : ∀ c ∈ w3, isSpace c = true)
    (hn0 : isSpace n0 = false) (hnl : ∀ c, (n0 :: ns).getLast? = some c → isSpace c = false)
    (hn : ∀ c ∈ n0 :: ns, c ≠ ':' ∧ isDot c = true) :
    constraintFormat.run (w1 ++ '-' :: (w2 ++ n0 :: (ns ++ w3))) 0 noCaps accept =
      some (setCap noCaps 1 (n0 :: ns)) := by
  simp only [constraintFormat, Regex.seq, Regex.run, lit]
  rw [starLoop_skip isSpace true _ ?_ w1 _ _ hw1 ?_]
  rotate_left
  · intro c cs q hc
    have h2 : c ≠ '-' := ne_of_isSpace hc (by decide)
    simp [h2]
  · simp; decide
  simp only [beq_self_eq_true, if_true]
  apply starLoop_greedy_some isSpace _ w2 n0 _ _ _ hw2 hn0
  simp only [(hn n0 (by simp)).2, if_true]
  apply starLoop_lazy_some isDot _ ns _ _ _ (fun c hc => (hn c (by simp [hc])).2)
  · intro a b e hb
    apply match_none_none
    · apply starLoop_none_of
      intro ws i1 e1 hws
      obtain ⟨x, t, rfl, hx⟩ := head_in_stretch ws _ b _ e1 hws (nonspace_in_suffix n0 ns a b hnl e hb)
      have h2 : x ≠ ':' := (hn x (by rw [e]; simp [hx])).1
      simp [h2]
    · exact starLoop_space_eol_none _ _ _ _ (exists_nonspace_of_suffix n0 ns _ a b hnl e hb)
  · apply match_none_some
    · rw [starLoop_all isSpace true _ ?_ w3 _ hw3]
      intro c cs q hc
      have h2 : c ≠ ':' := ne_of_isSpace hc (by decide)
      simp [h2]
    · rw [starLoop_space_eol _ _ _ _ hw3]
      simp only [accept]
      rw [take_run _ _ n0 ns _ (by omega)]

theorem isSpace_of_blank (ws : Line) (h : ∀ c ∈ ws, c = ' ' ∨ c = '\t') :
    ∀ c ∈ ws, isSpace c = true := by
  intro c hc
  rcases h c hc with rfl | rfl <;> decide

/-- C13. For a name `N` that is non-empty, has no `:` and neither starts nor ends
with whitespace, a value `V` that is non-empty and neither starts nor ends with
whitespace (neither holding a newline, as they are parts of one line), and runs
`w1` .. `w5` of spaces and tabs: on the line `w1 - w2 N w3` the rule
`ParseConstraint` returns the constraint with name `N` and empty value, and on
the line `w1 - w2 N w3 : w4 V w5` the constraint with name `N` and value `V`,
both without diagnostics. -/
theorem ParseConstraint_name_value (buf : List Line) (p : Nat) (w1 w2 w3 w4 w5 N V : Line)
    (hp : p < buf.length)
    (hw : ∀ c ∈ w1 ++ w2 ++ w3 ++ w4 ++ w5, c = ' ' ∨ c = '\t')
    (hN : N ≠ []) (hNc : ∀ c ∈ N, c ≠ ':' ∧ c ≠ '\n')
    (hNf : ∀ c, N.head? = some c → isSpace c = false)
    (hNl : ∀ c, N.getLast? = some c → isSpace c = false)
    (hV : V ≠ []) (hVc : ∀ c ∈ V, c ≠ '\n')
    (hVf : ∀ c, V.head? = some c → isSpace c = false)
    (hVl : ∀ c, V.getLast? = some c → isSpace c = false) :
    (buf.getD p [] = w1 ++ '-' :: (w2 ++ (N ++ w3)) →
      ParseConstraint ⟨buf, p⟩ = (some ⟨N, []⟩, [], ⟨buf, p + 1⟩)) ∧
    (buf.getD p [] = w1 ++ '-' :: (w2 ++ (N ++ (w3 ++ ':' :: (w4 ++ (V ++ w5))))) →
      ParseConstraint ⟨buf, p⟩ = (some ⟨N, V⟩, [], ⟨buf, p + 1⟩)) := by
  obtain ⟨n0, ns, rfl⟩ := List.exists_cons_of_ne_nil hN
  obtain ⟨v0, vs, rfl⟩ := List.exists_cons_of_ne_nil hV
  have hw1 := isSpace_of_blank w1 (fun c hc => hw c (by simp [hc]))
  have hw2 := isSpace_of_blank w2 (fun c hc => hw c (by simp [hc]))
  have hw3 := isSpace_of_blank w3 (fun c hc => hw c (by simp [hc]))
  have hw4 := isSpace_of_blank w4 (fun c hc => hw c (by simp [hc]))
  have hw5 := isSpace_of_blank w5 (fun c hc => hw c (by simp [hc]))
  have hn : ∀ c ∈ n0 :: ns, c ≠ ':' ∧ isDot c = true :=
    fun c hc => ⟨(hNc c hc).1, by simp [isDot, (hNc c hc).2]⟩
  have hv : ∀ c ∈ v0 :: vs, isDot c = true := fun c hc => by simp [isDot, hVc c hc]
  rw [ParseConstraint_at buf p hp]
  constructor
  · intro hl
    rw [hl]
    have h := Regex.search_of_run _ _ _ _
      (constraint_name_run w1 w2 w3 ns n0 hw1 hw2 hw3 (hNf n0 rfl) hNl hn)
    simp only [List.cons_append] at h ⊢
    rw [Regex.FindStringSubmatch, h]
    rfl
  · intro hl
    rw [hl]
    have h := Regex.search_of_run _ _ _ _
      (constraint_value_run w1 w2 w3 w4 w5 ns vs n0 v0 hw1 hw2 hw3 hw4 hw5 (hNf n0 rfl) hNl hn
        (hVf v0 rfl) hVl hv)
    simp only [List.cons_append] at h ⊢
    rw [Regex.FindStringSubmatch, h]
    rfl

theorem ParseConstraint_name_value_witness :
    ParseConstraint ⟨["uid int".toList, " - primary key ".toList], 1⟩ =
        (some ⟨"primary key".toList, []⟩, [], ⟨["uid int".toList, " - primary key ".toList], 1 + 1⟩) ∧
    ParseConstraint ⟨["uid int".toList, "-default\t: a: b ".toList], 1⟩ =
        (some ⟨"default".toList, "a: b".toList⟩, [],
          ⟨["uid int".toList, "-default\t: a: b ".toList], 1 + 1⟩) :=
  ⟨(ParseConstraint_name_value ["uid int".toList, " - primary key ".toList] 1
      " ".toList " ".toList " ".toList [] [] "primary key".toList "x".toList
      (by decide) (by decide) (by decide) (by decide) (by decide) (by decide) (by decide)
      (by decide) (by decide) (by decide)).1 rfl,
   (ParseConstraint_name_value ["uid int".toList, "-default\t: a: b ".toList] 1
      [] [] "\t".toList " ".toList " ".toList "default".toList "a: b".toList
      (by decide) (by decide) (by decide) (by decide) (by decide) (by decide) (by decide)
      (by decide) (by decide) (by decide)).2 rfl⟩

/-! ## Whitespace-only constraint fields -/

/-- C18. Evaluation of the code where the claim fails: in the table `[t]` with the
column `x int`, the sub-line `- ` (a dash and a space) is accepted without a
diagnostic as a constraint whose name is the single space, and the sub-line
`-a: ` as a constraint whose value is the single space; the fields are not trimmed. -/
theorem Parse_whitespace_constraint_field :
    Parse ["[t]".toList, "x int".toList, "- ".toList] =
        some (⟨[], [⟨"t".toList, [⟨"x".toList, "int".toList, [], [], [⟨" ".toList, []⟩]⟩]⟩]⟩, []) ∧
    Parse ["[t]".toList, "x int".toList, "-a: ".toList] =
        some (⟨[], [⟨"t".toList,
          [⟨"x".toList, "int".toList, [], [], [⟨"a".toList, " ".toList⟩]⟩]⟩]⟩, []) := by
  constructor <;> decide

/-- C19. Evaluation of the code where the claim fails: the text `[t]`, `x int`,
`-` followed by two carriage returns (three lines) is parsed without a diagnostic,
the constraint being named by a carriage return; the rendered tree ends in the line
`-` with one carriage return, which the line scanner strips, and parsing the
rendered text gives the diagnostic "Ill-formed constraint" and no table. -/
theorem Parse_render_carriage_return :
    ScanLines "[t]\nx int\n-\r\r\n".toList = ["[t]".toList, "x int".toList, "-\r".toList] ∧
    Parse (ScanLines "[t]\nx int\n-\r\r\n".toList) =
        some (⟨[], [⟨"t".toList, [⟨"x".toList, "int".toList, [], [], [⟨"\r".toList, []⟩]⟩]⟩]⟩, []) ∧
    ParseTree.String
        ⟨[], [⟨"t".toList, [⟨"x".toList, "int".toList, [], [], [⟨"\r".toList, []⟩]⟩]⟩]⟩ =
      "\n[t]\nx int\n-\r\n".toList ∧
    Parse (ScanLines "\n[t]\nx int\n-\r\n".toList) =
        some (⟨[], []⟩, [⟨"Ill-formed constraint", 4⟩]) := by
  refine ⟨by decide, by decide, by decide, by decide⟩

/-! ## The cursor of the scanner -/

theorem Scan_buffer (s : Scanner) : s.Scan.2.buffer = s.buffer := by
  simp only [Scanner.Scan]
  split <;> rfl

theorem Backtrack_buffer (s : Scanner) : s.Backtrack.2.buffer = s.buffer := by
  simp only [Scanner.Backtrack]
  split <;> rfl

theorem Scan_line_le (s : Scanner) (h : s.line ≤ s.buffer.length + 1) :
    s.Scan.2.line ≤ s.buffer.length + 1 := by
  simp only [Scanner.Scan]
  split
  · show s.line + 1 ≤ s.buffer.length + 1
    omega
  · exact h

theorem Backtrack_line_le (s : Scanner) (h : s.line ≤ s.buffer.length + 1) :
    s.Backtrack.2.line ≤ s.buffer.length + 1 := by
  simp only [Scanner.Backtrack]
  split
  · show s.line - 1 ≤ s.buffer.length + 1
    omega
  · exact h

theorem Scan_true_iff (s : Scanner) :
    s.Scan.1 = true ↔ 1 ≤ s.Scan.2.line ∧ s.Scan.2.line ≤ s.buffer.length := by
  simp only [Scanner.Scan]
  split
  · simp
  · simp
    omega

/-- Any sequence of `Scan` and `Backtrack` calls keeps the buffer and leaves the
cursor between 0 and the number of lines plus one. -/
theorem calls_invariant (lines : List Line) :
    ∀ (calls : List (Scanner → Bool × Scanner)) (s0 : Scanner),
      (∀ f ∈ calls, f = Scanner.Scan ∨ f = Scanner.Backtrack) →
      s0.buffer = lines → s0.line ≤ lines.length + 1 →
      (calls.foldl (fun s f => (f s).2) s0).buffer = lines ∧
        (calls.foldl (fun s f => (f s).2) s0).line ≤ lines.length + 1 := by
  intro calls
  induction calls with
  | nil => intro s0 _ hb hl; exact ⟨hb, hl⟩
  | cons f fs ih =>
    intro s0 h hb hl
    rw [List.foldl_cons]
    apply ih _ (fun g hg => h g (by simp [hg]))
    · rcases h f (by simp) with rfl | rfl
      · rw [Scan_buffer, hb]
      · rw [Backtrack_buffer, hb]
    · rcases h f (by simp) with rfl | rfl
      · have := Scan_line_le s0 (by rw [hb]; exact hl)
        rwa [hb] at this
      · have := Backtrack_line_le s0 (by rw [hb]; exact hl)
        rwa [hb] at this

/-- C21. For a scanner built over the lines `lines`, after any finite sequence of
`Scan` and `Backtrack` calls: the buffer is still `lines` and the cursor is at most
the number of lines plus one; a further `Scan` returns true exactly when the cursor
after it is between 1 and the number of lines; `Text` is the empty string at cursor 0
and at cursor number of lines plus one, and otherwise the line at index cursor minus
one, which exists in the buffer; and a further `Scan` or `Backtrack` leaves the
buffer as it is. -/
theorem Scanner_cursor_bounds (lines : List Line) (calls : List (Scanner → Bool × Scanner))
    (s : Scanner) (hcalls : ∀ f ∈ calls, f = Scanner.Scan ∨ f = Scanner.Backtrack)
    (hs : s = calls.foldl (fun s f => (f s).2) (NewScanner lines)) :
    s.buffer = lines ∧ s.line ≤ lines.length + 1 ∧
    (s.Scan.1 = true ↔ 1 ≤ s.Scan.2.line ∧ s.Scan.2.line ≤ lines.length) ∧
    (s.line = 0 ∨ s.line = lines.length + 1 → s.Text = []) ∧
    (1 ≤ s.line ∧ s.line ≤ lines.length → lines.get? (s.line - 1) = some s.Text) ∧
    s.Scan.2.buffer = lines ∧ s.Backtrack.2.buffer = lines := by
  obtain ⟨hb, hl⟩ := calls_invariant lines calls (NewScanner lines) hcalls rfl
    (by simp [NewScanner])
  rw [← hs] at hb hl
  refine ⟨hb, hl, ?_, ?_, ?_, ?_, ?_⟩
  · have := Scan_true_iff s
    rwa [hb] at this
  · intro h
    simp only [Scanner.Text, Scanner.EOF, hb]
    rw [if_pos]
    rcases h with h | h
    · exact Or.inl h
    · exact Or.inr (by simp [h])
  · intro h
    simp only [Scanner.Text, Scanner.EOF, hb]
    rw [if_neg (by simp; omega)]
    rw [List.getD_eq_getElem?_getD, List.get?_eq_getElem?]
    have : s.line - 1 < lines.length := by omega
    simp [List.getElem?_eq_getElem this]
  · rw [Scan_buffer, hb]
  · rw [Backtrack_buffer, hb]

theorem Scanner_cursor_bounds_witness :
    (⟨["a".toList, [], "b".toList], 2⟩ : Scanner).buffer = ["a".toList, [], "b".toList] ∧
    (⟨["a".toList, [], "b".toList], 2⟩ : Scanner).line ≤ ["a".toList, [], "b".toList].length + 1 ∧
    ((⟨["a".toList, [], "b".toList], 2⟩ : Scanner).Scan.1 = true ↔
      1 ≤ (⟨["a".toList, [], "b".toList], 2⟩ : Scanner).Scan.2.line ∧
        (⟨["a".toList, [], "b".toList], 2⟩ : Scanner).Scan.2.line ≤
          ["a".toList, [], "b".toList].length) ∧
    ((⟨["a".toList, [], "b".toList], 2⟩ : Scanner).line = 0 ∨
      (⟨["a".toList, [], "b".toList], 2⟩ : Scanner).line = ["a".toList, [], "b".toList].length + 1 →
      (⟨["a".toList, [], "b".toList], 2⟩ : Scanner).Text = []) ∧
    (1 ≤ (⟨["a".toList, [], "b".toList], 2⟩ : Scanner).line ∧
      (⟨["a".toList, [], "b".toList], 2⟩ : Scanner).line ≤ ["a".toList, [], "b".toList].length →
      ["a".toList, [], "b".toList].get? ((⟨["a".toList, [], "b".toList], 2⟩ : Scanner).line - 1) =
        some (⟨["a".toList, [], "b".toList], 2⟩ : Scanner).Text) ∧
    (⟨["a".toList, [], "b".toList], 2⟩ : Scanner).Scan.2.buffer = ["a".toList, [], "b".toList] ∧
    (⟨["a".toList, [], "b".toList], 2⟩ : Scanner).Backtrack.2.buffer =
      ["a".toList, [], "b".toList] :=
  Scanner_cursor_bounds ["a".toList, [], "b".toList]
    [Scanner.Scan, Scanner.Scan, Scanner.Scan, Scanner.Backtrack] ⟨["a".toList, [], "b".toList], 2⟩
    (by
      intro f hf
      simp only [List.mem_cons, List.mem_singleton, List.not_mem_nil, or_false] at hf
      rcases hf with rfl | rfl | rfl | rfl <;> simp)
    (by decide)

/-! ## The constraint pattern is not anchored at the start -/

/-- C22. Evaluation of the code where the claim fails: the line `a-b` does not begin
with optional whitespace and `-` (the sub-line indicator does not match it), yet
`ParseConstraint` returns the constraint named `b` and no diagnostic, because the
pattern may start matching inside the line; likewise `uid-x int` gives the
constraint `x int`. The line `uid int`, which holds no `-`, is rejected with one
diagnostic. -/
theorem ParseConstraint_inside_line :
    subIndicator.MatchString "a-b".toList = false ∧
    ParseConstraint ⟨["a-b".toList], 0⟩ = (some ⟨"b".toList, []⟩, [], ⟨["a-b".toList], 1⟩) ∧
    subIndicator.MatchString "uid-x int".toList = false ∧
    ParseConstraint ⟨["uid-x int".toList], 0⟩ =
      (some ⟨"x int".toList, []⟩, [], ⟨["uid-x int".toList], 1⟩) ∧
    ParseConstraint ⟨["uid int".toList], 0⟩ =
      (none, [⟨"Ill-formed constraint", 1⟩], ⟨["uid int".toList], 1⟩) := by
  refine ⟨by decide, by decide, by decide, by decide, by decide⟩

/-! ## Line numbers of the diagnostics -/

theorem ErrorsWithin_nil (lo hi : Nat) : ErrorsWithin lo hi [] :=
  ⟨by simp, by simp⟩

theorem ErrorsWithin_mono {lo hi hi2 : Nat} {errs : List ParseError}
    (h : ErrorsWithin lo hi errs) (h2 : hi ≤ hi2) : ErrorsWithin lo hi2 errs :=
  ⟨h.1, fun e he => ⟨(h.2 e he).1, Nat.le_trans (h.2 e he).2 h2⟩⟩

theorem ErrorsWithin_single (lo hi n : Nat) (msg : String) (h1 : lo < n) (h2 : n ≤ hi) :
    ErrorsWithin lo hi [⟨msg, n⟩] := by
  refine ⟨by simp, ?_⟩
  intro e he
  rw [List.mem_singleton] at he
  subst he
  exact ⟨h1, h2⟩

theorem ErrorsWithin_append {lo mid hi : Nat} {a b : List ParseError}
    (ha : ErrorsWithin lo mid a) (hb : ErrorsWithin mid hi b) (h1 : lo ≤ mid) (h2 : mid ≤ hi) :
    ErrorsWithin lo hi (a ++ b) := by
  refine ⟨?_, ?_⟩
  · rw [List.map_append, List.pairwise_append]
    refine ⟨ha.1, hb.1, ?_⟩
    intro x hx y hy
    obtain ⟨e, he, rfl⟩ := List.mem_map.1 hx
    obtain ⟨g, hg, rfl⟩ := List.mem_map.1 hy
    have := (ha.2 e he).2
    have := (hb.2 g hg).1
    omega
  · intro e he
    rcases List.mem_append.1 he with h | h
    · have := ha.2 e h
      omega
    · have := hb.2 e h
      omega

/-- The sub-line loop keeps the diagnostics in increasing line order, each at a line
already read. -/
theorem columnLoop_errors (buf : List Line) (lo : Nat) :
    ∀ (fuel p : Nat) (column : Column) (errors : List ParseError) (col : Column)
      (errs : List ParseError) (s : Scanner),
      columnLoop fuel ⟨buf, p⟩ column errors = some (col, errs, s) → lo ≤ p →
      ErrorsWithin lo (min p buf.length) errors →
      ErrorsWithin lo (min s.line buf.length) errs := by
  intro fuel
  induction fuel with
  | zero => intro p column errors col errs s h; simp [columnLoop] at h
  | succ f ih =>
    intro p column errors col errs s h hlo hinv
    by_cases hp : p < buf.length
    · have keep : ErrorsWithin lo (min (p + 1) buf.length) errors :=
        ErrorsWithin_mono hinv (by omega)
      have step : ∀ msg : String,
          ErrorsWithin lo (min (p + 1) buf.length) (errors ++ [⟨msg, p + 1⟩]) := by
        intro msg
        exact ErrorsWithin_append (ErrorsWithin_mono hinv (Nat.min_le_left _ _))
          (ErrorsWithin_single _ _ _ _ (by omega) (by omega)) hlo (by omega)
      cases ha : Contains (buf.getD p []) "alias".toList with
      | true =>
        rw [columnLoop_alias f buf p hp ha] at h
        cases hm : aliasFormat.FindStringSubmatch (buf.getD p []) with
        | some m =>
          simp only [hm] at h
          exact ih (p + 1) _ _ _ _ _ h (by omega) keep
        | none =>
          simp only [hm] at h
          exact ih (p + 1) _ _ _ _ _ h (by omega) (step _)
      | false =>
        cases hs : subIndicator.MatchString (buf.getD p []) with
        | true =>
          rw [columnLoop_sub f buf p hp ha hs] at h
          cases hm : constraintFormat.FindStringSubmatch (buf.getD p []) with
          | some m =>
            simp only [hm] at h
            exact ih (p + 1) _ _ _ _ _ h (by omega) keep
          | none =>
            simp only [hm] at h
            exact ih (p + 1) _ _ _ _ _ h (by omega) (step _)
        | false =>
          rw [columnLoop_stop f buf p hp ha hs] at h
          simp only [Option.some.injEq, Prod.mk.injEq] at h
          obtain ⟨_, rfl, rfl⟩ := h
          exact hinv
    · rw [columnLoop_eof f buf p (by omega)] at h
      simp only [Option.some.injEq, Prod.mk.injEq] at h
      obtain ⟨_, rfl, rfl⟩ := h
      refine ErrorsWithin_mono hinv ?_
      show min p buf.length ≤ min (if p = buf.length then p + 1 else p) buf.length
      split <;> omega

/-- The diagnostics of `ParseColumn` are in increasing line order, at lines it has
consumed. -/
theorem ParseColumn_errors (buf : List Line) (p : Nat) (hp : p < buf.length)
    (c : Option Column) (errs : List ParseError) (s : Scanner)
    (h : ParseColumn ⟨buf, p⟩ = some (c, errs, s)) :
    ErrorsWithin p (min s.line buf.length) errs := by
  rw [ParseColumn_at buf p hp] at h
  cases hm : columnFormat.FindStringSubmatch (buf.getD p []) with
  | none =>
    simp only [hm, Option.some.injEq, Prod.mk.injEq] at h
    obtain ⟨_, rfl, rfl⟩ := h
    exact ErrorsWithin_single _ _ _ _ (by omega) (by show p + 1 ≤ min (p + 1) buf.length; omega)
  | some m =>
    simp only [hm] at h
    cases hc : columnLoop (buf.length + 1) ⟨buf, p + 1⟩ ⟨m 1, m 2, m 3, [], []⟩ [] with
    | none => rw [hc] at h; cases h
    | some r =>
      rw [hc] at h
      simp only [Option.some.injEq, Prod.mk.injEq] at h
      obtain ⟨_, rfl, rfl⟩ := h
      exact columnLoop_errors buf p _ _ _ _ r.1 r.2.1 r.2.2 hc (by omega) (ErrorsWithin_nil _ _)

/-- The column loop of `ParseTable` keeps the diagnostics in increasing line order. -/
theorem tableLoop_errors (buf : List Line) (lo : Nat) :
    ∀ (fuel p : Nat) (table : Table) (errors : List ParseError) (t : Option Table)
      (errs : List ParseError) (s : Scanner),
      tableLoop fuel ⟨buf, p⟩ table errors = some (t, errs, s) → lo ≤ p →
      ErrorsWithin lo (min p buf.length) errors →
      ErrorsWithin lo (min s.line buf.length) errs := by
  intro fuel
  induction fuel with
  | zero => intro p table errors t errs s h; simp [tableLoop] at h
  | succ f ih =>
    intro p table errors t errs s h hlo hinv
    by_cases hp : p < buf.length
    · by_cases hl : buf.getD p [] = []
      · rw [tableLoop_blank f buf p hp hl] at h
        simp only [Option.some.injEq, Prod.mk.injEq] at h
        obtain ⟨_, rfl, rfl⟩ := h
        exact ErrorsWithin_mono hinv (by show min p buf.length ≤ min (p + 1) buf.length; omega)
      · obtain ⟨col, cerrs, q, hc, hq1, hq2⟩ := ParseColumn_spec buf p hp
        have hce := ParseColumn_errors buf p hp _ _ _ hc
        rw [tableLoop_column f buf p hp hl table errors col cerrs _ hc] at h
        split at h
        · exact ih q _ _ _ _ _ h (by omega)
            (ErrorsWithin_append (ErrorsWithin_mono hinv (Nat.min_le_left _ _)) hce hlo
              (by show p ≤ min q buf.length; omega))
        · exact ih q _ _ _ _ _ h (by omega) (ErrorsWithin_mono hinv (by omega))
    · rw [tableLoop_eof f buf p (by omega)] at h
      simp only [Option.some.injEq, Prod.mk.injEq] at h
      obtain ⟨_, rfl, rfl⟩ := h
      refine ErrorsWithin_mono hinv ?_
      show min p buf.length ≤ min (if p = buf.length then p + 1 else p) buf.length
      split <;> omega

/-- The diagnostics of `ParseTable` are in increasing line order, at lines it has
consumed. -/
theorem ParseTable_errors (buf : List Line) (p : Nat) (hp : p < buf.length)
    (t : Option Table) (errs : List ParseError) (s : Scanner)
    (h : ParseTable ⟨buf, p⟩ = some (t, errs, s)) :
    ErrorsWithin p (min s.line buf.length) errs := by
  rw [ParseTable_at buf p hp] at h
  cases hm : tableName.FindStringSubmatch (buf.getD p []) with
  | none =>
    simp only [hm, Option.some.injEq, Prod.mk.injEq] at h
    obtain ⟨_, rfl, rfl⟩ := h
    exact ErrorsWithin_single _ _ _ _ (by omega) (by show p + 1 ≤ min (p + 1) buf.length; omega)
  | some m =>
    simp only [hm] at h
    exact tableLoop_errors buf p _ _ _ _ _ _ _ h (by omega) (ErrorsWithin_nil _ _)

/-- The main loop keeps the diagnostics in increasing line order, between line 1 and
the last line. -/
theorem parseLoop_errors (buf : List Line) :
    ∀ (fuel p : Nat) (tree : ParseTree) (errors : List ParseError) (tree1 : ParseTree)
      (errs : List ParseError) (s : Scanner),
      parseLoop fuel ⟨buf, p⟩ tree errors = some (tree1, errs, s) →
      ErrorsWithin 0 (min p buf.length) errors → ErrorsWithin 0 buf.length errs := by
  intro fuel
  induction fuel with
  | zero => intro p tree errors tree1 errs s h; simp [parseLoop] at h
  | succ f ih =>
    intro p tree errors tree1 errs s h hinv
    by_cases hp : p < buf.length
    · have keep : ∀ q, p ≤ q → ErrorsWithin 0 (min q buf.length) errors :=
        fun q hq => ErrorsWithin_mono hinv (by omega)
      by_cases hl : buf.getD p [] = []
      · rw [parseLoop_blank f buf p hp hl] at h
        exact ih (p + 1) _ _ _ _ _ h (keep _ (by omega))
      · by_cases h1 : (buf.getD p []).head? = some '#'
        · rw [parseLoop_directive f buf p hp h1] at h
          exact ih (p + 1) _ _ _ _ _ h (keep _ (by omega))
        · by_cases h2 : (buf.getD p []).head? = some '['
          · obtain ⟨t, terrs, q, ht, hq1, hq2⟩ := ParseTable_spec buf p hp
            have hte := ParseTable_errors buf p hp _ _ _ ht
            rw [parseLoop_table f buf p hp h2 tree errors t terrs _ ht] at h
            split at h
            · exact ih q _ _ _ _ _ h
                (ErrorsWithin_append (ErrorsWithin_mono hinv (Nat.min_le_left _ _)) hte
                  (Nat.zero_le _) (by show p ≤ min q buf.length; omega))
            · split at h <;> exact ih q _ _ _ _ _ h (keep _ (by omega))
          · rw [parseLoop_stray f buf p hp hl h1 h2] at h
            exact ih (p + 1) _ _ _ _ _ h
              (ErrorsWithin_append (ErrorsWithin_mono hinv (Nat.min_le_left _ _))
                (ErrorsWithin_single _ _ _ _ (by omega) (by omega)) (Nat.zero_le _) (by omega))
    · rw [parseLoop_eof f buf p (by omega)] at h
      simp only [Option.some.injEq, Prod.mk.injEq] at h
      obtain ⟨_, rfl, _⟩ := h
      exact ErrorsWithin_mono hinv (Nat.min_le_right _ _)

/-- C23. For every input, `Parse` returns, every diagnostic it returns carries a line
number between 1 and the number of input lines, no two diagnostics carry the same
line number, and the list of diagnostics is strictly increasing in line number; on
an eight-line input with a stray line, a bad column, a bad constraint, a bad alias
and a bad header the diagnostics carry the lines 1, 3, 5, 6 and 8, in this order. -/
theorem Parse_diagnostic_lines (lines : List Line) :
    ∃ tree errs, Parse lines = some (tree, errs) ∧
      (∀ e ∈ errs, 1 ≤ e.line ∧ e.line ≤ lines.length) ∧
      (errs.map (fun e => e.line)).Nodup ∧
      (errs.map (fun e => e.line)).Pairwise (fun a b => a < b) ∧
      (Parse ["x".toList, "[t]".toList, "a".toList, "b int".toList, "-".toList, "-alias".toList,
          [], "[bad name]".toList]).map (fun r => r.2) =
        some [⟨"Invalid token outside table definition", 1⟩, ⟨"Invalid column definition", 3⟩,
          ⟨"Ill-formed constraint", 5⟩, ⟨"Ill-formed alias", 6⟩, ⟨"Invalid table name", 8⟩] := by
  obtain ⟨tree, errs, h⟩ :=
    parseLoop_spec lines (lines.length + 1) 0 NewParseTree [] (by omega) (by omega) (by omega)
  have hrun : ParseRun lines = some (tree, errs, ⟨lines, lines.length + 1⟩) := by
    simp only [ParseRun, NewScanner, Scanner.EOF]
    rw [if_neg (by simp), h]
  have hw := parseLoop_errors lines _ _ _ _ _ _ _ h (ErrorsWithin_nil _ _)
  refine ⟨tree, errs, by simp [Parse, hrun], ?_, ?_, hw.1, by decide⟩
  · intro e he
    have := hw.2 e he
    omega
  · exact hw.1.imp (fun hab => Nat.ne_of_lt hab)

end Orb
